import Mathlib

/-!
# Basix: polynomial indexing, polynomial factories and the 2D Nédélec element

A shallow embedding of `cpp/polynomial.h` and `nedelec.cpp`.

Conventions of the embedding.

* C++ `int` values are integers of `Int`; `/` on `int` is truncating division,
  `Int.tdiv`.  In `idx` every operation is followed by the reduction `int32` to the
  range of a 32-bit `int`; signed overflow is undefined behaviour in C++, and the
  reduction modulo `2^32` is its result on the usual platforms.  The sizes computed
  in `nedelec.cpp` are not reduced.
* `double` values are elements of an arbitrary field `K` (exact arithmetic).
* A violated `assert`, a negative container size, an access outside a container
  and a thrown `std::runtime_error` are the four ways a call can fail; a
  function that can fail returns `Except Failure _`.
-/

namespace Basix

/-- The ways in which a call can fail. -/
inductive Failure where
  /-- A source-level `assert(...)` does not hold. -/
  | assertion
  /-- A container is resized to, or created with, a negative size. -/
  | badSize
  /-- A coefficient or a block outside the container is accessed. -/
  | outOfRange
  /-- The statement `throw std::runtime_error(msg)` is executed. -/
  | runtimeError (msg : String)
  deriving DecidableEq, Repr

/-- The statement `assert(b)`. -/
def assert (b : Bool) : Except Failure Unit :=
  if b then .ok () else .error .assertion

/-! ## `cpp/polynomial.h`: indexing -/

/-- The value that a 32-bit `int` in two's complement holds for the integer `n`:
the representative of `n` modulo `2^32` in `[-2^31, 2^31)`. -/
def int32 (n : Int) : Int := (n + 2147483648) % 4294967296 - 2147483648

/-- The function `idx(int p, int q)`: indexing in a 2D triangular array compressed
into a 1D array, `(p + q + 1) * (p + q) / 2 + q` with every operation in 32-bit
`int`. -/
def idx (p q : Int) : Int :=
  int32 (Int.tdiv (int32 (int32 (int32 (p + q) + 1) * int32 (p + q))) 2 + q)

/-- The function `idx(int p, int q, int r)`: indexing in a 3D tetrahedral array
compressed into a 1D array,
`(p + q + r) * (p + q + r + 1) * (p + q + r + 2) / 6 + (q + r) * (q + r + 1) / 2 + r`
with every operation in 32-bit `int`. -/
def idx3 (p q r : Int) : Int :=
  int32 (int32 (Int.tdiv (int32 (int32 (int32 (int32 (p + q) + r)
        * int32 (int32 (int32 (p + q) + r) + 1)) * int32 (int32 (int32 (p + q) + r) + 2))) 6
      + Int.tdiv (int32 (int32 (q + r) * int32 (int32 (q + r) + 1))) 2) + r)

/-- The expression `(p + q + 1) * (p + q) / 2 + q` of `idx` evaluated in the
integers, without the reduction to 32 bits. -/
def idx_exact (p q : Int) : Int := Int.tdiv ((p + q + 1) * (p + q)) 2 + q

/-- The expression of the 3D `idx` evaluated in the integers, without the reduction
to 32 bits. -/
def idx3_exact (p q r : Int) : Int :=
  Int.tdiv ((p + q + r) * (p + q + r + 1) * (p + q + r + 2)) 6
    + Int.tdiv ((q + r) * (q + r + 1)) 2 + r

/-! ## `cpp/polynomial.h`: the class `Polynomial` -/

/-- The data members of `class Polynomial`: the number of variables, the order and
the coefficient array. -/
structure Polynomial (K : Type) where
  /-- Polynomial dimension (number of variables). -/
  dim : Int
  /-- Polynomial order. -/
  order : Int
  /-- Coefficients in a triangular array, compressed to a linear one. -/
  coeffs : List K
  deriving DecidableEq, Repr

namespace Polynomial

variable {K : Type}

/-- The default constructor `Polynomial() : dim(-1), order(-1) {}`; the coefficient
array is empty. -/
def default : Polynomial K := { dim := -1, order := -1, coeffs := [] }

/-- The call `coeffs.resize(n)`: the array gets `n` entries whose values are not
initialised (every entry is `uninit` here); a negative size is refused. -/
def resize (uninit : K) (n : Int) : Except Failure (List K) :=
  if n < 0 then .error .badSize else .ok (List.replicate n.toNat uninit)

/-- The call `coeffs.setZero()`. -/
def setZero [Zero K] (c : List K) : List K := c.map (fun _ => 0)

/-- The assignment `coeffs[i] = v`, which is refused outside `0 <= i < size`. -/
def setCoeff (c : List K) (i : Int) (v : K) : Except Failure (List K) :=
  if 0 ≤ i ∧ i < c.length then .ok (c.set i.toNat v) else .error .outOfRange

/-- The factory `Polynomial::zero(N)`. -/
def zero [Zero K] (uninit : K) (N : Int) : Except Failure (Polynomial K) := do
  let p : Polynomial K := default
  let p := { p with dim := N }
  let p := { p with order := 0 }
  let c ← resize uninit 1
  let c ← setCoeff c 0 0
  return { p with coeffs := c }

/-- The factory `Polynomial::one(N)`. -/
def one [Zero K] [One K] (uninit : K) (N : Int) : Except Failure (Polynomial K) := do
  let p : Polynomial K := default
  let p := { p with dim := N }
  let p := { p with order := 0 }
  let c ← resize uninit 1
  let c ← setCoeff c 0 1
  return { p with coeffs := c }

/-- The factory `Polynomial::z(N)`. -/
def z [Zero K] [One K] (uninit : K) (N : Int) : Except Failure (Polynomial K) := do
  assert (decide (N = 3))
  let p : Polynomial K := default
  let p := { p with dim := N }
  let p := { p with order := 1 }
  let c ← resize uninit (N + 1)
  let c := setZero c
  let c ← setCoeff c 3 1
  return { p with coeffs := c }

/-- The accessor `dimension()`. -/
def dimension (p : Polynomial K) : Int := p.dim

end Polynomial

/-! ## Dense matrices of `Eigen`

A matrix with `n` rows and `m` columns is a `Matrix (Fin n) (Fin m) K`.  Rows and
columns are addressed with C++ `int` values, and an access outside the matrix is
refused. -/

namespace Eigen

variable {K : Type} {n m : Nat}

/-- The assignment `M(r, c) = v`. -/
def setCoeff (M : Matrix (Fin n) (Fin m) K) (r c : Int) (v : K) :
    Except Failure (Matrix (Fin n) (Fin m) K) :=
  if 0 ≤ r ∧ r < n ∧ 0 ≤ c ∧ c < m then
    .ok (fun i j => if (i : Int) = r ∧ (j : Int) = c then v else M i j)
  else .error .outOfRange

/-- Reading the coefficient `M(r, c)`. -/
def coeff (M : Matrix (Fin n) (Fin m) K) (r c : Int) : Except Failure K :=
  if h : 0 ≤ r ∧ r < n ∧ 0 ≤ c ∧ c < m then
    .ok (M ⟨r.toNat, by omega⟩ ⟨c.toNat, by omega⟩)
  else .error .outOfRange

/-- Reading the row `M.row(r)`. -/
def row (M : Matrix (Fin n) (Fin m) K) (r : Int) : Except Failure (Fin m → K) :=
  if h : 0 ≤ r ∧ r < n then .ok (M ⟨r.toNat, by omega⟩) else .error .outOfRange

/-- The assignment `M.col(c) = v`. -/
def setCol (M : Matrix (Fin n) (Fin m) K) (c : Int) (v : Fin n → K) :
    Except Failure (Matrix (Fin n) (Fin m) K) :=
  if 0 ≤ c ∧ c < m then .ok (fun i j => if (j : Int) = c then v i else M i j)
  else .error .outOfRange

/-- The assignment `M.block(r0, c0, h, w) = B` for a block `B` of `h` rows and `w`
columns. -/
def setBlock (M : Matrix (Fin n) (Fin m) K) (r0 c0 : Int) {h w : Nat}
    (B : Matrix (Fin h) (Fin w) K) : Except Failure (Matrix (Fin n) (Fin m) K) :=
  if 0 ≤ r0 ∧ 0 ≤ c0 ∧ r0 + h ≤ n ∧ c0 + w ≤ m then
    .ok (fun i j =>
      if hb : r0 ≤ i ∧ (i : Int) < r0 + h ∧ c0 ≤ j ∧ (j : Int) < c0 + w then
        B ⟨((i : Int) - r0).toNat, by omega⟩ ⟨((j : Int) - c0).toNat, by omega⟩
      else M i j)
  else .error .outOfRange

/-- A vector of `w` entries seen as a block of one row. -/
def asRow {w : Nat} (v : Fin w → K) : Matrix (Fin 1) (Fin w) K := fun _ l => v l

/-- The element `v[i]` of a `std::vector`. -/
def elemAt {α : Type} (v : List α) (i : Int) : Except Failure α :=
  if 0 ≤ i then
    match v[i.toNat]? with
    | some a => .ok a
    | none => .error .outOfRange
  else .error .outOfRange

/-- The update `v[i] = f(v[i])` of an element of a `std::vector`. -/
def modifyAt {α : Type} (v : List α) (i : Int) (f : α → α) : Except Failure (List α) :=
  if 0 ≤ i ∧ i < v.length then .ok (v.modify f i.toNat) else .error .outOfRange

end Eigen

/-! ## `nedelec.cpp`: the collaborators -/

/-- A quadrature rule for the reference `N`-simplex, the value returned by
`make_quadrature`: the points, one row per point, and one weight per point. -/
structure Quadrature (K : Type) (N : Nat) where
  /-- The number of quadrature points. -/
  npts : Nat
  /-- The array of points. -/
  pts : Matrix (Fin npts) (Fin N) K
  /-- The array of weights. -/
  wts : Fin npts → K

/-- The functions that `nedelec.cpp` calls and that are defined in other files of
the repository: the reference simplex, the orthonormal polynomial sets, the
quadrature rules and the arithmetic and evaluation of `Polynomial`. -/
structure Collaborators (K : Type) where
  /-- The call `ReferenceSimplex::create_simplex(N)`: one row per vertex. -/
  create_simplex : (N : Nat) → Matrix (Fin (N + 1)) (Fin N) K
  /-- The call `ReferenceSimplex::sub(simplex, k, i)`: the vertices of the `i`-th
  sub-entity of dimension `k`. -/
  sub : {N : Nat} → Matrix (Fin (N + 1)) (Fin N) K → (k : Nat) → Int →
    Matrix (Fin (k + 1)) (Fin N) K
  /-- The call `ReferenceSimplex::compute_polynomial_set(N, degree)`. -/
  compute_polynomial_set : Int → Int → List (Polynomial K)
  /-- The call `make_quadrature(N, degree)`. -/
  make_quadrature : (N : Nat) → Int → Quadrature K N
  /-- The value of a polynomial at a point. -/
  eval : {N : Nat} → Polynomial K → (Fin N → K) → K
  /-- The result of `p += q`. -/
  add : Polynomial K → Polynomial K → Polynomial K
  /-- The result of `p * scale`. -/
  scale : Polynomial K → K → Polynomial K

/-- Modelled from the spec: `Polynomial::tabulate(points)`, declared in
`polynomial.h` and defined in a file that is not part of the sources at hand,
returns the vector of the values of the polynomial at the points, one value per
row of `points`. -/
def Collaborators.tabulate {K : Type} (env : Collaborators K) (p : Polynomial K) {M N : Nat}
    (points : Matrix (Fin M) (Fin N) K) : Fin M → K :=
  fun i => env.eval p (points i)

/-! ## `nedelec.cpp`: the class `Nedelec2D` -/

/-- The data members of `class Nedelec2D`. -/
structure Nedelec2D (K : Type) where
  /-- The spatial dimension. -/
  _dim : Int
  /-- The degree of the element minus one. -/
  _degree : Int
  /-- The basis, as x-components followed by y-components. -/
  poly_set : List (Polynomial K)

namespace Nedelec2D

variable {K : Type} [Field K]

/-- The local `nv = (_degree + 1) * (_degree + 2) / 2`. -/
def nv (_degree : Int) : Int := Int.tdiv ((_degree + 1) * (_degree + 2)) 2

/-- The local `ns = _degree + 1`. -/
def ns (_degree : Int) : Int := _degree + 1

/-- The local `ns0 = (_degree + 1) * _degree / 2`. -/
def ns0 (_degree : Int) : Int := Int.tdiv ((_degree + 1) * _degree) 2

/-- The local `Pkp1 = ReferenceSimplex::compute_polynomial_set(2, _degree + 1)`. -/
def Pkp1 (env : Collaborators K) (_degree : Int) : List (Polynomial K) :=
  env.compute_polynomial_set 2 (_degree + 1)

/-- The local `psize = Pkp1.size()`. -/
def psize (env : Collaborators K) (_degree : Int) : Int := ((Pkp1 env _degree).length : Int)

/-- The number of rows `nv * 2 + ns` of `wcoeffs` and `dualmat`. -/
def nrows (_degree : Int) : Nat := (nv _degree * 2 + ns _degree).toNat

/-- The number of columns `psize * 2` of `wcoeffs` and `dualmat`. -/
def ncols (env : Collaborators K) (_degree : Int) : Nat := (psize env _degree * 2).toNat

/-- The local `auto [Qpts, Qwts] = make_quadrature(2, 2 * _degree + 2)`. -/
def Qrule (env : Collaborators K) (_degree : Int) : Quadrature K 2 :=
  env.make_quadrature 2 (2 * _degree + 2)

/-- The table of the values of the members of `Pkp1` at the points `pts`, filled row
by row with `Pkp1[j].tabulate(pts)` for `j < psize`; it is `Pkp1_at_Qpts` for the
points of the triangle rule and `Pkp1_at_QptsE` for the points mapped to an edge. -/
def Pkp1_at (env : Collaborators K) (_degree : Int) {M : Nat} (pts : Matrix (Fin M) (Fin 2) K) :
    Matrix (Fin (Pkp1 env _degree).length) (Fin M) K :=
  fun j => env.tabulate ((Pkp1 env _degree).get j) pts

/-- The creation of a matrix of `nv * 2 + ns` rows and `psize * 2` columns followed
by `setZero()`. -/
def zeroMatrix (env : Collaborators K) (_degree : Int) :
    Except Failure (Matrix (Fin (nrows _degree)) (Fin (ncols env _degree)) K) :=
  if nv _degree * 2 + ns _degree < 0 ∨ psize env _degree * 2 < 0 then .error .badSize
  else .ok (fun _ _ => 0)

/-- The body of the loops over `i` and `k` that fill the rows of `wcoeffs` from
`2 * nv` on. -/
def wcoeffs_step (env : Collaborators K) (_degree : Int)
    (W : Matrix (Fin (nrows _degree)) (Fin (ncols env _degree)) K) (i k : Nat) :
    Except Failure (Matrix (Fin (nrows _degree)) (Fin (ncols env _degree)) K) := do
  let Q := Qrule env _degree
  let ri ← Eigen.row (Pkp1_at env _degree Q.pts) (ns0 _degree + i)
  let rk ← Eigen.row (Pkp1_at env _degree Q.pts) k
  let w0 : Fin Q.npts → K := fun q => Q.wts q * ri q * Q.pts q 1 * rk q
  let W ← Eigen.setCoeff W (2 * nv _degree + i) k (∑ q, w0 q)
  let w1 : Fin Q.npts → K := fun q => -Q.wts q * ri q * Q.pts q 0 * rk q
  Eigen.setCoeff W (2 * nv _degree + i) (k + psize env _degree) (∑ q, w1 q)

/-- The matrix `wcoeffs` at line 54 of `nedelec.cpp`. -/
def wcoeffs (env : Collaborators K) (_degree : Int) :
    Except Failure (Matrix (Fin (nrows _degree)) (Fin (ncols env _degree)) K) := do
  let W ← zeroMatrix env _degree
  if nv _degree < 0 then throw Failure.badSize
  let W ← Eigen.setBlock W 0 0 (1 : Matrix (Fin (nv _degree).toNat) (Fin (nv _degree).toNat) K)
  let W ← Eigen.setBlock W (nv _degree) (psize env _degree)
    (1 : Matrix (Fin (nv _degree).toNat) (Fin (nv _degree).toNat) K)
  (List.range (ns _degree).toNat).foldlM (fun W i =>
    (List.range (psize env _degree).toNat).foldlM (fun W k =>
      wcoeffs_step env _degree W i k) W) W

/-- The value `w0.sum()` computed in the pass `(i, k)` of the loops of `wcoeffs`,
in closed form: `sum_q Qwts[q] * Pkp1[ns0 + i](q) * y_q * Pkp1[k](q)`. -/
def w0_sum (env : Collaborators K) (_degree : Int) (i k : Nat) : K :=
  ∑ q, (Qrule env _degree).wts q
    * env.eval ((Pkp1 env _degree).getD (ns0 _degree + i).toNat Polynomial.default)
        ((Qrule env _degree).pts q)
    * (Qrule env _degree).pts q 1
    * env.eval ((Pkp1 env _degree).getD k Polynomial.default) ((Qrule env _degree).pts q)

/-- The value `w1.sum()` computed in the pass `(i, k)` of the loops of `wcoeffs`,
in closed form: `sum_q -Qwts[q] * Pkp1[ns0 + i](q) * x_q * Pkp1[k](q)`. -/
def w1_sum (env : Collaborators K) (_degree : Int) (i k : Nat) : K :=
  ∑ q, -(Qrule env _degree).wts q
    * env.eval ((Pkp1 env _degree).getD (ns0 _degree + i).toNat Polynomial.default)
        ((Qrule env _degree).pts q)
    * (Qrule env _degree).pts q 0
    * env.eval ((Pkp1 env _degree).getD k Polynomial.default) ((Qrule env _degree).pts q)

/-- The local `quad_deg = 5 * (_degree + 1)`. -/
def quad_deg (_degree : Int) : Int := 5 * (_degree + 1)

/-- The local `auto [QptsE, QwtsE] = make_quadrature(1, quad_deg)`. -/
def QruleE (env : Collaborators K) (_degree : Int) : Quadrature K 1 :=
  env.make_quadrature 1 (quad_deg _degree)

/-- The body of the loop over the members `Pq[j]` of the edge polynomial set, for
the edge with vertices `edge` and the given tangent: both components of the moment
are written to row `c`, and `c` is incremented. -/
def edge_step (env : Collaborators K) (_degree : Int) (edge : Matrix (Fin 2) (Fin 2) K)
    (tangent : Fin 2 → K)
    (s : Matrix (Fin (nrows _degree)) (Fin (ncols env _degree)) K × Int) (pq : Polynomial K) :
    Except Failure (Matrix (Fin (nrows _degree)) (Fin (ncols env _degree)) K × Int) := do
  let QE := QruleE env _degree
  let QptsE_scaled : Matrix (Fin QE.npts) (Fin 2) K :=
    fun j => edge 0 + QE.pts j 0 • (edge 1 - edge 0)
  let phi := env.tabulate pq QE.pts
  let D ← (List.finRange 2).foldlM (fun D k => do
    let q : Fin QE.npts → K := fun t => phi t * QE.wts t * tangent k
    let qcoeffs := Matrix.mulVec (Pkp1_at env _degree QptsE_scaled) q
    Eigen.setBlock D s.2 (psize env _degree * (k : Nat)) (Eigen.asRow qcoeffs)) s.1
  return (D, s.2 + 1)

/-- The body of the loop over the three edges of the triangle. -/
def edges_step (env : Collaborators K) (_degree : Int)
    (s : Matrix (Fin (nrows _degree)) (Fin (ncols env _degree)) K × Int) (i : Nat) :
    Except Failure (Matrix (Fin (nrows _degree)) (Fin (ncols env _degree)) K × Int) :=
  let triangle := env.create_simplex 2
  let edge : Matrix (Fin 2) (Fin 2) K := env.sub triangle 1 i
  let tangent : Fin 2 → K := edge 1 - edge 0
  let tangent : Fin 2 → K := if i = 1 then fun a => tangent a * (-1) else tangent
  (env.compute_polynomial_set 1 _degree).foldlM (edge_step env _degree edge tangent) s

/-- The body of the loop over the members `Pkm1[i]` of the interior polynomial set:
the moment is written to the first half of row `c` and to the second half of row
`c + 1`, and `c` is incremented twice. -/
def interior_step (env : Collaborators K) (_degree : Int)
    (s : Matrix (Fin (nrows _degree)) (Fin (ncols env _degree)) K × Int) (chi : Polynomial K) :
    Except Failure (Matrix (Fin (nrows _degree)) (Fin (ncols env _degree)) K × Int) := do
  let Q := Qrule env _degree
  let phi := env.tabulate chi Q.pts
  let q : Fin Q.npts → K := fun t => phi t * Q.wts t
  let qcoeffs := Matrix.mulVec (Pkp1_at env _degree Q.pts) q
  assert (decide (((Pkp1 env _degree).length : Int) = psize env _degree))
  let D ← Eigen.setBlock s.1 s.2 0 (Eigen.asRow qcoeffs)
  let c := s.2 + 1
  let D ← Eigen.setBlock D c (psize env _degree) (Eigen.asRow qcoeffs)
  let c := c + 1
  return (D, c)

/-- The matrix `dualmat` and the dof counter `c` at line 133 of `nedelec.cpp`. -/
def dualmat (env : Collaborators K) (_degree : Int) :
    Except Failure (Matrix (Fin (nrows _degree)) (Fin (ncols env _degree)) K × Int) := do
  let D ← zeroMatrix env _degree
  let c : Int := 0
  let s ← (List.range 3).foldlM (edges_step env _degree) (D, c)
  if _degree > 0 then
    (env.compute_polynomial_set 2 (_degree - 1)).foldlM (interior_step env _degree) s
  else
    return s

/-- The local `A = wcoeffs * dualmat.transpose()`. -/
def A {n m : Nat} (wcoeffs dualmat : Matrix (Fin n) (Fin m) K) : Matrix (Fin n) (Fin n) K :=
  wcoeffs * dualmat.transpose

/-- The local `Ainv = A.inverse()`, in exact arithmetic.  `Eigen` does not test
whether the matrix is invertible; for a singular matrix the value is the zero
matrix here. -/
def Ainv {n : Nat} (A : Matrix (Fin n) (Fin n) K) : Matrix (Fin n) (Fin n) K :=
  (A.det)⁻¹ • A.adjugate

/-- The local `new_coeffs = Ainv * wcoeffs`. -/
def new_coeffs {n m : Nat} (wcoeffs dualmat : Matrix (Fin n) (Fin m) K) :
    Matrix (Fin n) (Fin m) K :=
  Ainv (A wcoeffs dualmat) * wcoeffs

/-- The body of the three loops that assemble `poly_set`:
`poly_set[i + (nv * 2 + ns) * j] += Pkp1[k] * new_coeffs(i, k + psize * j)`. -/
def poly_set_step (env : Collaborators K) (_degree : Int)
    (B : Matrix (Fin (nrows _degree)) (Fin (ncols env _degree)) K)
    (ps : List (Polynomial K)) (j i k : Nat) : Except Failure (List (Polynomial K)) := do
  let coef ← Eigen.coeff B i (k + psize env _degree * j)
  let pk ← Eigen.elemAt (Pkp1 env _degree) k
  Eigen.modifyAt ps (i + (nv _degree * 2 + ns _degree) * j) (fun p => env.add p (env.scale pk coef))

/-- The member `poly_set` at the end of the constructor, from the matrix
`new_coeffs`. -/
def assemble_poly_set (env : Collaborators K) (uninit : K) (_dim _degree : Int)
    (B : Matrix (Fin (nrows _degree)) (Fin (ncols env _degree)) K) :
    Except Failure (List (Polynomial K)) := do
  let z ← Polynomial.zero uninit 2
  if (nv _degree * 2 + ns _degree) * _dim < 0 then throw Failure.badSize
  let ps := List.replicate ((nv _degree * 2 + ns _degree) * _dim).toNat z
  (List.range _dim.toNat).foldlM (fun ps j =>
    (List.range (nv _degree * 2 + ns _degree).toNat).foldlM (fun ps i =>
      (List.range (psize env _degree).toNat).foldlM (fun ps k =>
        poly_set_step env _degree B ps j i k) ps) ps) ps

/-- The constructor `Nedelec2D::Nedelec2D(int k)`. -/
def ctor (env : Collaborators K) (uninit : K) (k : Int) : Except Failure (Nedelec2D K) := do
  let _dim : Int := 2
  let _degree : Int := k - 1
  let W ← wcoeffs env _degree
  let s ← dualmat env _degree
  let B := new_coeffs W s.1
  let ps ← assemble_poly_set env uninit _dim _degree B
  return { _dim := _dim, _degree := _degree, poly_set := ps }

/-- The body of the loop of `tabulate_basis`:
`result.col(j) = poly_set[j].tabulate(pts)`. -/
def tabulate_step (env : Collaborators K) (poly_set : List (Polynomial K)) {M N : Nat}
    (pts : Matrix (Fin M) (Fin N) K) (result : Matrix (Fin M) (Fin poly_set.length) K)
    (j : Nat) : Except Failure (Matrix (Fin M) (Fin poly_set.length) K) := do
  let p ← Eigen.elemAt poly_set j
  Eigen.setCol result j (env.tabulate p pts)

/-- The method `tabulate_basis(pts)`; it is `const`, and the element is returned
next to the result.  The array `result` is created without initial values (every
entry is `uninit` here). -/
def tabulate_basis (env : Collaborators K) (uninit : K) (self : Nedelec2D K) {M N : Nat}
    (pts : Matrix (Fin M) (Fin N) K) :
    Except Failure (Matrix (Fin M) (Fin self.poly_set.length) K × Nedelec2D K) := do
  if (N : Int) ≠ self._dim then
    throw (Failure.runtimeError "Point dimension does not match element dimension")
  let result : Matrix (Fin M) (Fin self.poly_set.length) K := fun _ _ => uninit
  let result ← (List.range self.poly_set.length).foldlM
    (tabulate_step env self.poly_set pts) result
  return (result, self)

end Nedelec2D

/-! ## Closed forms for the basis -/

/-- The coefficient `M(i, j)` for natural indices, `0` outside the matrix. -/
def Eigen.entry {K : Type} [Zero K] {n m : Nat} (M : Matrix (Fin n) (Fin m) K) (i j : Nat) : K :=
  if h : i < n ∧ j < m then M ⟨i, h.1⟩ ⟨j, h.2⟩ else 0

/-- The polynomial obtained from `p` by the first `k0` passes of the innermost loop
of the assembly of `poly_set`, for the dof `i` and the component `j`:
`p += Pkp1[k] * B(i, k + psize * j)` for `k = 0, ..., k0 - 1`, in this order. -/
def Nedelec2D.accumulate {K : Type} [Field K] (env : Collaborators K) (_degree : Int)
    (B : Matrix (Fin (Nedelec2D.nrows _degree)) (Fin (Nedelec2D.ncols env _degree)) K)
    (i j k0 : Nat) (p : Polynomial K) : Polynomial K :=
  (List.range k0).foldl (fun acc k =>
    env.add acc (env.scale ((Nedelec2D.Pkp1 env _degree).getD k Polynomial.default)
      (Eigen.entry B i (k + (Nedelec2D.psize env _degree).toNat * j)))) p

/-- The sum `sum_k B(i, j * psize + k) * Pkp1[k]` over `k < psize`, accumulated from
the value `{2, 0, [0]}` of `Polynomial::zero(2)`. -/
def Nedelec2D.combination {K : Type} [Field K] (env : Collaborators K) (_degree : Int)
    (B : Matrix (Fin (Nedelec2D.nrows _degree)) (Fin (Nedelec2D.ncols env _degree)) K)
    (i j : Nat) : Polynomial K :=
  Nedelec2D.accumulate env _degree B i j (Nedelec2D.psize env _degree).toNat
    { dim := 2, order := 0, coeffs := [0] }

/-! ## Example data

A concrete set of collaborators over `ℚ`, with which the embedding can be run: the
monomials in graded order in place of the orthonormal sets (evaluated up to order
one), the reference simplex with the origin and the unit points as vertices, the
three-point rule on the triangle and Simpson's rule on the edge. -/

/-- A set of collaborators over `ℚ`. -/
def exampleEnv : Collaborators ℚ where
  create_simplex := fun _ i j => if (i : Nat) = (j : Nat) + 1 then 1 else 0
  sub := fun {N} S _ i r c =>
    S ⟨(i.toNat + 1 + (r : Nat)) % (N + 1), Nat.mod_lt _ (Nat.succ_pos N)⟩ c
  compute_polynomial_set := fun N m =>
    (List.range (Nat.choose (m.toNat + N.toNat) N.toNat)).map (fun i =>
      { dim := N, order := m,
        coeffs := (List.range (Nat.choose (m.toNat + N.toNat) N.toNat)).map
          (fun l => if l = i then 1 else 0) })
  make_quadrature := fun N _ =>
    { npts := 3,
      pts := fun q c =>
        if N = 1 then (q : Nat) / 2 else (if (q : Nat) = (c : Nat) + 1 then 2 / 3 else 1 / 6),
      wts := fun q => if N = 1 then (if (q : Nat) = 1 then 2 / 3 else 1 / 6) else 1 / 6 }
  eval := fun {N} p pt =>
    p.coeffs.getD 0 0 + ∑ i : Fin N, p.coeffs.getD ((i : Nat) + 1) 0 * pt i
  add := fun p q =>
    { dim := q.dim, order := max p.order q.order,
      coeffs := (List.range (max p.coeffs.length q.coeffs.length)).map
        (fun i => p.coeffs.getD i 0 + q.coeffs.getD i 0) }
  scale := fun p s => { p with coeffs := p.coeffs.map (fun c => c * s) }

/-- The matrix `wcoeffs` of a degree 1 element, for the monomials `1, x, y` in place
of the orthonormal set and the three-point rule of the triangle. -/
def wcoeffs_example : Matrix (Fin 3) (Fin 6) ℚ :=
  !![1, 0, 0, 0, 0, 0;
     0, 0, 0, 1, 0, 0;
     1/6, 1/24, 1/12, -1/6, -1/12, -1/24]

/-- The matrix `dualmat` of the same element, with Simpson's rule on the edges. -/
def dualmat_example : Matrix (Fin 3) (Fin 6) ℚ :=
  !![-1, -1/2, -1/2, 1, 1/2, 1/2;
     0, 0, 0, 1, 0, 1/2;
     1, 1/2, 0, 0, 0, 0]

/-- The matrix `wcoeffs` that the constructor assembles for the collaborators
`exampleEnv` and the degree 1. -/
def exampleW :
    Matrix (Fin (Nedelec2D.nrows (1 - 1))) (Fin (Nedelec2D.ncols exampleEnv (1 - 1))) ℚ :=
  match Nedelec2D.wcoeffs exampleEnv (1 - 1) with
  | .ok W => W
  | .error _ => fun _ _ => 0

/-- The matrix `dualmat` that the constructor assembles for the collaborators
`exampleEnv` and the degree 1. -/
def exampleD :
    Matrix (Fin (Nedelec2D.nrows (1 - 1))) (Fin (Nedelec2D.ncols exampleEnv (1 - 1))) ℚ :=
  match Nedelec2D.dualmat exampleEnv (1 - 1) with
  | .ok s => s.1
  | .error _ => fun _ _ => 0

/-- The element that the constructor returns for the collaborators `exampleEnv` and
the degree 1. -/
def exampleElement : Nedelec2D ℚ :=
  match Nedelec2D.ctor exampleEnv 7 1 with
  | .ok e => e
  | .error _ => { _dim := 2, _degree := 0, poly_set := [] }

/-- Two points of the plane. -/
def examplePoints : Matrix (Fin 2) (Fin 2) ℚ := !![1 / 3, 1 / 3; 0, 0]

/-- Two points of space. -/
def examplePoints3 : Matrix (Fin 2) (Fin 3) ℚ := !![1 / 3, 1 / 3, 1 / 3; 0, 0, 0]

/-! ## Closed forms for the matrix `dualmat` -/

namespace Nedelec2D

variable {K : Type} [Field K]

/-- The value `qcoeffs[l]` computed in a pass of the loop over the edge polynomial
set, in closed form, for the edge with vertices `edge`, the tangent `tangent`, the
member `pq` of the edge set and the component `a`:
`sum_t Pkp1[l](x(t)) * (pq(t) * QwtsE[t] * tangent[a])`, where
`x(t) = edge.row(0) + QptsE(t, 0) * (edge.row(1) - edge.row(0))`. -/
def edge_qcoeff (env : Collaborators K) (_degree : Int) (edge : Matrix (Fin 2) (Fin 2) K)
    (tangent : Fin 2 → K) (pq : Polynomial K) (a : Fin 2) (l : Nat) : K :=
  ∑ t, env.eval ((Pkp1 env _degree).getD l Polynomial.default)
      (edge 0 + (QruleE env _degree).pts t 0 • (edge 1 - edge 0))
    * (env.eval pq ((QruleE env _degree).pts t) * (QruleE env _degree).wts t * tangent a)

/-- The row that a pass of the loop over the edge polynomial set writes, in closed
form: the component 0 of the moment in the first `psize` columns and the component
1 in the others. -/
def edge_row (env : Collaborators K) (_degree : Int) (edge : Matrix (Fin 2) (Fin 2) K)
    (tangent : Fin 2 → K) (pq : Polynomial K) (col : Nat) : K :=
  if (col : Int) < psize env _degree then edge_qcoeff env _degree edge tangent pq 0 col
  else edge_qcoeff env _degree edge tangent pq 1 (col - (psize env _degree).toNat)

/-- The vertices of the edge `e` of the reference triangle:
`ReferenceSimplex::sub(triangle, 1, e)`. -/
def edge_vertices (env : Collaborators K) (e : Nat) : Matrix (Fin 2) (Fin 2) K :=
  env.sub (env.create_simplex 2) 1 e

/-- The tangent of the edge `e` after the change of sign for `e = 1`. -/
def edge_tangent (env : Collaborators K) (e : Nat) : Fin 2 → K :=
  if e = 1 then fun a => (edge_vertices env e 1 - edge_vertices env e 0) a * (-1)
  else edge_vertices env e 1 - edge_vertices env e 0

/-- The value written to `dualmat` for the edge `e`, the member `Pq[j]` of the edge
polynomial set, the component `a` and the member `Pkp1[k]`, in closed form. -/
def edge_moment (env : Collaborators K) (_degree : Int) (e j : Nat) (a : Fin 2) (k : Nat) : K :=
  edge_qcoeff env _degree (edge_vertices env e) (edge_tangent env e)
    ((env.compute_polynomial_set 1 _degree).getD j Polynomial.default) a k

/-- The value `qcoeffs[l]` computed in a pass of the loop over the interior
polynomial set, for the member `chi` of the set, in closed form:
`sum_q Pkp1[l](x_q) * (chi(x_q) * Qwts[q])`. -/
def interior_qcoeff (env : Collaborators K) (_degree : Int) (chi : Polynomial K) (l : Nat) : K :=
  ∑ q, env.eval ((Pkp1 env _degree).getD l Polynomial.default) ((Qrule env _degree).pts q)
    * (env.eval chi ((Qrule env _degree).pts q) * (Qrule env _degree).wts q)

/-- The value written to `dualmat` for the member `Pkm1[i]` of the interior
polynomial set and the member `Pkp1[k]`, in closed form. -/
def interior_moment (env : Collaborators K) (_degree : Int) (i k : Nat) : K :=
  interior_qcoeff env _degree
    ((env.compute_polynomial_set 2 (_degree - 1)).getD i Polynomial.default) k

end Nedelec2D

/-! ## Example data: the empty polynomial set for a negative degree -/

namespace Nedelec2D

variable {K : Type} [Field K]

/-- The collaborators `exampleEnv`, with the empty polynomial set for a negative
degree (`C(N, m) = 0` for `m < 0`). -/
def exampleEnv0 : Collaborators ℚ :=
  { exampleEnv with
    compute_polynomial_set := fun N m =>
      if m < 0 then [] else exampleEnv.compute_polynomial_set N m }

end Nedelec2D

/-! ## Example data: quadrature rules without points -/

namespace Nedelec2D

variable {K : Type} [Field K]

/-- The collaborators `exampleEnv`, with quadrature rules that have no point. -/
def singularEnv : Collaborators ℚ :=
  { exampleEnv with
    make_quadrature := fun _ _ =>
      { npts := 0, pts := fun q => q.elim0, wts := fun q => q.elim0 } }

/-- The matrix `wcoeffs` that the constructor assembles for the collaborators
`singularEnv` and the degree 1. -/
def singularW : Matrix (Fin (nrows (1 - 1))) (Fin (ncols singularEnv (1 - 1))) ℚ :=
  match wcoeffs singularEnv (1 - 1) with
  | .ok W => W
  | .error _ => fun _ _ => 0

/-- The matrix `dualmat` that the constructor assembles for the collaborators
`singularEnv` and the degree 1. -/
def singularD : Matrix (Fin (nrows (1 - 1))) (Fin (ncols singularEnv (1 - 1))) ℚ :=
  match dualmat singularEnv (1 - 1) with
  | .ok s => s.1
  | .error _ => fun _ _ => 0

end Nedelec2D

/-! ## Polynomial functions on the plane -/

namespace Nedelec2D

variable {K : Type} [Field K]

/-- The function that the member `Pkp1[n]` defines on the plane, through
`Polynomial::tabulate`. -/
def Pkp1_fun (env : Collaborators K) (_degree : Int) (n : Nat) : (Fin 2 → K) → K :=
  fun pt => env.eval ((Pkp1 env _degree).getD n Polynomial.default) pt

/-- The monomial functions `x^a y^b` of degree `a + b <= m` on the plane. -/
def monomials (K : Type) [Field K] (m : Nat) : Set ((Fin 2 → K) → K) :=
  {f | ∃ a b : Nat, a + b ≤ m ∧ f = fun pt => pt 0 ^ a * pt 1 ^ b}

/-- The space `P_m` of the polynomial functions of degree at most `m` on the plane,
to which the assumptions on the polynomial sets and on the quadrature rule
refer. -/
def PolyDeg (K : Type) [Field K] (m : Nat) : Submodule K ((Fin 2 → K) → K) :=
  Submodule.span K (monomials K m)

end Nedelec2D

/-! ## Example data: an orthonormal polynomial set -/

namespace Nedelec2D

variable {K : Type} [Field K]

/-- A set of collaborators over `ℚ` whose polynomial set of degree 1 on the
triangle, `1`, `2 - 3/2 x - 3 y`, `2 - 3 x - 3/2 y`, is orthonormal for its rule of
the triangle, which has the vertices as points and the weights `1/9`, `4/9`,
`4/9`. -/
def orthoEnv : Collaborators ℚ :=
  { exampleEnv with
    compute_polynomial_set := fun N m =>
      if N = 2 ∧ m = 1 then
        [{ dim := 2, order := 1, coeffs := [1, 0, 0] },
         { dim := 2, order := 1, coeffs := [2, -3 / 2, -3] },
         { dim := 2, order := 1, coeffs := [2, -3, -3 / 2] }]
      else exampleEnv.compute_polynomial_set N m
    make_quadrature := fun N _ =>
      { npts := 3,
        pts := fun q c =>
          if N = 1 then (q : Nat) / 2 else (if (q : Nat) = (c : Nat) + 1 then 1 else 0),
        wts := fun q =>
          if N = 1 then (if (q : Nat) = 1 then 2 / 3 else 1 / 6)
          else (if (q : Nat) = 0 then 1 / 9 else 4 / 9) } }

/-- The functional `f -> sum_q w_q f(x_q)` of the rule of the triangle of
`orthoEnv`. -/
def orthoI (f : (Fin 2 → ℚ) → ℚ) : ℚ :=
  ∑ q, (Qrule orthoEnv ((0 : Nat) : Int)).wts q * f ((Qrule orthoEnv ((0 : Nat) : Int)).pts q)

end Nedelec2D

/-! ## Indexing: arithmetic facts -/

theorem two_dvd_consec (s : Int) : (2 : Int) ∣ (s + 1) * s := by
  have h : Even (s * (s + 1)) := Int.even_mul_succ_self s
  rw [mul_comm]
  exact even_iff_two_dvd.mp h

theorem six_dvd_consec (s : Int) : (6 : Int) ∣ s * (s + 1) * (s + 2) := by
  apply Int.dvd_of_emod_eq_zero
  have key : (s * (s + 1) * (s + 2)) % 6
      = ((s % 6) * ((s % 6) + 1) * ((s % 6) + 2)) % 6 := by
    simp [Int.mul_emod, Int.add_emod]
  rw [key]
  have h1 := Int.emod_nonneg s (show (6 : Int) ≠ 0 by norm_num)
  have h2 := Int.emod_lt_of_pos s (show (0 : Int) < 6 by norm_num)
  interval_cases (s % 6) <;> rfl

/-- Twice the 2D index, without division. -/
theorem two_mul_idx (p q : Int) : 2 * idx_exact p q = (p + q + 1) * (p + q) + 2 * q := by
  unfold idx_exact
  rw [mul_add, Int.mul_tdiv_cancel' (two_dvd_consec (p + q))]

/-- Six times the 3D index, without division. -/
theorem six_mul_idx3 (p q r : Int) :
    6 * idx3_exact p q r = (p + q + r) * (p + q + r + 1) * (p + q + r + 2)
      + 3 * ((q + r) * (q + r + 1)) + 6 * r := by
  unfold idx3_exact
  have h2 : 2 * Int.tdiv ((q + r) * (q + r + 1)) 2 = (q + r) * (q + r + 1) := by
    have := two_dvd_consec (q + r)
    rw [mul_comm] at this
    exact Int.mul_tdiv_cancel' this
  have h6 := Int.mul_tdiv_cancel' (six_dvd_consec (p + q + r))
  linarith

/-- For total degree at most 46340 every intermediate value of `idx(p, q)` lies in
the range of a 32-bit `int`. -/
theorem idx_fits_int32 {p q : Int} (hp : 0 ≤ p) (hq : 0 ≤ q) (h : p + q ≤ 46340) :
    0 ≤ (p + q + 1) * (p + q) ∧ (p + q + 1) * (p + q) ≤ 2 ^ 31 - 1 ∧
    0 ≤ idx_exact p q ∧ idx_exact p q ≤ 2 ^ 31 - 1 := by
  have h1 : (p + q + 1) * (p + q) ≤ 46341 * 46340 :=
    mul_le_mul (by omega) h (by omega) (by norm_num)
  have h0 : 0 ≤ (p + q + 1) * (p + q) := mul_nonneg (by omega) (by omega)
  have e := two_mul_idx p q
  refine ⟨h0, ?_, ?_, ?_⟩
  · norm_num at h1 ⊢
    omega
  · omega
  · norm_num at h1 ⊢
    omega

/-- For total degree at most 1289 every intermediate value of `idx(p, q, r)` lies
in the range of a 32-bit `int`. -/
theorem idx3_fits_int32 {p q r : Int} (hp : 0 ≤ p) (hq : 0 ≤ q) (hr : 0 ≤ r)
    (h : p + q + r ≤ 1289) :
    0 ≤ (p + q + r) * (p + q + r + 1) * (p + q + r + 2) ∧
    (p + q + r) * (p + q + r + 1) * (p + q + r + 2) ≤ 2 ^ 31 - 1 ∧
    0 ≤ idx3_exact p q r ∧ idx3_exact p q r ≤ 2 ^ 31 - 1 := by
  have h1 : (p + q + r) * (p + q + r + 1) ≤ 1289 * 1290 :=
    mul_le_mul h (by omega) (by omega) (by norm_num)
  have h2 : (p + q + r) * (p + q + r + 1) * (p + q + r + 2) ≤ 1289 * 1290 * 1291 :=
    mul_le_mul h1 (by omega) (by omega) (by norm_num)
  have h0 : 0 ≤ (p + q + r) * (p + q + r + 1) * (p + q + r + 2) :=
    mul_nonneg (mul_nonneg (by omega) (by omega)) (by omega)
  have h3 : (q + r) * (q + r + 1) ≤ 1289 * 1290 :=
    mul_le_mul (by omega) (by omega) (by omega) (by norm_num)
  have h4 : 0 ≤ (q + r) * (q + r + 1) := mul_nonneg (by omega) (by omega)
  have e := six_mul_idx3 p q r
  refine ⟨h0, ?_, ?_, ?_⟩
  · norm_num at h2 ⊢
    omega
  · omega
  · norm_num at h1 h2 h3 ⊢
    omega

/-- Every index below the size of order `d` is the index of an exponent pair of
total degree at most `d`. -/
theorem idx_surj_aux (d : Nat) : ∀ n : Int, 0 ≤ n → 2 * n < ((d : Int) + 1) * ((d : Int) + 2) →
    ∃ p q : Int, 0 ≤ p ∧ 0 ≤ q ∧ p + q ≤ (d : Int) ∧ idx_exact p q = n := by
  induction d with
  | zero =>
    intro n h0 h1
    refine ⟨0, 0, le_refl _, le_refl _, by simp, ?_⟩
    have : n = 0 := by
      simp at h1
      omega
    rw [this]
    rfl
  | succ d ih =>
    intro n h0 h1
    by_cases hlt : 2 * n < ((d : Int) + 1) * ((d : Int) + 2)
    · obtain ⟨p, q, hp, hq, hpq, he⟩ := ih n h0 hlt
      exact ⟨p, q, hp, hq, by push_cast; omega, he⟩
    · obtain ⟨t, ht⟩ := two_dvd_consec ((d : Int) + 1)
      push_cast at h1
      have hq0 : 0 ≤ n - t := by nlinarith
      have hq1 : n - t ≤ (d : Int) + 1 := by nlinarith
      refine ⟨(d : Int) + 1 - (n - t), n - t, by omega, hq0, by push_cast; omega, ?_⟩
      have h := two_mul_idx ((d : Int) + 1 - (n - t)) (n - t)
      have e : (d : Int) + 1 - (n - t) + (n - t) = (d : Int) + 1 := by ring
      rw [e] at h
      nlinarith

/-- The 2D index determines the exponent pair. -/
theorem idx_inj {p q p' q' : Int} (hp : 0 ≤ p) (hq : 0 ≤ q) (hp' : 0 ≤ p') (hq' : 0 ≤ q')
    (h : idx_exact p q = idx_exact p' q') : p = p' ∧ q = q' := by
  have e1 := two_mul_idx p q
  have e2 := two_mul_idx p' q'
  rw [h] at e1
  have hs : p + q = p' + q' := by
    rcases lt_trichotomy (p + q) (p' + q') with hlt | heq | hgt
    · exfalso
      have h1 : p + q + 1 ≤ p' + q' := by omega
      nlinarith
    · exact heq
    · exfalso
      have h1 : p' + q' + 1 ≤ p + q := by omega
      nlinarith
  have hq2 : q = q' := by
    rw [hs] at e1
    linarith
  exact ⟨by omega, hq2⟩

/-- Bounds of the 2D index in terms of the total degree. -/
theorem idx_bounds {p q : Int} (hp : 0 ≤ p) (hq : 0 ≤ q) :
    (p + q) * (p + q + 1) ≤ 2 * idx_exact p q ∧ 2 * idx_exact p q < (p + q + 1) * (p + q + 2) := by
  have e1 := two_mul_idx p q
  constructor <;> nlinarith

/-- The exact quotient `s (s + 1) / 2`. -/
theorem two_mul_half_consec (s : Int) : 2 * (s * (s + 1) / 2) = s * (s + 1) := by
  have h := two_dvd_consec s
  rw [mul_comm] at h
  exact Int.mul_ediv_cancel' h

/-- In the integers `idx(p, q)` equals `(p+q)(p+q+1)/2 + q`, the division being
exact; for every order `d >= 0` it is a bijection from the exponent pairs of total
degree at most `d` onto `[0, (d+1)(d+2)/2)`, and it maps the pairs of total degree
exactly `d` bijectively onto the contiguous block `[d(d+1)/2, (d+1)(d+2)/2)`. -/
theorem idx_exact_graded_bijection (p q d : Int) (hp : 0 ≤ p) (hq : 0 ≤ q) (hd : 0 ≤ d) :
    idx_exact p q = (p + q) * (p + q + 1) / 2 + q ∧
    (2 : Int) ∣ (p + q) * (p + q + 1) ∧
    Set.BijOn (fun e : Int × Int => idx_exact e.1 e.2)
      {e | 0 ≤ e.1 ∧ 0 ≤ e.2 ∧ e.1 + e.2 ≤ d} (Set.Ico 0 ((d + 1) * (d + 2) / 2)) ∧
    Set.BijOn (fun e : Int × Int => idx_exact e.1 e.2)
      {e | 0 ≤ e.1 ∧ 0 ≤ e.2 ∧ e.1 + e.2 = d}
      (Set.Ico (d * (d + 1) / 2) ((d + 1) * (d + 2) / 2)) ∧
    [idx_exact 0 0, idx_exact 1 0, idx_exact 0 1, idx_exact 2 0, idx_exact 1 1, idx_exact 0 2] = [0, 1, 2, 3, 4, 5] := by
  have hT := two_mul_half_consec d
  have hU := two_mul_half_consec (d + 1)
  have hU' : 2 * ((d + 1) * (d + 2) / 2) = (d + 1) * (d + 2) := by
    have e : d + 1 + 1 = d + 2 := by ring
    rw [e] at hU
    exact hU
  refine ⟨?_, ?_, ⟨?_, ?_, ?_⟩, ⟨?_, ?_, ?_⟩, by decide⟩
  · have e1 := two_mul_idx p q
    have e2 := two_mul_half_consec (p + q)
    nlinarith
  · have h := two_dvd_consec (p + q)
    rw [mul_comm] at h
    exact h
  · rintro ⟨a, b⟩ ⟨ha, hb, hab⟩
    have hb2 := idx_bounds ha hb
    simp only [Set.mem_Ico]
    constructor
    · nlinarith
    · nlinarith
  · rintro ⟨a, b⟩ ⟨ha, hb, _⟩ ⟨a', b'⟩ ⟨ha', hb', _⟩ h
    obtain ⟨h1, h2⟩ := idx_inj ha hb ha' hb' h
    exact Prod.ext h1 h2
  · intro n hn
    simp only [Set.mem_Ico] at hn
    obtain ⟨D, rfl⟩ := Int.eq_ofNat_of_zero_le hd
    obtain ⟨a, b, ha, hb, hab, he⟩ := idx_surj_aux D n hn.1 (by linarith)
    exact ⟨(a, b), ⟨ha, hb, hab⟩, he⟩
  · rintro ⟨a, b⟩ ⟨ha, hb, hab⟩
    have hb2 := idx_bounds ha hb
    simp only at hab
    simp only [Set.mem_Ico]
    rw [hab] at hb2
    constructor
    · linarith
    · linarith
  · rintro ⟨a, b⟩ ⟨ha, hb, _⟩ ⟨a', b'⟩ ⟨ha', hb', _⟩ h
    obtain ⟨h1, h2⟩ := idx_inj ha hb ha' hb' h
    exact Prod.ext h1 h2
  · intro n hn
    simp only [Set.mem_Ico] at hn
    refine ⟨(d - (n - d * (d + 1) / 2), n - d * (d + 1) / 2), ⟨?_, ?_, ?_⟩, ?_⟩
    · simp only
      nlinarith
    · simp only
      linarith
    · simp only
      ring
    · simp only
      have h := two_mul_idx (d - (n - d * (d + 1) / 2)) (n - d * (d + 1) / 2)
      have e : d - (n - d * (d + 1) / 2) + (n - d * (d + 1) / 2) = d := by ring
      rw [e] at h
      nlinarith

/-- The exact quotient `s (s + 1) (s + 2) / 6`. -/
theorem six_mul_sixth_consec (s : Int) :
    6 * (s * (s + 1) * (s + 2) / 6) = s * (s + 1) * (s + 2) :=
  Int.mul_ediv_cancel' (six_dvd_consec s)

theorem consec3_mono {a b : Int} (ha : 0 ≤ a) (hab : a ≤ b) :
    a * (a + 1) * (a + 2) ≤ b * (b + 1) * (b + 2) := by
  have h1 : a * (a + 1) ≤ b * (b + 1) :=
    mul_le_mul hab (by linarith) (by linarith) (by linarith)
  exact mul_le_mul h1 (by linarith) (by linarith) (by nlinarith)

/-- Bounds of the 3D index in terms of the total degree. -/
theorem idx3_bounds {p q r : Int} (hp : 0 ≤ p) (hq : 0 ≤ q) (hr : 0 ≤ r) :
    (p + q + r) * (p + q + r + 1) * (p + q + r + 2) ≤ 6 * idx3_exact p q r ∧
    6 * idx3_exact p q r < (p + q + r + 1) * (p + q + r + 2) * (p + q + r + 3) := by
  have e := six_mul_idx3 p q r
  have hu : (q + r) * (q + r + 1) ≤ (p + q + r) * (p + q + r + 1) :=
    mul_le_mul (by linarith) (by linarith) (by linarith) (by linarith)
  have hu0 : 0 ≤ (q + r) * (q + r + 1) := mul_nonneg (by linarith) (by linarith)
  constructor
  · linarith
  · nlinarith

/-- The 3D index determines the exponent triple. -/
theorem idx3_inj {p q r p' q' r' : Int} (hp : 0 ≤ p) (hq : 0 ≤ q) (hr : 0 ≤ r)
    (hp' : 0 ≤ p') (hq' : 0 ≤ q') (hr' : 0 ≤ r')
    (h : idx3_exact p q r = idx3_exact p' q' r') : p = p' ∧ q = q' ∧ r = r' := by
  have b1 := idx3_bounds hp hq hr
  have b2 := idx3_bounds hp' hq' hr'
  have e1 := six_mul_idx3 p q r
  have e2 := six_mul_idx3 p' q' r'
  rw [h] at b1 e1
  have hs : p + q + r = p' + q' + r' := by
    rcases lt_trichotomy (p + q + r) (p' + q' + r') with hlt | heq | hgt
    · exfalso
      have h1 : p + q + r + 1 ≤ p' + q' + r' := by omega
      have h2 := consec3_mono (a := p + q + r + 1) (by linarith) h1
      have e : p + q + r + 1 + 1 = p + q + r + 2 := by ring
      have e' : p + q + r + 1 + 2 = p + q + r + 3 := by ring
      rw [e, e'] at h2
      linarith
    · exact heq
    · exfalso
      have h1 : p' + q' + r' + 1 ≤ p + q + r := by omega
      have h2 := consec3_mono (a := p' + q' + r' + 1) (by linarith) h1
      have e : p' + q' + r' + 1 + 1 = p' + q' + r' + 2 := by ring
      have e' : p' + q' + r' + 1 + 2 = p' + q' + r' + 3 := by ring
      rw [e, e'] at h2
      linarith
  have h2d : idx_exact q r = idx_exact q' r' := by
    have f1 := two_mul_idx q r
    have f2 := two_mul_idx q' r'
    rw [hs] at e1
    nlinarith
  obtain ⟨hq2, hr2⟩ := idx_inj hq hr hq' hr' h2d
  exact ⟨by omega, hq2, hr2⟩

/-- Every index below the size of order `d` is the index of an exponent triple of
total degree at most `d`. -/
theorem idx3_surj_aux (d : Nat) : ∀ n : Int, 0 ≤ n →
    6 * n < ((d : Int) + 1) * ((d : Int) + 2) * ((d : Int) + 3) →
    ∃ p q r : Int, 0 ≤ p ∧ 0 ≤ q ∧ 0 ≤ r ∧ p + q + r ≤ (d : Int) ∧ idx3_exact p q r = n := by
  induction d with
  | zero =>
    intro n h0 h1
    refine ⟨0, 0, 0, le_refl _, le_refl _, le_refl _, by simp, ?_⟩
    have : n = 0 := by
      simp at h1
      omega
    rw [this]
    rfl
  | succ d ih =>
    intro n h0 h1
    by_cases hlt : 6 * n < ((d : Int) + 1) * ((d : Int) + 2) * ((d : Int) + 3)
    · obtain ⟨p, q, r, hp, hq, hr, hpq, he⟩ := ih n h0 hlt
      exact ⟨p, q, r, hp, hq, hr, by push_cast; omega, he⟩
    · obtain ⟨t, ht⟩ := six_dvd_consec ((d : Int) + 1)
      push_cast at h1
      have e2 : (d : Int) + 1 + 1 = (d : Int) + 2 := by ring
      have e3 : (d : Int) + 1 + 2 = (d : Int) + 3 := by ring
      rw [e2, e3] at ht
      have hm0 : 0 ≤ n - t := by linarith
      have hm1 : 2 * (n - t) < (((d + 1 : Nat) : Int) + 1) * (((d + 1 : Nat) : Int) + 2) := by
        push_cast
        nlinarith
      obtain ⟨q, r, hq, hr, hqr, he⟩ := idx_surj_aux (d + 1) (n - t) hm0 hm1
      push_cast at hqr
      refine ⟨(d : Int) + 1 - (q + r), q, r, by omega, hq, hr, by push_cast; omega, ?_⟩
      have h := six_mul_idx3 ((d : Int) + 1 - (q + r)) q r
      have e : (d : Int) + 1 - (q + r) + q + r = (d : Int) + 1 := by ring
      rw [e, e2, e3] at h
      have f := two_mul_idx q r
      rw [he] at f
      nlinarith

/-- In the integers `idx(p, q, r)` equals
`(p+q+r)(p+q+r+1)(p+q+r+2)/6 + (q+r)(q+r+1)/2 + r`, both divisions being exact,
and for every order `d >= 0` it is a bijection from the exponent triples of total
degree at most `d` onto `[0, (d+1)(d+2)(d+3)/6)`. -/
theorem idx3_exact_graded_bijection (p q r d : Int) (hp : 0 ≤ p) (hq : 0 ≤ q) (hr : 0 ≤ r)
    (hd : 0 ≤ d) :
    idx3_exact p q r = (p + q + r) * (p + q + r + 1) * (p + q + r + 2) / 6
      + (q + r) * (q + r + 1) / 2 + r ∧
    (6 : Int) ∣ (p + q + r) * (p + q + r + 1) * (p + q + r + 2) ∧
    (2 : Int) ∣ (q + r) * (q + r + 1) ∧
    Set.BijOn (fun e : Int × Int × Int => idx3_exact e.1 e.2.1 e.2.2)
      {e | 0 ≤ e.1 ∧ 0 ≤ e.2.1 ∧ 0 ≤ e.2.2 ∧ e.1 + e.2.1 + e.2.2 ≤ d}
      (Set.Ico 0 ((d + 1) * (d + 2) * (d + 3) / 6)) := by
  have hU := six_mul_sixth_consec (d + 1)
  have e2 : d + 1 + 1 = d + 2 := by ring
  have e3 : d + 1 + 2 = d + 3 := by ring
  rw [e2, e3] at hU
  refine ⟨?_, six_dvd_consec _, ?_, ?_, ?_, ?_⟩
  · have e1 := six_mul_idx3 p q r
    have f1 := six_mul_sixth_consec (p + q + r)
    have f2 := two_mul_half_consec (q + r)
    linarith
  · have h := two_dvd_consec (q + r)
    rw [mul_comm] at h
    exact h
  · rintro ⟨a, b, c⟩ ⟨ha, hb, hc, habc⟩
    have hb2 := idx3_bounds ha hb hc
    simp only at ha hb hc habc
    have hm := consec3_mono (a := a + b + c + 1) (b := d + 1) (by linarith) (by linarith)
    have f2 : a + b + c + 1 + 1 = a + b + c + 2 := by ring
    have f3 : a + b + c + 1 + 2 = a + b + c + 3 := by ring
    rw [f2, f3, e2, e3] at hm
    have hn : 0 ≤ (a + b + c) * (a + b + c + 1) * (a + b + c + 2) :=
      mul_nonneg (mul_nonneg (by linarith) (by linarith)) (by linarith)
    simp only [Set.mem_Ico]
    constructor
    · linarith
    · linarith
  · rintro ⟨a, b, c⟩ ⟨ha, hb, hc, _⟩ ⟨a', b', c'⟩ ⟨ha', hb', hc', _⟩ h
    obtain ⟨h1, h2, h3⟩ := idx3_inj ha hb hc ha' hb' hc' h
    exact Prod.ext h1 (Prod.ext h2 h3)
  · intro n hn
    simp only [Set.mem_Ico] at hn
    obtain ⟨D, rfl⟩ := Int.eq_ofNat_of_zero_le hd
    obtain ⟨a, b, c, ha, hb, hc, habc, he⟩ := idx3_surj_aux D n hn.1 (by linarith)
    exact ⟨(a, b, c), ⟨ha, hb, hc, habc⟩, he⟩

/-! ## Indexing in 32-bit `int` -/

theorem int32_of_range {n : Int} (h0 : -2147483648 ≤ n) (h1 : n ≤ 2147483647) :
    int32 n = n := by
  unfold int32
  omega

/-- For total degree at most 46340 no operation of `idx(p, q)` leaves the range of
a 32-bit `int`, and the value is the one computed in the integers. -/
theorem idx_eq_exact {p q : Int} (hp : 0 ≤ p) (hq : 0 ≤ q) (h : p + q ≤ 46340) :
    idx p q = idx_exact p q := by
  obtain ⟨h0, h1, h2, h3⟩ := idx_fits_int32 hp hq h
  norm_num at h1 h3
  unfold idx
  rw [int32_of_range (n := p + q) (by omega) (by omega),
    int32_of_range (n := p + q + 1) (by omega) (by omega),
    int32_of_range (n := (p + q + 1) * (p + q)) (by omega) (by omega)]
  exact int32_of_range (n := idx_exact p q) (by omega) (by omega)

/-- For total degree at most 1289 no operation of `idx(p, q, r)` leaves the range
of a 32-bit `int`, and the value is the one computed in the integers. -/
theorem idx3_eq_exact {p q r : Int} (hp : 0 ≤ p) (hq : 0 ≤ q) (hr : 0 ≤ r)
    (h : p + q + r ≤ 1289) : idx3 p q r = idx3_exact p q r := by
  obtain ⟨h0, h1, h2, h3⟩ := idx3_fits_int32 hp hq hr h
  norm_num at h1 h3
  have a1 : (p + q + r) * (p + q + r + 1) ≤ 1289 * 1290 :=
    mul_le_mul h (by omega) (by omega) (by norm_num)
  have a0 : 0 ≤ (p + q + r) * (p + q + r + 1) := mul_nonneg (by omega) (by omega)
  have b1 : (q + r) * (q + r + 1) ≤ 1289 * 1290 :=
    mul_le_mul (by omega) (by omega) (by omega) (by norm_num)
  have b0 : 0 ≤ (q + r) * (q + r + 1) := mul_nonneg (by omega) (by omega)
  norm_num at a1 b1
  have c6 := Int.mul_tdiv_cancel' (six_dvd_consec (p + q + r))
  have c2 : 2 * Int.tdiv ((q + r) * (q + r + 1)) 2 = (q + r) * (q + r + 1) := by
    have := two_dvd_consec (q + r)
    rw [mul_comm] at this
    exact Int.mul_tdiv_cancel' this
  unfold idx3
  rw [int32_of_range (n := p + q) (by omega) (by omega),
    int32_of_range (n := p + q + r) (by omega) (by omega),
    int32_of_range (n := p + q + r + 1) (by omega) (by omega),
    int32_of_range (n := p + q + r + 2) (by omega) (by omega),
    int32_of_range (n := (p + q + r) * (p + q + r + 1)) (by omega) (by omega),
    int32_of_range (n := (p + q + r) * (p + q + r + 1) * (p + q + r + 2)) (by omega) (by omega),
    int32_of_range (n := q + r) (by omega) (by omega),
    int32_of_range (n := q + r + 1) (by omega) (by omega),
    int32_of_range (n := (q + r) * (q + r + 1)) (by omega) (by omega),
    int32_of_range (n := Int.tdiv ((p + q + r) * (p + q + r + 1) * (p + q + r + 2)) 6
      + Int.tdiv ((q + r) * (q + r + 1)) 2) (by omega) (by omega)]
  exact int32_of_range (n := idx3_exact p q r) (by omega) (by omega)

/-- C6, as amended. For non-negative exponents of total degree `p + q <= 46340` no
operation of `idx(p, q)` overflows a 32-bit `int` and `idx(p, q)` equals
`(p+q)(p+q+1)/2 + q`, the division being exact; for every order `d` with
`0 <= d <= 46340` the map `idx` is a bijection from the exponent pairs of total
degree at most `d` onto `[0, (d+1)(d+2)/2)`, and it maps the pairs of total degree
exactly `d` bijectively onto the contiguous block `[d(d+1)/2, (d+1)(d+2)/2)`; the
first six indices are those of `1, x, y, x^2, xy, y^2`. -/
theorem idx_graded_bijection (p q d : Int) (hp : 0 ≤ p) (hq : 0 ≤ q) (hpq : p + q ≤ 46340)
    (hd : 0 ≤ d) (hd2 : d ≤ 46340) :
    idx p q = (p + q) * (p + q + 1) / 2 + q ∧
    (2 : Int) ∣ (p + q) * (p + q + 1) ∧
    Set.BijOn (fun e : Int × Int => idx e.1 e.2)
      {e | 0 ≤ e.1 ∧ 0 ≤ e.2 ∧ e.1 + e.2 ≤ d} (Set.Ico 0 ((d + 1) * (d + 2) / 2)) ∧
    Set.BijOn (fun e : Int × Int => idx e.1 e.2)
      {e | 0 ≤ e.1 ∧ 0 ≤ e.2 ∧ e.1 + e.2 = d}
      (Set.Ico (d * (d + 1) / 2) ((d + 1) * (d + 2) / 2)) ∧
    [idx 0 0, idx 1 0, idx 0 1, idx 2 0, idx 1 1, idx 0 2] = [0, 1, 2, 3, 4, 5] ∧
    (0 ≤ (p + q + 1) * (p + q) ∧ (p + q + 1) * (p + q) ≤ 2147483647 ∧
      0 ≤ idx p q ∧ idx p q ≤ 2147483647) := by
  obtain ⟨h1, h2, h3, h4, _⟩ := idx_exact_graded_bijection p q d hp hq hd
  obtain ⟨f0, f1, f2, f3⟩ := idx_fits_int32 hp hq hpq
  norm_num at f1 f3
  have e := idx_eq_exact hp hq hpq
  refine ⟨e.trans h1, h2, h3.congr ?_, h4.congr ?_, by decide, f0, f1, ?_, ?_⟩
  · rintro ⟨a, b⟩ ⟨ha, hb, hab⟩
    simp only at ha hb hab
    exact (idx_eq_exact ha hb (by omega)).symm
  · rintro ⟨a, b⟩ ⟨ha, hb, hab⟩
    simp only at ha hb hab
    exact (idx_eq_exact ha hb (by omega)).symm
  · rw [e]
    exact f2
  · rw [e]
    exact f3

theorem idx_graded_bijection_witness :
    (0 : Int) ≤ 1 ∧ (1 : Int) + 1 ≤ 46340 ∧ (0 : Int) ≤ 2 ∧ (2 : Int) ≤ 46340 ∧
    (idx 1 1 = (1 + 1) * (1 + 1 + 1) / 2 + 1 ∧
    (2 : Int) ∣ (1 + 1) * (1 + 1 + 1) ∧
    Set.BijOn (fun e : Int × Int => idx e.1 e.2)
      {e | 0 ≤ e.1 ∧ 0 ≤ e.2 ∧ e.1 + e.2 ≤ 2} (Set.Ico 0 ((2 + 1) * (2 + 2) / 2)) ∧
    Set.BijOn (fun e : Int × Int => idx e.1 e.2)
      {e | 0 ≤ e.1 ∧ 0 ≤ e.2 ∧ e.1 + e.2 = 2}
      (Set.Ico (2 * (2 + 1) / 2) ((2 + 1) * (2 + 2) / 2)) ∧
    [idx 0 0, idx 1 0, idx 0 1, idx 2 0, idx 1 1, idx 0 2] = [0, 1, 2, 3, 4, 5] ∧
    ((0 : Int) ≤ (1 + 1 + 1) * (1 + 1) ∧ ((1 : Int) + 1 + 1) * (1 + 1) ≤ 2147483647 ∧
      0 ≤ idx 1 1 ∧ idx 1 1 ≤ 2147483647)) :=
  ⟨by decide, by decide, by decide, by decide,
    idx_graded_bijection 1 1 2 (by decide) (by decide) (by decide) (by decide) (by decide)⟩

/-- C6, as stated, fails for `p = 46341`, `q = 0`: the product `46342 * 46341` is
`2147534622`, above `2^31 - 1`, and in 32-bit `int` the index is negative. -/
theorem idx_graded_bijection_counterexample :
    (0 : Int) ≤ 46341 ∧ (0 : Int) ≤ 0 ∧
    ((46341 : Int) + 0 + 1) * (46341 + 0) = 2147534622 ∧ (2147483647 : Int) < 2147534622 ∧
    idx 46341 0 = -1073716337 ∧
    idx 46341 0 ≠ (46341 + 0) * (46341 + 0 + 1) / 2 + 0 ∧
    idx 46341 0 ∉ Set.Ico (0 : Int) ((46341 + 1) * (46341 + 2) / 2) := by
  refine ⟨by decide, by decide, by decide, by decide, by decide, by decide, ?_⟩
  intro h
  have h0 : (0 : Int) ≤ idx 46341 0 := h.1
  exact absurd h0 (by decide)

/-- C7, as amended. For non-negative exponents of total degree `p + q + r <= 1289`
no operation of `idx(p, q, r)` overflows a 32-bit `int` and `idx(p, q, r)` equals
`(p+q+r)(p+q+r+1)(p+q+r+2)/6 + (q+r)(q+r+1)/2 + r`, both divisions being exact,
and for every order `d` with `0 <= d <= 1289` the map `idx` is a bijection from the
exponent triples of total degree at most `d` onto `[0, (d+1)(d+2)(d+3)/6)`. -/
theorem idx3_graded_bijection (p q r d : Int) (hp : 0 ≤ p) (hq : 0 ≤ q) (hr : 0 ≤ r)
    (hpqr : p + q + r ≤ 1289) (hd : 0 ≤ d) (hd2 : d ≤ 1289) :
    idx3 p q r = (p + q + r) * (p + q + r + 1) * (p + q + r + 2) / 6
      + (q + r) * (q + r + 1) / 2 + r ∧
    (6 : Int) ∣ (p + q + r) * (p + q + r + 1) * (p + q + r + 2) ∧
    (2 : Int) ∣ (q + r) * (q + r + 1) ∧
    Set.BijOn (fun e : Int × Int × Int => idx3 e.1 e.2.1 e.2.2)
      {e | 0 ≤ e.1 ∧ 0 ≤ e.2.1 ∧ 0 ≤ e.2.2 ∧ e.1 + e.2.1 + e.2.2 ≤ d}
      (Set.Ico 0 ((d + 1) * (d + 2) * (d + 3) / 6)) ∧
    (0 ≤ (p + q + r) * (p + q + r + 1) * (p + q + r + 2) ∧
      (p + q + r) * (p + q + r + 1) * (p + q + r + 2) ≤ 2147483647 ∧
      0 ≤ idx3 p q r ∧ idx3 p q r ≤ 2147483647) := by
  obtain ⟨h1, h2, h3, h4⟩ := idx3_exact_graded_bijection p q r d hp hq hr hd
  obtain ⟨f0, f1, f2, f3⟩ := idx3_fits_int32 hp hq hr hpqr
  norm_num at f1 f3
  have e := idx3_eq_exact hp hq hr hpqr
  refine ⟨e.trans h1, h2, h3, h4.congr ?_, f0, f1, ?_, ?_⟩
  · rintro ⟨a, b, c⟩ ⟨ha, hb, hc, habc⟩
    simp only at ha hb hc habc
    exact (idx3_eq_exact ha hb hc (by omega)).symm
  · rw [e]
    exact f2
  · rw [e]
    exact f3

theorem idx3_graded_bijection_witness :
    (0 : Int) ≤ 1 ∧ (0 : Int) ≤ 0 ∧ (1 : Int) + 0 + 1 ≤ 1289 ∧ (0 : Int) ≤ 2 ∧
    (2 : Int) ≤ 1289 ∧
    (idx3 1 0 1 = (1 + 0 + 1) * (1 + 0 + 1 + 1) * (1 + 0 + 1 + 2) / 6
      + (0 + 1) * (0 + 1 + 1) / 2 + 1 ∧
    (6 : Int) ∣ (1 + 0 + 1) * (1 + 0 + 1 + 1) * (1 + 0 + 1 + 2) ∧
    (2 : Int) ∣ (0 + 1) * (0 + 1 + 1) ∧
    Set.BijOn (fun e : Int × Int × Int => idx3 e.1 e.2.1 e.2.2)
      {e | 0 ≤ e.1 ∧ 0 ≤ e.2.1 ∧ 0 ≤ e.2.2 ∧ e.1 + e.2.1 + e.2.2 ≤ 2}
      (Set.Ico 0 ((2 + 1) * (2 + 2) * (2 + 3) / 6)) ∧
    ((0 : Int) ≤ (1 + 0 + 1) * (1 + 0 + 1 + 1) * (1 + 0 + 1 + 2) ∧
      ((1 : Int) + 0 + 1) * (1 + 0 + 1 + 1) * (1 + 0 + 1 + 2) ≤ 2147483647 ∧
      0 ≤ idx3 1 0 1 ∧ idx3 1 0 1 ≤ 2147483647)) :=
  ⟨by decide, by decide, by decide, by decide, by decide,
    idx3_graded_bijection 1 0 1 2 (by decide) (by decide) (by decide) (by decide) (by decide)
      (by decide)⟩

/-- C7, as stated, fails for `p = 1290`, `q = r = 0`: the product
`1290 * 1291 * 1292` is `2151683880`, above `2^31 - 1`, and in 32-bit `int` the
index is negative. -/
theorem idx3_graded_bijection_counterexample :
    (0 : Int) ≤ 1290 ∧ (0 : Int) ≤ 0 ∧
    ((1290 : Int) + 0 + 0) * (1290 + 0 + 0 + 1) * (1290 + 0 + 0 + 2) = 2151683880 ∧
    (2147483647 : Int) < 2151683880 ∧
    idx3 1290 0 0 = -357213902 ∧
    idx3 1290 0 0 ≠ (1290 + 0 + 0) * (1290 + 0 + 0 + 1) * (1290 + 0 + 0 + 2) / 6
      + (0 + 0) * (0 + 0 + 1) / 2 + 0 ∧
    idx3 1290 0 0 ∉ Set.Ico (0 : Int) ((1290 + 1) * (1290 + 2) * (1290 + 3) / 6) := by
  refine ⟨by decide, by decide, by decide, by decide, by decide, by decide, ?_⟩
  intro h
  have h0 : (0 : Int) ≤ idx3 1290 0 0 := h.1
  exact absurd h0 (by decide)

/-! ## The polynomial factories -/

namespace Polynomial

variable {K : Type} [Field K]

theorem zero_eq (u : K) (N : Int) :
    zero u N = .ok { dim := N, order := 0, coeffs := [0] } := by
  simp [zero, resize, setCoeff, default, bind, Except.bind, pure, Except.pure]

theorem one_eq (u : K) (N : Int) :
    one u N = .ok { dim := N, order := 0, coeffs := [1] } := by
  simp [one, resize, setCoeff, default, bind, Except.bind, pure, Except.pure]

/-- C10. For every `N`, `zero(N)` and `one(N)` return a polynomial with `dim = N`,
`order = 0` and exactly one coefficient, `0` for `zero(N)` and `1` for `one(N)`,
whatever the array held before it was written. -/
theorem constant_factories (uninit : K) (N : Int) :
    ∃ p0 p1 : Polynomial K, zero uninit N = .ok p0 ∧ one uninit N = .ok p1 ∧
      p0.dim = N ∧ p0.order = 0 ∧ p0.coeffs.length = 1 ∧ p0.coeffs = [0] ∧
      p1.dim = N ∧ p1.order = 0 ∧ p1.coeffs.length = 1 ∧ p1.coeffs = [1] :=
  ⟨_, _, zero_eq uninit N, one_eq uninit N, rfl, rfl, rfl, rfl, rfl, rfl, rfl, rfl⟩

end Polynomial

/-! ## The change of basis -/

namespace Nedelec2D

variable {K : Type} [Field K]

theorem Ainv_mul_self {n : Nat} (M : Matrix (Fin n) (Fin n) K) (h : M.det ≠ 0) :
    Ainv M * M = 1 := by
  unfold Ainv
  rw [Matrix.smul_mul, Matrix.adjugate_mul, smul_smul, inv_mul_cancel₀ h, one_smul]

theorem self_mul_Ainv {n : Nat} (M : Matrix (Fin n) (Fin n) K) (h : M.det ≠ 0) :
    M * Ainv M = 1 := by
  unfold Ainv
  rw [Matrix.mul_smul, Matrix.mul_adjugate, smul_smul, inv_mul_cancel₀ h, one_smul]

theorem det_ne_zero_of_isUnit {n : Nat} {M : Matrix (Fin n) (Fin n) K} (h : IsUnit M) :
    M.det ≠ 0 :=
  ((Matrix.isUnit_iff_isUnit_det M).mp h).ne_zero

/-- C1. For matrices `wcoeffs` and `dualmat` of the same shape for which
`A = wcoeffs * dualmat^T` is invertible, `new_coeffs = A^-1 * wcoeffs` satisfies
`new_coeffs * dualmat^T = 1`: the `i`-th dual functional (row `i` of `dualmat`)
applied to the `j`-th nodal basis function (row `j` of `new_coeffs`) gives 1 for
`i = j` and 0 otherwise. -/
theorem duality {n m : Nat} (wcoeffs dualmat : Matrix (Fin n) (Fin m) K)
    (h : IsUnit (A wcoeffs dualmat)) :
    new_coeffs wcoeffs dualmat * dualmat.transpose = 1 ∧
    ∀ i j : Fin n,
      (∑ k, dualmat i k * new_coeffs wcoeffs dualmat j k) = if i = j then 1 else 0 := by
  have h1 : new_coeffs wcoeffs dualmat * dualmat.transpose = 1 := by
    unfold new_coeffs
    rw [Matrix.mul_assoc]
    exact Ainv_mul_self _ (det_ne_zero_of_isUnit h)
  refine ⟨h1, ?_⟩
  intro i j
  have h2 := congrFun (congrFun h1 j) i
  rw [Matrix.mul_apply, Matrix.one_apply] at h2
  simp only [Matrix.transpose_apply] at h2
  calc (∑ k, dualmat i k * new_coeffs wcoeffs dualmat j k)
      = ∑ k, new_coeffs wcoeffs dualmat j k * dualmat i k :=
        Finset.sum_congr rfl (fun k _ => mul_comm _ _)
    _ = if j = i then 1 else 0 := h2
    _ = if i = j then 1 else 0 := by simp only [eq_comm]

end Nedelec2D

theorem A_example : Nedelec2D.A wcoeffs_example dualmat_example =
    !![-1, 0, 1; 1, 1, 0; -11/24, -3/16, 3/16] := by
  ext i j
  simp only [Nedelec2D.A, Matrix.mul_apply, Matrix.transpose_apply, Fin.sum_univ_succ,
    Fin.sum_univ_zero]
  fin_cases i <;> fin_cases j <;>
    simp [wcoeffs_example, dualmat_example] <;>
    norm_num

theorem A_example_isUnit : IsUnit (Nedelec2D.A wcoeffs_example dualmat_example) := by
  rw [Matrix.isUnit_iff_isUnit_det, A_example, Matrix.det_fin_three]
  simp
  norm_num

theorem duality_witness :
    IsUnit (Nedelec2D.A wcoeffs_example dualmat_example) ∧
    (Nedelec2D.new_coeffs wcoeffs_example dualmat_example * dualmat_example.transpose = 1 ∧
    ∀ i j : Fin 3,
      (∑ k, dualmat_example i k * Nedelec2D.new_coeffs wcoeffs_example dualmat_example j k)
        = if i = j then 1 else 0) :=
  ⟨A_example_isUnit, Nedelec2D.duality wcoeffs_example dualmat_example A_example_isUnit⟩

/-! ## Loops -/

/-- The invariant rule for a loop over the members of a list: an invariant `I`,
indexed by the number of iterations done, that holds at the start and is carried over
by every iteration that starts in a state satisfying it, holds at the end, and the
loop does not fail. -/
theorem foldlM_invariant {σ α : Type} (f : σ → α → Except Failure σ) (I : Nat → σ → Prop) :
    ∀ (l : List α) (b : Nat) (s0 : σ), I b s0 →
      (∀ (i : Nat) (h : i < l.length) (s : σ), I (b + i) s →
        ∃ s', f s l[i] = .ok s' ∧ I (b + i + 1) s') →
      ∃ s', l.foldlM f s0 = .ok s' ∧ I (b + l.length) s' := by
  intro l
  induction l with
  | nil =>
    intro b s0 h0 _
    exact ⟨s0, rfl, h0⟩
  | cons a l ih =>
    intro b s0 h0 step
    obtain ⟨s1, h1, hI1⟩ := step 0 (Nat.succ_pos _) s0 h0
    have step' : ∀ (i : Nat) (h : i < l.length) (s : σ), I (b + 1 + i) s →
        ∃ s', f s l[i] = .ok s' ∧ I (b + 1 + i + 1) s' := by
      intro i h s hs
      have e : b + 1 + i = b + (i + 1) := by omega
      rw [e] at hs
      obtain ⟨s', h', hI'⟩ := step (i + 1) (Nat.succ_lt_succ h) s hs
      refine ⟨s', h', ?_⟩
      rw [e]
      exact hI'
    obtain ⟨s2, h2, hI2⟩ := ih (b + 1) s1 hI1 step'
    refine ⟨s2, ?_, ?_⟩
    · rw [List.foldlM_cons]
      simp only [List.getElem_cons_zero] at h1
      rw [h1]
      exact h2
    · have e : b + (a :: l).length = b + 1 + l.length := by
        simp only [List.length_cons]
        omega
      rw [e]
      exact hI2

/-- The invariant rule for a counting loop `for (int i = 0; i < n; ++i)`. -/
theorem foldlM_range_invariant {σ : Type} (f : σ → Nat → Except Failure σ) (I : Nat → σ → Prop)
    (n : Nat) (s0 : σ) (h0 : I 0 s0)
    (step : ∀ (i : Nat) (s : σ), i < n → I i s → ∃ s', f s i = .ok s' ∧ I (i + 1) s') :
    ∃ s', (List.range n).foldlM f s0 = .ok s' ∧ I n s' := by
  have h := foldlM_invariant f I (List.range n) 0 s0 h0 (by
    intro i hi s hs
    rw [List.length_range] at hi
    rw [List.getElem_range]
    simp only [Nat.zero_add] at hs ⊢
    exact step i s hi hs)
  simpa using h

/-! ## Sizes -/

namespace Nedelec2D

variable {K : Type} [Field K]

theorem two_mul_nv (d : Int) : 2 * nv d = (d + 1) * (d + 2) := by
  unfold nv
  have h := two_dvd_consec (d + 1)
  have e : (d + 1 + 1) * (d + 1) = (d + 1) * (d + 2) := by ring
  rw [e] at h
  exact Int.mul_tdiv_cancel' h

theorem two_mul_ns0 (d : Int) : 2 * ns0 d = (d + 1) * d := by
  unfold ns0
  exact Int.mul_tdiv_cancel' (two_dvd_consec d)

theorem nv_nonneg {d : Int} (hd : 0 ≤ d) : 0 ≤ nv d := by
  have h := two_mul_nv d
  nlinarith

theorem rows_eq (d : Int) : nv d * 2 + ns d = (d + 1) * (d + 3) := by
  have h := two_mul_nv d
  unfold ns
  linarith

theorem nrows_cast {d : Int} (hd : 0 ≤ d) : ((nrows d : Nat) : Int) = (d + 1) * (d + 3) := by
  unfold nrows
  rw [Int.toNat_of_nonneg, rows_eq]
  rw [rows_eq]
  nlinarith

theorem psize_nonneg (env : Collaborators K) (d : Int) : 0 ≤ psize env d := by
  unfold psize
  exact Int.natCast_nonneg _

theorem ncols_cast (env : Collaborators K) (d : Int) :
    ((ncols env d : Nat) : Int) = psize env d * 2 := by
  unfold ncols
  have h := psize_nonneg env d
  rw [Int.toNat_of_nonneg (by omega)]

theorem zeroMatrix_ok (env : Collaborators K) {d : Int} (hd : 0 ≤ d) :
    zeroMatrix env d = .ok (fun _ _ => 0) := by
  unfold zeroMatrix
  have h1 := rows_eq d
  have h2 := psize_nonneg env d
  have h3 : ¬ (nv d * 2 + ns d < 0 ∨ psize env d * 2 < 0) := by
    rw [h1]
    intro h
    rcases h with h | h
    · nlinarith
    · omega
  rw [if_neg h3]

end Nedelec2D

theorem finRange_two : List.finRange 2 = [0, 1] := by
  rfl

namespace Nedelec2D

variable {K : Type} [Field K]

/-- One pass of the loop over the edge polynomial set succeeds when the dof counter
is the index of a row of `dualmat`, and it increments the counter. -/
theorem edge_step_ok (env : Collaborators K) (d : Int) (edge : Matrix (Fin 2) (Fin 2) K)
    (tangent : Fin 2 → K) (s : Matrix (Fin (nrows d)) (Fin (ncols env d)) K × Int)
    (pq : Polynomial K) (h0 : 0 ≤ s.2) (h1 : s.2 < nrows d) :
    ∃ D, edge_step env d edge tangent s pq = .ok (D, s.2 + 1) := by
  have hc := ncols_cast env d
  have hp : psize env d = ((Pkp1 env d).length : Int) := rfl
  unfold edge_step
  simp only [finRange_two, List.foldlM_cons, List.foldlM_nil, Eigen.setBlock]
  rw [if_pos (by
    refine ⟨h0, ?_, ?_, ?_⟩
    · simp
    · omega
    · simp only [Fin.val_zero, Nat.cast_zero, mul_zero, zero_add]
      omega)]
  simp only [bind, Except.bind, pure, Except.pure]
  rw [if_pos (by
    refine ⟨h0, ?_, ?_, ?_⟩
    · have := psize_nonneg env d
      simp
      omega
    · omega
    · simp only [Fin.val_one, Nat.cast_one, mul_one]
      omega)]
  exact ⟨_, rfl⟩

/-- The loop over the edge polynomial set, for one edge, adds one row per member. -/
theorem edges_step_ok (env : Collaborators K) (d : Int)
    (s : Matrix (Fin (nrows d)) (Fin (ncols env d)) K × Int) (i : Nat) (h0 : 0 ≤ s.2)
    (h1 : s.2 + (env.compute_polynomial_set 1 d).length ≤ nrows d) :
    ∃ D, edges_step env d s i = .ok (D, s.2 + (env.compute_polynomial_set 1 d).length) := by
  unfold edges_step
  obtain ⟨s', hs', hI⟩ := foldlM_invariant
    (edge_step env d (env.sub (env.create_simplex 2) 1 i)
      (if i = 1 then fun a =>
        ((env.sub (env.create_simplex 2) 1 i) 1 - (env.sub (env.create_simplex 2) 1 i) 0) a * (-1)
       else (env.sub (env.create_simplex 2) 1 i) 1 - (env.sub (env.create_simplex 2) 1 i) 0))
    (fun j t => t.2 = s.2 + j) (env.compute_polynomial_set 1 d) 0 s (by simp)
    (by
      intro j hj t ht
      simp only [Nat.zero_add] at ht
      obtain ⟨D, hD⟩ := edge_step_ok env d _ _ t (env.compute_polynomial_set 1 d)[j]
        (by rw [ht]; omega) (by rw [ht]; omega)
      refine ⟨_, hD, ?_⟩
      simp only [ht]
      push_cast
      ring)
  refine ⟨s'.1, ?_⟩
  rw [hs']
  simp only [Nat.zero_add] at hI
  rw [← hI]

/-- The loop over the three edges adds three rows per member of the edge polynomial
set. -/
theorem edges_loop_ok (env : Collaborators K) (d : Int)
    (D0 : Matrix (Fin (nrows d)) (Fin (ncols env d)) K)
    (h1 : 3 * ((env.compute_polynomial_set 1 d).length : Int) ≤ nrows d) :
    ∃ D, (List.range 3).foldlM (edges_step env d) (D0, 0)
      = .ok (D, 3 * ((env.compute_polynomial_set 1 d).length : Int)) := by
  obtain ⟨s', hs', hI⟩ := foldlM_range_invariant (edges_step env d)
    (fun i t => t.2 = i * ((env.compute_polynomial_set 1 d).length : Int)) 3 (D0, 0) (by simp)
    (by
      intro i t hi ht
      have hL : (0 : Int) ≤ ((env.compute_polynomial_set 1 d).length : Int) :=
        Int.natCast_nonneg _
      have hi' : (i : Int) + 1 ≤ 3 := by omega
      obtain ⟨D, hD⟩ := edges_step_ok env d t i (by rw [ht]; positivity)
        (by rw [ht]; nlinarith)
      refine ⟨_, hD, ?_⟩
      simp only [ht]
      push_cast
      ring)
  refine ⟨s'.1, ?_⟩
  rw [hs']
  simp only [Nat.cast_ofNat] at hI
  rw [← hI]

/-- One pass of the loop over the interior polynomial set succeeds when the dof
counter and its successor are indices of rows of `dualmat`; the counter grows by
two. -/
theorem interior_step_ok (env : Collaborators K) (d : Int)
    (s : Matrix (Fin (nrows d)) (Fin (ncols env d)) K × Int) (chi : Polynomial K)
    (h0 : 0 ≤ s.2) (h1 : s.2 + 1 < nrows d) :
    ∃ D, interior_step env d s chi = .ok (D, s.2 + 1 + 1) := by
  have hc := ncols_cast env d
  have hp : psize env d = ((Pkp1 env d).length : Int) := rfl
  unfold interior_step
  have ha : assert (decide (((Pkp1 env d).length : Int) = psize env d)) = .ok () := by
    simp [assert, hp]
  simp only [ha, Eigen.setBlock, bind, Except.bind, pure, Except.pure]
  rw [if_pos (by
    refine ⟨h0, le_refl _, ?_, ?_⟩
    · omega
    · omega)]
  simp only
  rw [if_pos (by
    refine ⟨by omega, ?_, ?_, ?_⟩
    · omega
    · omega
    · omega)]
  exact ⟨_, rfl⟩

/-- The loop over the interior polynomial set adds two rows per member. -/
theorem interior_loop_ok (env : Collaborators K) (d : Int) (l : List (Polynomial K))
    (s : Matrix (Fin (nrows d)) (Fin (ncols env d)) K × Int) (h0 : 0 ≤ s.2)
    (h1 : s.2 + 2 * (l.length : Int) ≤ nrows d) :
    ∃ D, l.foldlM (interior_step env d) s = .ok (D, s.2 + 2 * (l.length : Int)) := by
  obtain ⟨s', hs', hI⟩ := foldlM_invariant (interior_step env d)
    (fun j t => t.2 = s.2 + 2 * (j : Int)) l 0 s (by simp)
    (by
      intro j hj t ht
      simp only [Nat.zero_add] at ht
      obtain ⟨D, hD⟩ := interior_step_ok env d t l[j] (by rw [ht]; omega) (by rw [ht]; omega)
      refine ⟨_, hD, ?_⟩
      simp only [ht]
      push_cast
      ring)
  refine ⟨s'.1, ?_⟩
  rw [hs']
  simp only [Nat.zero_add] at hI
  rw [← hI]

theorem two_mul_choose_two (n : Nat) : 2 * Nat.choose (n + 1) 2 = (n + 1) * n := by
  induction n with
  | zero => rfl
  | succ n ih =>
    rw [Nat.choose_succ_succ, Nat.choose_one_right, Nat.mul_add, ih]
    ring

/-- C3. For every degree `k >= 1`, when `compute_polynomial_set(N, m)` returns
`C(N, m)` polynomials, the assembly of `dualmat` succeeds and the dof counter `c`
ends at `2 * nv + ns = k (k + 2)`: it is `3 (d + 1)` after the edge loops and the
interior loop adds `d (d + 1)`, where `d = k - 1`; for `d = 0` the interior loop
does not run. -/
theorem dof_count (env : Collaborators K) (k : Int) (hk : 1 ≤ k)
    (hcps : ∀ N m : Nat, (env.compute_polynomial_set N m).length = Nat.choose (m + N) N) :
    ∃ D0 De D : Matrix (Fin (nrows (k - 1))) (Fin (ncols env (k - 1))) K,
      zeroMatrix env (k - 1) = .ok D0 ∧
      (List.range 3).foldlM (edges_step env (k - 1)) (D0, 0) = .ok (De, 3 * (k - 1 + 1)) ∧
      dualmat env (k - 1) = .ok (D, 3 * (k - 1 + 1) + (k - 1) * (k - 1 + 1)) ∧
      (k - 1 = 0 → D = De) ∧
      3 * (k - 1 + 1) + (k - 1) * (k - 1 + 1) = 2 * nv (k - 1) + ns (k - 1) ∧
      2 * nv (k - 1) + ns (k - 1) = k * (k + 2) := by
  obtain ⟨dn, hdn⟩ := Int.eq_ofNat_of_zero_le (show 0 ≤ k - 1 by omega)
  have hd : (0 : Int) ≤ k - 1 := by omega
  have hrows := nrows_cast hd
  have hnv := two_mul_nv (k - 1)
  have hz := zeroMatrix_ok env hd
  -- the sizes of the two polynomial sets
  have hPq : ((env.compute_polynomial_set 1 (k - 1)).length : Int) = k - 1 + 1 := by
    have h := hcps 1 dn
    rw [Nat.choose_one_right] at h
    rw [hdn]
    simp only [Nat.cast_one] at h
    rw [h]
    push_cast
    ring
  obtain ⟨De, hDe⟩ := edges_loop_ok env (k - 1) (fun _ _ => 0) (by rw [hPq, hrows]; nlinarith)
  rw [hPq] at hDe
  have hsum : 3 * (k - 1 + 1) + (k - 1) * (k - 1 + 1) = 2 * nv (k - 1) + ns (k - 1) := by
    unfold ns
    linarith
  have hk2 : 2 * nv (k - 1) + ns (k - 1) = k * (k + 2) := by
    unfold ns
    rw [hnv]
    ring
  by_cases h0 : k - 1 > 0
  · -- the interior loop runs
    have hPkm1 : 2 * ((env.compute_polynomial_set 2 (k - 1 - 1)).length : Int)
        = (k - 1) * (k - 1 + 1) := by
      obtain ⟨e, he⟩ : ∃ e : Nat, dn = e + 1 := ⟨dn - 1, by omega⟩
      have h := hcps 2 e
      have h2 := two_mul_choose_two (e + 1)
      have e1 : k - 1 - 1 = (e : Int) := by omega
      rw [e1]
      simp only [Nat.cast_ofNat] at h
      rw [h]
      have e2 : k - 1 = (e : Int) + 1 := by omega
      rw [e2]
      have h3 : ((2 * Nat.choose (e + 1 + 1) 2 : Nat) : Int) = (((e + 1 + 1) * (e + 1) : Nat) : Int) := by
        rw [h2]
      push_cast at h3
      linarith
    obtain ⟨D, hD⟩ := interior_loop_ok env (k - 1) (env.compute_polynomial_set 2 (k - 1 - 1))
      (De, 3 * (k - 1 + 1)) (by simp only; omega) (by simp only; rw [hPkm1, hrows]; nlinarith)
    simp only [hPkm1] at hD
    refine ⟨_, De, D, hz, hDe, ?_, ?_, hsum, hk2⟩
    · unfold dualmat
      rw [hz]
      simp only [bind, Except.bind]
      rw [hDe]
      simp only [h0, if_true]
      exact hD
    · intro h
      omega
  · refine ⟨_, De, De, hz, hDe, ?_, ?_, hsum, hk2⟩
    · unfold dualmat
      rw [hz]
      simp only [bind, Except.bind]
      rw [hDe]
      simp only [h0, if_false]
      have e : k - 1 = 0 := by omega
      have e2 : 3 * (k - 1 + 1) + (k - 1) * (k - 1 + 1) = 3 * (k - 1 + 1) := by
        rw [e]
        ring
      rw [e2]
      rfl
    · intro _
      rfl

theorem exampleEnv_sizes (N m : Nat) :
    (exampleEnv.compute_polynomial_set N m).length = Nat.choose (m + N) N := by
  simp [exampleEnv]

theorem dof_count_witness :
    (1 : Int) ≤ 2 ∧
    (∀ N m : Nat, (exampleEnv.compute_polynomial_set N m).length = Nat.choose (m + N) N) ∧
    ∃ D0 De D : Matrix (Fin (nrows (2 - 1))) (Fin (ncols exampleEnv (2 - 1))) ℚ,
      zeroMatrix exampleEnv (2 - 1) = .ok D0 ∧
      (List.range 3).foldlM (edges_step exampleEnv (2 - 1)) (D0, 0) = .ok (De, 3 * (2 - 1 + 1)) ∧
      dualmat exampleEnv (2 - 1) = .ok (D, 3 * (2 - 1 + 1) + (2 - 1) * (2 - 1 + 1)) ∧
      ((2 : Int) - 1 = 0 → D = De) ∧
      3 * ((2 : Int) - 1 + 1) + (2 - 1) * (2 - 1 + 1) = 2 * nv (2 - 1) + ns (2 - 1) ∧
      2 * nv (2 - 1) + ns (2 - 1) = 2 * (2 + 2) :=
  ⟨by decide, exampleEnv_sizes, dof_count exampleEnv 2 (by decide) exampleEnv_sizes⟩

/-! ## The matrix `wcoeffs` -/

/-- One pass of the inner loop that fills the last `ns` rows of `wcoeffs` succeeds
and writes `w0.sum()` and `w1.sum()` to columns `k` and `k + psize` of row
`2 * nv + i`. -/
theorem wcoeffs_step_ok (env : Collaborators K) {d : Int} (hd : 0 ≤ d)
    (hnp : nv d ≤ psize env d) (W : Matrix (Fin (nrows d)) (Fin (ncols env d)) K)
    (i k : Nat) (hi : (i : Int) < ns d) (hk : (k : Int) < psize env d) :
    ∃ W', wcoeffs_step env d W i k = .ok W' ∧
      ∀ (r : Fin (nrows d)) (c : Fin (ncols env d)), W' r c =
        if ((r : Nat) : Int) = 2 * nv d + i ∧ ((c : Nat) : Int) = k + psize env d then
          w1_sum env d i k
        else if ((r : Nat) : Int) = 2 * nv d + i ∧ ((c : Nat) : Int) = k then w0_sum env d i k
        else W r c := by
  have hc := ncols_cast env d
  have hr := nrows_cast hd
  have hrows := rows_eq d
  have hp : psize env d = ((Pkp1 env d).length : Int) := rfl
  have h2nv := two_mul_nv d
  have h2ns0 := two_mul_ns0 d
  have hns : ns d = d + 1 := rfl
  have hns0 : 0 ≤ ns0 d := by nlinarith
  have hsum : ns0 d + ns d = nv d := by
    rw [hns]
    linarith
  have hl1 : (ns0 d + i).toNat < (Pkp1 env d).length := by omega
  have hl2 : k < (Pkp1 env d).length := by omega
  unfold wcoeffs_step
  simp only [Eigen.row]
  rw [dif_pos (by constructor <;> omega), dif_pos (by constructor <;> omega)]
  simp only [Eigen.setCoeff, bind, Except.bind]
  rw [if_pos (by refine ⟨?_, ?_, ?_, ?_⟩ <;> omega)]
  simp only
  rw [if_pos (by refine ⟨?_, ?_, ?_, ?_⟩ <;> omega)]
  refine ⟨_, rfl, ?_⟩
  intro r c
  simp only [w0_sum, w1_sum, Pkp1_at, Collaborators.tabulate, List.getD_eq_getElem _ _ hl1,
    List.getD_eq_getElem _ _ hl2, List.get_eq_getElem, Int.toNat_ofNat]

/-- The inner loop, over `k < psize`, writes columns `k` and `k + psize` of row
`2 * nv + i` for every `k`. -/
theorem wcoeffs_inner_ok (env : Collaborators K) {d : Int} (hd : 0 ≤ d)
    (hnp : nv d ≤ psize env d) (W0 : Matrix (Fin (nrows d)) (Fin (ncols env d)) K)
    (i : Nat) (hi : (i : Int) < ns d) :
    ∃ W, (List.range (psize env d).toNat).foldlM (fun W k => wcoeffs_step env d W i k) W0
        = .ok W ∧
      ∀ (r : Fin (nrows d)) (c : Fin (ncols env d)), W r c =
        if ((r : Nat) : Int) = 2 * nv d + i then
          (if ((c : Nat) : Int) < psize env d then w0_sum env d i (c : Nat)
           else w1_sum env d i ((c : Nat) - (psize env d).toNat))
        else W0 r c := by
  have hc := ncols_cast env d
  have hp := psize_nonneg env d
  obtain ⟨W, hW, hI⟩ := foldlM_range_invariant (fun W k => wcoeffs_step env d W i k)
    (fun k0 W => ∀ (r : Fin (nrows d)) (c : Fin (ncols env d)), W r c =
      if ((r : Nat) : Int) = 2 * nv d + i ∧
          (((c : Nat) : Int) < k0 ∨
            (psize env d ≤ ((c : Nat) : Int) ∧ ((c : Nat) : Int) < psize env d + k0)) then
        (if ((c : Nat) : Int) < psize env d then w0_sum env d i (c : Nat)
         else w1_sum env d i ((c : Nat) - (psize env d).toNat))
      else W0 r c) (psize env d).toNat W0
    (by
      intro r c
      rw [if_neg (by omega)])
    (by
      intro k W1 hk hW1
      obtain ⟨W2, hW2, hI2⟩ := wcoeffs_step_ok env hd hnp W1 i k hi (by omega)
      refine ⟨W2, hW2, ?_⟩
      intro r c
      rw [hI2 r c, hW1 r c]
      simp only [Nat.cast_add, Nat.cast_one]
      split_ifs <;> first | rfl | (exfalso; omega) | (congr 1; omega))
  refine ⟨W, hW, ?_⟩
  intro r c
  rw [hI r c]
  have hcr : ((c : Nat) : Int) < psize env d * 2 := by
    have := c.isLt
    omega
  split_ifs <;> first | rfl | (exfalso; omega)

/-- The double loop that fills the last `ns` rows of `wcoeffs` succeeds, leaves the
first `2 * nv` rows as they are and writes the closed forms to the others. -/
theorem wcoeffs_loop_ok (env : Collaborators K) {d : Int} (hd : 0 ≤ d)
    (hnp : nv d ≤ psize env d) (W0 : Matrix (Fin (nrows d)) (Fin (ncols env d)) K) :
    ∃ W, (List.range (ns d).toNat).foldlM (fun W i =>
        (List.range (psize env d).toNat).foldlM (fun W k =>
          wcoeffs_step env d W i k) W) W0 = .ok W ∧
      ∀ (r : Fin (nrows d)) (c : Fin (ncols env d)), W r c =
        if 2 * nv d ≤ ((r : Nat) : Int) then
          (if ((c : Nat) : Int) < psize env d then
            w0_sum env d ((r : Nat) - (2 * nv d).toNat) (c : Nat)
           else w1_sum env d ((r : Nat) - (2 * nv d).toNat) ((c : Nat) - (psize env d).toNat))
        else W0 r c := by
  have hns : ns d = d + 1 := rfl
  have hr := nrows_cast hd
  have hrows := rows_eq d
  have hnv := nv_nonneg hd
  obtain ⟨W, hW, hI⟩ := foldlM_range_invariant
    (fun W i => (List.range (psize env d).toNat).foldlM (fun W k =>
      wcoeffs_step env d W i k) W)
    (fun i0 W => ∀ (r : Fin (nrows d)) (c : Fin (ncols env d)), W r c =
      if 2 * nv d ≤ ((r : Nat) : Int) ∧ ((r : Nat) : Int) < 2 * nv d + i0 then
        (if ((c : Nat) : Int) < psize env d then
          w0_sum env d ((r : Nat) - (2 * nv d).toNat) (c : Nat)
         else w1_sum env d ((r : Nat) - (2 * nv d).toNat) ((c : Nat) - (psize env d).toNat))
      else W0 r c) (ns d).toNat W0
    (by
      intro r c
      rw [if_neg (by omega)])
    (by
      intro i W1 hi hW1
      obtain ⟨W2, hW2, hI2⟩ := wcoeffs_inner_ok env hd hnp W1 i (by omega)
      refine ⟨W2, hW2, ?_⟩
      intro r c
      rw [hI2 r c, hW1 r c]
      simp only [Nat.cast_add, Nat.cast_one]
      split_ifs <;> first | rfl | (exfalso; omega) | (congr 1; omega))
  refine ⟨W, hW, ?_⟩
  intro r c
  rw [hI r c]
  have hrr : ((r : Nat) : Int) < nv d * 2 + ns d := by
    have := r.isLt
    omega
  split_ifs <;> first | rfl | (exfalso; omega)

/-- The matrix `wcoeffs` exists when `nv <= psize`, and its first `2 * nv` rows are
unit rows: row `i` has its `1` in column `i` and row `nv + i` has it in column
`psize + i`. -/
theorem wcoeffs_ok (env : Collaborators K) {d : Int} (hd : 0 ≤ d) (hnp : nv d ≤ psize env d) :
    ∃ W, wcoeffs env d = .ok W ∧
      (∀ (r : Fin (nrows d)) (c : Fin (ncols env d)), ((r : Nat) : Int) < nv d →
        W r c = if ((c : Nat) : Int) = r then 1 else 0) ∧
      (∀ (r : Fin (nrows d)) (c : Fin (ncols env d)), nv d ≤ ((r : Nat) : Int) →
        ((r : Nat) : Int) < 2 * nv d →
        W r c = if ((c : Nat) : Int) = psize env d + (r - nv d) then 1 else 0) ∧
      (∀ (r : Fin (nrows d)) (c : Fin (ncols env d)), 2 * nv d ≤ ((r : Nat) : Int) →
        W r c = if ((c : Nat) : Int) < psize env d then
            w0_sum env d ((r : Nat) - (2 * nv d).toNat) (c : Nat)
          else w1_sum env d ((r : Nat) - (2 * nv d).toNat) ((c : Nat) - (psize env d).toNat)) := by
  have hc := ncols_cast env d
  have hr := nrows_cast hd
  have hrows := rows_eq d
  have hnv := nv_nonneg hd
  have hns : ns d = d + 1 := rfl
  have hp := psize_nonneg env d
  unfold wcoeffs
  rw [zeroMatrix_ok env hd]
  simp only [bind, Except.bind, Eigen.setBlock]
  rw [if_neg (by omega)]
  simp only [pure, Except.pure]
  rw [if_pos (by refine ⟨?_, ?_, ?_, ?_⟩ <;> omega)]
  simp only
  rw [if_pos (by refine ⟨?_, ?_, ?_, ?_⟩ <;> omega)]
  obtain ⟨W, hW, hI⟩ := wcoeffs_loop_ok env hd hnp (fun i j =>
      if hb : nv d ≤ i ∧ (i : Int) < nv d + (nv d).toNat ∧ psize env d ≤ j ∧
          (j : Int) < psize env d + (nv d).toNat then
        (1 : Matrix (Fin (nv d).toNat) (Fin (nv d).toNat) K)
          ⟨((i : Int) - nv d).toNat, by omega⟩ ⟨((j : Int) - psize env d).toNat, by omega⟩
      else
        if hb : (0 : Int) ≤ i ∧ (i : Int) < 0 + (nv d).toNat ∧ (0 : Int) ≤ j ∧
            (j : Int) < 0 + (nv d).toNat then
          (1 : Matrix (Fin (nv d).toNat) (Fin (nv d).toNat) K)
            ⟨((i : Int) - 0).toNat, by omega⟩ ⟨((j : Int) - 0).toNat, by omega⟩
        else 0)
  refine ⟨W, hW, ?_, ?_, ?_⟩
  rotate_left 2
  · intro r c hrc
    rw [hI r c, if_pos hrc]
  · intro r c hrc
    rw [hI r c, if_neg (by omega)]
    rw [dif_neg (by omega)]
    by_cases hcc : ((c : Nat) : Int) < nv d
    · rw [dif_pos (by refine ⟨?_, ?_, ?_, ?_⟩ <;> omega)]
      rw [Matrix.one_apply]
      simp only [Fin.mk.injEq]
      by_cases e : ((c : Nat) : Int) = r
      · rw [if_pos e, if_pos (by omega)]
      · rw [if_neg e, if_neg (by omega)]
    · rw [dif_neg (by omega), if_neg (by omega)]
  · intro r c h1 h2
    rw [hI r c, if_neg (by omega)]
    by_cases hcc : psize env d ≤ ((c : Nat) : Int) ∧ ((c : Nat) : Int) < psize env d + nv d
    · rw [dif_pos (by refine ⟨?_, ?_, ?_, ?_⟩ <;> omega)]
      rw [Matrix.one_apply]
      simp only [Fin.mk.injEq]
      by_cases e : ((c : Nat) : Int) = psize env d + (r - nv d)
      · rw [if_pos e, if_pos (by omega)]
      · rw [if_neg e, if_neg (by omega)]
    · rw [dif_neg (by omega), dif_neg (by omega), if_neg (by omega)]

/-- When `wcoeffs` has been assembled, its second identity block has fitted into it:
`nv <= psize`. -/
theorem nv_le_psize_of_wcoeffs (env : Collaborators K) {d : Int} (hd : 0 ≤ d)
    (W : Matrix (Fin (nrows d)) (Fin (ncols env d)) K) (hW : wcoeffs env d = .ok W) :
    nv d ≤ psize env d := by
  have hc := ncols_cast env d
  have hnv := nv_nonneg hd
  by_contra hnot
  unfold wcoeffs at hW
  rw [zeroMatrix_ok env hd] at hW
  simp only [bind, Except.bind, Eigen.setBlock] at hW
  rw [if_neg (by omega)] at hW
  simp only [pure, Except.pure] at hW
  split at hW
  · simp at hW
  · rename_i W1 hW1
    rw [if_neg (by omega)] at hW
    simp at hW

/-- A row of a product is the combination of the rows of the right factor with the
coefficients of the row of the left factor. -/
theorem mul_row {n m : Nat} (M : Matrix (Fin n) (Fin n) K) (N : Matrix (Fin n) (Fin m) K)
    (i : Fin n) : (M * N) i = ∑ j, M i j • N j := by
  funext c
  rw [Matrix.mul_apply, Finset.sum_apply]
  exact Finset.sum_congr rfl (fun j _ => by rw [Pi.smul_apply, smul_eq_mul])

theorem span_rows_mul_le {n m : Nat} (M : Matrix (Fin n) (Fin n) K)
    (N : Matrix (Fin n) (Fin m) K) :
    Submodule.span K (Set.range (M * N)) ≤ Submodule.span K (Set.range N) := by
  rw [Submodule.span_le]
  rintro v ⟨i, rfl⟩
  rw [mul_row]
  exact Submodule.sum_mem _ (fun j _ =>
    Submodule.smul_mem _ _ (Submodule.subset_span ⟨j, rfl⟩))

/-- C2. When `wcoeffs` has been assembled for a degree `k >= 1` and
`A = wcoeffs * dualmat^T` is invertible, `wcoeffs = A * new_coeffs`: every row of
`wcoeffs` is a linear combination of the rows of `new_coeffs`, and both matrices
have the same row space.  In particular, for `i < nv`, rows `i` and `nv + i` of
`wcoeffs` are the unit rows with their `1` in columns `i` and `psize + i`, and
these unit rows lie in the span of the rows of `new_coeffs`. -/
theorem completeness (env : Collaborators K) (k : Int) (hk : 1 ≤ k)
    (W D : Matrix (Fin (nrows (k - 1))) (Fin (ncols env (k - 1))) K)
    (hW : wcoeffs env (k - 1) = .ok W) (hA : IsUnit (A W D)) :
    W = A W D * new_coeffs W D ∧
    (∀ i, W i = ∑ j, A W D i j • new_coeffs W D j) ∧
    Submodule.span K (Set.range W) = Submodule.span K (Set.range (new_coeffs W D)) ∧
    ∀ i : Nat, (i : Int) < nv (k - 1) →
      ∃ (r r' : Fin (nrows (k - 1))) (c c' : Fin (ncols env (k - 1))),
        ((r : Nat) : Int) = i ∧ ((r' : Nat) : Int) = nv (k - 1) + i ∧
        ((c : Nat) : Int) = i ∧ ((c' : Nat) : Int) = psize env (k - 1) + i ∧
        W r = Pi.single c 1 ∧ W r' = Pi.single c' 1 ∧
        Pi.single c (1 : K) ∈ Submodule.span K (Set.range (new_coeffs W D)) ∧
        Pi.single c' (1 : K) ∈ Submodule.span K (Set.range (new_coeffs W D)) := by
  have hd : (0 : Int) ≤ k - 1 := by omega
  have hdet := det_ne_zero_of_isUnit hA
  have h1 : W = A W D * new_coeffs W D := by
    unfold new_coeffs
    rw [← Matrix.mul_assoc, self_mul_Ainv _ hdet, Matrix.one_mul]
  have h3 : Submodule.span K (Set.range W) = Submodule.span K (Set.range (new_coeffs W D)) := by
    apply le_antisymm
    · have h := span_rows_mul_le (A W D) (new_coeffs W D)
      rw [← h1] at h
      exact h
    · exact span_rows_mul_le (Ainv (A W D)) W
  refine ⟨h1, ?_, h3, ?_⟩
  · intro i
    have h := mul_row (A W D) (new_coeffs W D) i
    rw [← h1] at h
    exact h
  · intro i hi
    have hnp := nv_le_psize_of_wcoeffs env hd W hW
    obtain ⟨W', hW', hu1, hu2, _⟩ := wcoeffs_ok env hd hnp
    rw [hW] at hW'
    have e : W = W' := Except.ok.inj hW'
    subst e
    have hc := ncols_cast env (k - 1)
    have hr := nrows_cast hd
    have hrows := rows_eq (k - 1)
    have hns : ns (k - 1) = k - 1 + 1 := rfl
    have hp := psize_nonneg env (k - 1)
    have hrw : ∀ r : Fin (nrows (k - 1)),
        W r ∈ Submodule.span K (Set.range (new_coeffs W D)) := by
      intro r
      rw [← h3]
      exact Submodule.subset_span ⟨r, rfl⟩
    have e1 : W ⟨i, by omega⟩ = Pi.single (⟨i, by omega⟩ : Fin (ncols env (k - 1))) 1 := by
      funext c
      rw [hu1 _ c (by simpa using hi), Pi.single_apply]
      by_cases e : ((c : Nat) : Int) = i
      · rw [if_pos (by simpa using e), if_pos (Fin.ext (by simpa using e))]
      · rw [if_neg (by simpa using e), if_neg (fun e' => e (by rw [e']))]
    have e2 : W ⟨(nv (k - 1)).toNat + i, by omega⟩
        = Pi.single (⟨(psize env (k - 1)).toNat + i, by omega⟩ : Fin (ncols env (k - 1))) 1 := by
      funext c
      rw [hu2 _ c (by simp only; omega) (by simp only; omega), Pi.single_apply]
      by_cases e : (c : Nat) = (psize env (k - 1)).toNat + i
      · rw [if_pos (by simp only; omega), if_pos (Fin.ext e)]
      · rw [if_neg (by simp only; omega), if_neg (fun e' => e (by rw [e']))]
    refine ⟨⟨i, by omega⟩, ⟨(nv (k - 1)).toNat + i, by omega⟩, ⟨i, by omega⟩,
      ⟨(psize env (k - 1)).toNat + i, by omega⟩, rfl, ?_, rfl, ?_, e1, e2, ?_, ?_⟩
    · simp only
      omega
    · simp only
      omega
    · rw [← e1]
      exact hrw _
    · rw [← e2]
      exact hrw _

theorem example_nrows : nrows (1 - 1) = 3 := by decide
theorem example_ncols : ncols exampleEnv (1 - 1) = 6 := by decide

theorem example_w0 : ∀ c : Fin 3, w0_sum exampleEnv (1 - 1) 0 c = ![1/6, 1/24, 1/12] c := by
  intro c
  fin_cases c <;>
  simp [w0_sum, Qrule, Pkp1, ns0, exampleEnv, Fin.sum_univ_succ] <;> norm_num

theorem example_w1 : ∀ c : Fin 3, w1_sum exampleEnv (1 - 1) 0 c = ![-1/6, -1/12, -1/24] c := by
  intro c
  fin_cases c <;>
  simp [w1_sum, Qrule, Pkp1, ns0, exampleEnv, Fin.sum_univ_succ] <;> norm_num

theorem exampleW_ok : wcoeffs exampleEnv (1 - 1) = .ok exampleW := by
  obtain ⟨W, hW, _⟩ := wcoeffs_ok exampleEnv (d := 1 - 1) (by decide) (by decide)
  unfold exampleW
  rw [hW]

theorem exampleW_eq : exampleW = wcoeffs_example := by
  obtain ⟨W, hW, hu1, hu2, hu3⟩ := wcoeffs_ok exampleEnv (d := 1 - 1) (by decide) (by decide)
  have e : exampleW = W := by
    unfold exampleW
    rw [hW]
  rw [e]
  have hnv : nv (1 - 1) = 1 := by decide
  have hps : psize exampleEnv (1 - 1) = 3 := by decide
  have key : ∀ (r : Fin 3) (c : Fin 6), W r c = wcoeffs_example r c := by
    intro r c
    fin_cases r
    · rw [hu1 _ c (by decide)]
      fin_cases c <;> first | (simp [wcoeffs_example]; done) | (simp [wcoeffs_example]; rfl)
    · rw [hu2 _ c (by decide) (by decide), hnv, hps]
      fin_cases c <;> first | (simp [wcoeffs_example]; done) | (simp [wcoeffs_example]; rfl)
    · rw [hu3 _ c (by decide), hnv, hps]
      fin_cases c
      · exact example_w0 0
      · exact example_w0 1
      · exact example_w0 2
      · exact example_w1 0
      · exact example_w1 1
      · exact example_w1 2
  funext r c
  exact key r c

theorem exampleW_isUnit : IsUnit (A exampleW dualmat_example) := by
  rw [exampleW_eq]
  exact A_example_isUnit

theorem completeness_witness :
    (1 : Int) ≤ 1 ∧ wcoeffs exampleEnv (1 - 1) = .ok exampleW ∧
    IsUnit (A exampleW dualmat_example) ∧
    (exampleW = A exampleW dualmat_example * new_coeffs exampleW dualmat_example ∧
    (∀ i, exampleW i
      = ∑ j, A exampleW dualmat_example i j • new_coeffs exampleW dualmat_example j) ∧
    Submodule.span ℚ (Set.range exampleW)
      = Submodule.span ℚ (Set.range (new_coeffs exampleW dualmat_example)) ∧
    ∀ i : Nat, (i : Int) < nv (1 - 1) →
      ∃ (r r' : Fin (nrows (1 - 1))) (c c' : Fin (ncols exampleEnv (1 - 1))),
        ((r : Nat) : Int) = i ∧ ((r' : Nat) : Int) = nv (1 - 1) + i ∧
        ((c : Nat) : Int) = i ∧ ((c' : Nat) : Int) = psize exampleEnv (1 - 1) + i ∧
        exampleW r = Pi.single c 1 ∧ exampleW r' = Pi.single c' 1 ∧
        Pi.single c (1 : ℚ) ∈ Submodule.span ℚ (Set.range (new_coeffs exampleW dualmat_example)) ∧
        Pi.single c' (1 : ℚ)
          ∈ Submodule.span ℚ (Set.range (new_coeffs exampleW dualmat_example))) :=
  ⟨by decide, exampleW_ok, exampleW_isUnit,
    completeness exampleEnv 1 (by decide) exampleW dualmat_example exampleW_ok exampleW_isUnit⟩

/-! ## The assembly of `poly_set` -/

theorem accumulate_succ (env : Collaborators K) (d : Int)
    (B : Matrix (Fin (nrows d)) (Fin (ncols env d)) K) (i j k0 : Nat) (p : Polynomial K) :
    accumulate env d B i j (k0 + 1) p =
      env.add (accumulate env d B i j k0 p)
        (env.scale ((Pkp1 env d).getD k0 Polynomial.default)
          (Eigen.entry B i (k0 + (psize env d).toNat * j))) := by
  unfold accumulate
  rw [List.range_succ, List.foldl_append]
  rfl

/-- One pass of the innermost loop of the assembly of `poly_set` succeeds and
updates the entry `i + (nv * 2 + ns) * j`. -/
theorem poly_set_step_ok (env : Collaborators K) {d : Int} (hd : 0 ≤ d)
    (B : Matrix (Fin (nrows d)) (Fin (ncols env d)) K) (ps : List (Polynomial K))
    (j i k : Nat) (hj : j < 2) (hi : i < nrows d) (hk : (k : Int) < psize env d)
    (hlen : ps.length = nrows d * 2) :
    poly_set_step env d B ps j i k = .ok (ps.modify (fun p =>
      env.add p (env.scale ((Pkp1 env d).getD k Polynomial.default)
        (Eigen.entry B i (k + (psize env d).toNat * j)))) (i + nrows d * j)) := by
  have hc := ncols_cast env d
  have hr := nrows_cast hd
  have hrows := rows_eq d
  have hp : psize env d = ((Pkp1 env d).length : Int) := rfl
  have hl2 : k < (Pkp1 env d).length := by omega
  have hjj : j = 0 ∨ j = 1 := by omega
  have hcol : k + (psize env d).toNat * j < ncols env d := by
    rcases hjj with h | h <;> subst h <;> omega
  have hcol' : (k : Int) + psize env d * (j : Int) = ((k + (psize env d).toNat * j : Nat) : Int) := by
    rcases hjj with h | h <;> subst h <;> push_cast <;> omega
  have hidx : (i : Int) + (nv d * 2 + ns d) * (j : Int) = ((i + nrows d * j : Nat) : Int) := by
    rw [hrows, ← hr]
    push_cast
    ring
  have hidx2 : i + nrows d * j < ps.length := by
    rw [hlen]
    rcases hjj with h | h <;> subst h <;> omega
  unfold poly_set_step
  simp only [Eigen.coeff, Eigen.elemAt, Eigen.modifyAt, bind, Except.bind]
  rw [dif_pos (by refine ⟨?_, ?_, ?_, ?_⟩ <;> omega)]
  simp only [Int.toNat_ofNat, Nat.cast_nonneg, if_true, List.getElem?_eq_getElem hl2]
  rw [hidx, if_pos (by constructor <;> omega)]
  simp only [Int.toNat_ofNat, List.getD_eq_getElem _ _ hl2]
  congr 3
  unfold Eigen.entry
  rw [dif_pos ⟨hi, hcol⟩]
  congr 1

/-- The two reads of a pass of the innermost loop of the assembly of `poly_set` are
inside the matrix `new_coeffs` and inside `Pkp1`. -/
theorem poly_set_reads_ok (env : Collaborators K) {d : Int} (hd : 0 ≤ d)
    (B : Matrix (Fin (nrows d)) (Fin (ncols env d)) K)
    (j i k : Nat) (hj : j < 2) (hi : i < nrows d) (hk : (k : Int) < psize env d) :
    Eigen.coeff B i (k + psize env d * j)
      = .ok (Eigen.entry B i (k + (psize env d).toNat * j)) ∧
    Eigen.elemAt (Pkp1 env d) k = .ok ((Pkp1 env d).getD k Polynomial.default) := by
  have hc := ncols_cast env d
  have hp : psize env d = ((Pkp1 env d).length : Int) := rfl
  have hl2 : k < (Pkp1 env d).length := by omega
  have hjj : j = 0 ∨ j = 1 := by omega
  have hcol : k + (psize env d).toNat * j < ncols env d := by
    rcases hjj with h | h <;> subst h <;> omega
  have hcol' : (k : Int) + psize env d * (j : Int) = ((k + (psize env d).toNat * j : Nat) : Int) := by
    rcases hjj with h | h <;> subst h <;> push_cast <;> omega
  constructor
  · unfold Eigen.coeff Eigen.entry
    rw [dif_pos (by refine ⟨?_, ?_, ?_, ?_⟩ <;> omega), dif_pos ⟨hi, hcol⟩]
    congr 2
  · simp only [Eigen.elemAt, Nat.cast_nonneg, if_true, Int.toNat_ofNat,
      List.getElem?_eq_getElem hl2, List.getD_eq_getElem _ _ hl2]

/-- The innermost loop of the assembly of `poly_set`, over `k < psize`, accumulates
the combination into the entry `i + (nv * 2 + ns) * j` and leaves the others. -/
theorem poly_set_inner_ok (env : Collaborators K) {d : Int} (hd : 0 ≤ d)
    (B : Matrix (Fin (nrows d)) (Fin (ncols env d)) K) (ps0 : List (Polynomial K))
    (j i : Nat) (hj : j < 2) (hi : i < nrows d) (hlen : ps0.length = nrows d * 2) :
    (List.range (psize env d).toNat).foldlM (fun ps k => poly_set_step env d B ps j i k) ps0
      = .ok (ps0.modify (accumulate env d B i j (psize env d).toNat) (i + nrows d * j)) := by
  obtain ⟨ps, hps, hI⟩ := foldlM_range_invariant
    (fun ps k => poly_set_step env d B ps j i k)
    (fun k0 ps => ps = ps0.modify (accumulate env d B i j k0) (i + nrows d * j))
    (psize env d).toNat ps0
    (by
      have e : accumulate env d B i j 0 = id := by
        funext p
        rfl
      show ps0 = ps0.modify (accumulate env d B i j 0) (i + nrows d * j)
      rw [e, List.modify_id])
    (by
      intro k ps hk hps
      refine ⟨_, poly_set_step_ok env hd B ps j i k hj hi (by omega)
        (by rw [hps]; simpa using hlen), ?_⟩
      show List.modify _ _ ps = _
      rw [hps, List.modify_modify_eq]
      congr 1
      funext p
      rw [accumulate_succ]
      rfl)
  rw [hps, hI]

/-- The middle loop of the assembly of `poly_set`, over the dofs `i`, for the
component `j`. -/
theorem poly_set_middle_ok (env : Collaborators K) {d : Int} (hd : 0 ≤ d)
    (B : Matrix (Fin (nrows d)) (Fin (ncols env d)) K) (ps0 : List (Polynomial K))
    (j : Nat) (hj : j < 2) (hlen : ps0.length = nrows d * 2) :
    ∃ ps, (List.range (nv d * 2 + ns d).toNat).foldlM (fun ps i =>
        (List.range (psize env d).toNat).foldlM (fun ps k =>
          poly_set_step env d B ps j i k) ps) ps0 = .ok ps ∧
      ps.length = nrows d * 2 ∧
      ∀ t : Nat, ps[t]? =
        if nrows d * j ≤ t ∧ t < nrows d * j + nrows d then
          (accumulate env d B (t - nrows d * j) j (psize env d).toNat) <$> ps0[t]?
        else ps0[t]? := by
  obtain ⟨ps, hps, hI⟩ := foldlM_range_invariant
    (fun ps i => (List.range (psize env d).toNat).foldlM (fun ps k =>
      poly_set_step env d B ps j i k) ps)
    (fun i0 ps => ps.length = nrows d * 2 ∧ ∀ t : Nat, ps[t]? =
      if nrows d * j ≤ t ∧ t < nrows d * j + i0 then
        (accumulate env d B (t - nrows d * j) j (psize env d).toNat) <$> ps0[t]?
      else ps0[t]?)
    (nrows d) ps0
    ⟨hlen, by
      intro t
      rw [if_neg (by omega)]⟩
    (by
      intro i ps hi hps
      refine ⟨_, poly_set_inner_ok env hd B ps j i hj hi hps.1, ?_, ?_⟩
      · rw [List.length_modify]
        exact hps.1
      · intro t
        rw [List.getElem?_modify, hps.2 t]
        by_cases h1 : i + nrows d * j = t
        · have e : t - nrows d * j = i := by omega
          rw [if_neg (by omega), if_pos (by omega), e]
          simp only [h1, if_true]
        · simp only [h1, if_false]
          by_cases h2 : nrows d * j ≤ t ∧ t < nrows d * j + i
          · rw [if_pos h2, if_pos (by omega)]
            simp
          · rw [if_neg h2, if_neg (by omega)]
            simp)
  exact ⟨ps, hps, hI⟩

/-- The assembly of `poly_set` for `_dim = 2` succeeds: the result has
`(nv * 2 + ns) * 2` entries, and the entry `i + (nv * 2 + ns) * a` is the
combination for the dof `i` and the component `a`. -/
theorem assemble_poly_set_ok (env : Collaborators K) (uninit : K) {d : Int} (hd : 0 ≤ d)
    (B : Matrix (Fin (nrows d)) (Fin (ncols env d)) K) :
    ∃ ps, assemble_poly_set env uninit 2 d B = .ok ps ∧
      ps.length = nrows d * 2 ∧
      ∀ (i a : Nat), i < nrows d → a < 2 →
        ps[i + nrows d * a]? = some (combination env d B i a) := by
  have hr := nrows_cast hd
  have hrows := rows_eq d
  have hnn : (0 : Int) ≤ (d + 1) * (d + 3) := by nlinarith
  have hL : ((nv d * 2 + ns d) * 2).toNat = nrows d * 2 := by
    rw [hrows, ← hr]
    omega
  obtain ⟨ps, hps, hlen, hI⟩ := foldlM_range_invariant
    (fun ps j => (List.range (nv d * 2 + ns d).toNat).foldlM (fun ps i =>
      (List.range (psize env d).toNat).foldlM (fun ps k =>
        poly_set_step env d B ps j i k) ps) ps)
    (fun j0 ps => ps.length = nrows d * 2 ∧ ∀ (i a : Nat), i < nrows d → a < 2 →
      ps[i + nrows d * a]? = some (if a < j0 then combination env d B i a
        else { dim := 2, order := 0, coeffs := [0] }))
    2 (List.replicate (nrows d * 2) { dim := 2, order := 0, coeffs := [0] })
    ⟨by simp, by
      intro i a hi ha
      have ha' : a = 0 ∨ a = 1 := by omega
      have hlt : i + nrows d * a < nrows d * 2 := by
        rcases ha' with h | h <;> subst h <;> omega
      rw [List.getElem?_replicate, if_pos hlt, if_neg (by omega)]⟩
    (by
      intro j ps hj hps
      obtain ⟨ps', hps', hlen', hI'⟩ := poly_set_middle_ok env hd B ps j hj hps.1
      refine ⟨ps', hps', hlen', ?_⟩
      intro i a hi ha
      rw [hI' (i + nrows d * a), hps.2 i a hi ha]
      have ha' : a = 0 ∨ a = 1 := by omega
      have hj' : j = 0 ∨ j = 1 := by omega
      rcases ha' with h | h <;> rcases hj' with h' | h' <;> subst h <;> subst h'
      · rw [if_pos (by omega), if_neg (by omega), if_pos (by omega)]
        simp [combination]
      · rw [if_neg (by omega), if_pos (by omega), if_pos (by omega)]
      · rw [if_neg (by omega), if_neg (by omega), if_neg (by omega)]
      · rw [if_pos (by omega), if_neg (by omega), if_pos (by omega)]
        simp [combination])
  refine ⟨ps, ?_, hlen, ?_⟩
  · unfold assemble_poly_set
    rw [Polynomial.zero_eq]
    simp only [bind, Except.bind]
    rw [if_neg (by rw [hrows]; omega)]
    simp only [pure, Except.pure, hL]
    exact hps
  · intro i a hi ha
    rw [hI i a hi ha, if_pos ha]

/-! ## The constructor -/

/-- When `wcoeffs` and `dualmat` have been assembled for a degree `k >= 1`, the
constructor returns an element, whose `poly_set` is assembled from
`new_coeffs`. -/
theorem ctor_ok (env : Collaborators K) (uninit : K) (k : Int) (hk : 1 ≤ k)
    (W D : Matrix (Fin (nrows (k - 1))) (Fin (ncols env (k - 1))) K) (c : Int)
    (hW : wcoeffs env (k - 1) = .ok W) (hD : dualmat env (k - 1) = .ok (D, c)) :
    ∃ ps, ctor env uninit k = .ok { _dim := 2, _degree := k - 1, poly_set := ps } ∧
      ps.length = nrows (k - 1) * 2 ∧
      ∀ (i a : Nat), i < nrows (k - 1) → a < 2 →
        ps[i + nrows (k - 1) * a]? = some (combination env (k - 1) (new_coeffs W D) i a) := by
  obtain ⟨ps, hps, hlen, hI⟩ :=
    assemble_poly_set_ok env uninit (show (0 : Int) ≤ k - 1 by omega) (new_coeffs W D)
  refine ⟨ps, ?_, hlen, hI⟩
  unfold ctor
  simp only [bind, Except.bind, hW, hD, hps, pure, Except.pure]

/-- The map `(i, a) -> i + n * a` is a bijection from `[0, n) x {0, 1}` onto
`[0, 2 n)`. -/
theorem layout_bijOn (n : Nat) :
    Set.BijOn (fun p : Nat × Nat => p.1 + n * p.2) {p | p.1 < n ∧ p.2 < 2} {t | t < 2 * n} := by
  refine ⟨?_, ?_, ?_⟩
  · rintro ⟨i, a⟩ ⟨hi, ha⟩
    simp only [Set.mem_setOf_eq] at hi ha ⊢
    have ha' : a = 0 ∨ a = 1 := by omega
    rcases ha' with h | h <;> subst h <;> omega
  · rintro ⟨i, a⟩ ⟨hi, ha⟩ ⟨i', a'⟩ ⟨hi', ha'⟩ h
    simp only [Set.mem_setOf_eq] at hi ha hi' ha' h
    have h1 : a = 0 ∨ a = 1 := by omega
    have h2 : a' = 0 ∨ a' = 1 := by omega
    rcases h1 with h1 | h1 <;> rcases h2 with h2 | h2 <;> subst h1 <;> subst h2 <;>
      simp only [Nat.mul_zero, Nat.mul_one, Nat.add_zero] at h
    · exact Prod.ext h rfl
    · omega
    · omega
    · exact Prod.ext (by simpa using h) rfl
  · intro t ht
    simp only [Set.mem_setOf_eq] at ht
    by_cases h : t < n
    · exact ⟨(t, 0), ⟨h, Nat.zero_lt_two⟩, by simp⟩
    · exact ⟨(t - n, 1), ⟨by simp only; omega, Nat.one_lt_two⟩, by simp only; omega⟩

/-- C5. When `wcoeffs` and `dualmat` have been assembled for a degree `k >= 1`, the
constructor returns an element with `_dim = 2` whose `poly_set` has `2 n` entries,
`n = 2 * nv + ns`; for every dof `i < n` and component `a < 2` the entry
`i + n * a` is `sum_k new_coeffs(i, a * psize + k) * Pkp1[k]`, accumulated from
`Polynomial::zero(2)`, and `(i, a) -> i + n * a` is a bijection onto `[0, 2 n)`. -/
theorem basis_layout (env : Collaborators K) (uninit : K) (k : Int) (hk : 1 ≤ k)
    (W D : Matrix (Fin (nrows (k - 1))) (Fin (ncols env (k - 1))) K) (c : Int)
    (hW : wcoeffs env (k - 1) = .ok W) (hD : dualmat env (k - 1) = .ok (D, c)) :
    ∃ e, ctor env uninit k = .ok e ∧ e._dim = 2 ∧ e._degree = k - 1 ∧
      ((nrows (k - 1) : Nat) : Int) = 2 * nv (k - 1) + ns (k - 1) ∧
      e.poly_set.length = 2 * nrows (k - 1) ∧
      (∀ (i a : Nat), i < nrows (k - 1) → a < 2 →
        e.poly_set[i + nrows (k - 1) * a]?
          = some ((List.range (psize env (k - 1)).toNat).foldl (fun acc l =>
              env.add acc (env.scale ((Pkp1 env (k - 1)).getD l Polynomial.default)
                (Eigen.entry (new_coeffs W D) i (l + (psize env (k - 1)).toNat * a))))
              { dim := 2, order := 0, coeffs := [0] })) ∧
      (∀ (i a l : Nat), i < nrows (k - 1) → a < 2 → (l : Int) < psize env (k - 1) →
        Eigen.coeff (new_coeffs W D) i (l + psize env (k - 1) * a)
          = .ok (Eigen.entry (new_coeffs W D) i (l + (psize env (k - 1)).toNat * a)) ∧
        Eigen.elemAt (Pkp1 env (k - 1)) l
          = .ok ((Pkp1 env (k - 1)).getD l Polynomial.default)) ∧
      Polynomial.zero uninit 2 = .ok { dim := 2, order := 0, coeffs := [0] } ∧
      Set.BijOn (fun p : Nat × Nat => p.1 + nrows (k - 1) * p.2)
        {p | p.1 < nrows (k - 1) ∧ p.2 < 2} {t | t < 2 * nrows (k - 1)} := by
  obtain ⟨ps, hps, hlen, hI⟩ := ctor_ok env uninit k hk W D c hW hD
  have hr := nrows_cast (show (0 : Int) ≤ k - 1 by omega)
  have hrows := rows_eq (k - 1)
  refine ⟨_, hps, rfl, rfl, ?_, ?_, ?_, ?_, Polynomial.zero_eq uninit 2, layout_bijOn _⟩
  · rw [hr]
    linarith
  · simp only
    omega
  · intro i a hi ha
    exact hI i a hi ha
  · intro i a l hi ha hl
    exact poly_set_reads_ok env (show (0 : Int) ≤ k - 1 by omega) _ a i l ha hi hl

/-! ## Tabulation -/

/-- The loop of `tabulate_basis` fills every column of the result with the values
of the corresponding member of `poly_set`. -/
theorem tabulate_loop_ok (env : Collaborators K) (uninit : K) (ps : List (Polynomial K))
    {M N : Nat} (pts : Matrix (Fin M) (Fin N) K) :
    ∃ R : Matrix (Fin M) (Fin ps.length) K,
      (List.range ps.length).foldlM (tabulate_step env ps pts) (fun _ _ => uninit) = .ok R ∧
      ∀ (m : Fin M) (j : Fin ps.length), R m j = env.eval (ps.get j) (pts m) := by
  obtain ⟨R, hR, hI⟩ := foldlM_range_invariant (tabulate_step env ps pts)
    (fun j0 R => ∀ (m : Fin M) (j : Fin ps.length),
      R m j = if (j : Nat) < j0 then env.eval (ps.get j) (pts m) else uninit)
    ps.length (fun _ _ => uninit)
    (by
      intro m j
      rw [if_neg (by omega)])
    (by
      intro j R hj hR
      refine ⟨fun i c => if ((c : Nat) : Int) = j then env.tabulate ps[j] pts i else R i c, ?_, ?_⟩
      · simp only [tabulate_step, Eigen.elemAt, Eigen.setCol, bind, Except.bind, Nat.cast_nonneg, if_true,
          Int.toNat_ofNat, List.getElem?_eq_getElem hj]
        rw [if_pos ⟨trivial, by omega⟩]
      · intro m c
        show (if ((c : Nat) : Int) = j then env.tabulate ps[j] pts m else R m c) = _
        by_cases h : (c : Nat) = j
        · have hc : c = ⟨j, hj⟩ := Fin.ext h
          subst hc
          simp [Collaborators.tabulate]
        · rw [if_neg (by omega), hR m c]
          by_cases h2 : (c : Nat) < j
          · rw [if_pos h2, if_pos (by omega)]
          · rw [if_neg h2, if_neg (by omega)])
  refine ⟨R, hR, ?_⟩
  intro m j
  rw [hI m j, if_pos j.isLt]

/-- C4. For an element constructed with a degree `k >= 1` and every point array
with `M` rows and `N` columns, `tabulate_basis` fails exactly when `N != 2`, with
the error of the dimension test; otherwise it returns the element unchanged and an
array with `M` rows and one column per member of `poly_set`, that is
`(2 * nv + ns) * 2` columns, whose entry `(m, j)` is the value of `poly_set[j]` at
row `m` of the points. -/
theorem tabulate_basis_spec (env : Collaborators K) (uninit u : K) (k : Int) (hk : 1 ≤ k)
    (e : Nedelec2D K) (he : ctor env uninit k = .ok e) {M N : Nat}
    (pts : Matrix (Fin M) (Fin N) K) :
    ((∃ err, tabulate_basis env u e pts = .error err) ↔ N ≠ 2) ∧
    (N ≠ 2 → tabulate_basis env u e pts
      = .error (.runtimeError "Point dimension does not match element dimension")) ∧
    (N = 2 → ∃ R : Matrix (Fin M) (Fin e.poly_set.length) K,
      tabulate_basis env u e pts = .ok (R, e) ∧
      ∀ (m : Fin M) (j : Fin e.poly_set.length), R m j = env.eval (e.poly_set.get j) (pts m)) ∧
    (e.poly_set.length : Int) = (2 * nv (k - 1) + ns (k - 1)) * 2 := by
  have hd : (0 : Int) ≤ k - 1 := by omega
  have hr := nrows_cast hd
  have hrows := rows_eq (k - 1)
  -- the element comes out of the constructor
  have hdim : e._dim = 2 ∧ e.poly_set.length = nrows (k - 1) * 2 := by
    unfold ctor at he
    simp only [bind, Except.bind, pure, Except.pure] at he
    split at he
    · simp at he
    · rename_i W hW
      split at he
      · simp at he
      · rename_i s hs
        obtain ⟨ps, hps, hlen, _⟩ := assemble_poly_set_ok env uninit hd (new_coeffs W s.1)
        rw [hps] at he
        simp only [Except.ok.injEq] at he
        subst he
        exact ⟨rfl, hlen⟩
  obtain ⟨R, hR, hI⟩ := tabulate_loop_ok env u e.poly_set pts
  have hfail : N ≠ 2 → tabulate_basis env u e pts
      = .error (.runtimeError "Point dimension does not match element dimension") := by
    intro hN
    unfold tabulate_basis
    have h : (N : Int) ≠ e._dim := by
      rw [hdim.1]
      omega
    simp only [bind, Except.bind, pure, Except.pure, h, ne_eq, not_false_eq_true, if_true]
  have hok : N = 2 → tabulate_basis env u e pts = .ok (R, e) := by
    intro hN
    unfold tabulate_basis
    have h : ¬ ((N : Int) ≠ e._dim) := by
      rw [hdim.1]
      omega
    simp only [bind, Except.bind, pure, Except.pure, h, if_false] at hR ⊢
    rw [hR]
  refine ⟨?_, hfail, ?_, ?_⟩
  · constructor
    · rintro ⟨err, herr⟩ hN
      rw [hok hN] at herr
      simp at herr
    · intro hN
      exact ⟨_, hfail hN⟩
  · intro hN
    exact ⟨R, hok hN, hI⟩
  · rw [hdim.2]
    push_cast
    rw [hr]
    linarith

/-! ## The example element -/

theorem exampleD_ok : dualmat exampleEnv (1 - 1) = .ok (exampleD, 3) := by
  obtain ⟨De, hDe⟩ := edges_loop_ok exampleEnv (1 - 1) (fun _ _ => 0) (by decide)
  have hlen : (exampleEnv.compute_polynomial_set 1 (1 - 1)).length = 1 := by decide
  rw [hlen] at hDe
  have h : dualmat exampleEnv (1 - 1) = .ok (De, 3) := by
    unfold dualmat
    rw [zeroMatrix_ok exampleEnv (by decide)]
    simp only [bind, Except.bind]
    rw [hDe]
    rfl
  unfold exampleD
  rw [h]

theorem exampleElement_ok : ctor exampleEnv 7 1 = .ok exampleElement := by
  obtain ⟨ps, hps, _⟩ := ctor_ok exampleEnv 7 1 (by decide) exampleW exampleD 3
    exampleW_ok exampleD_ok
  unfold exampleElement
  rw [hps]

theorem basis_layout_witness :
    (1 : Int) ≤ 1 ∧ wcoeffs exampleEnv (1 - 1) = .ok exampleW ∧
    dualmat exampleEnv (1 - 1) = .ok (exampleD, 3) ∧
    ∃ e, ctor exampleEnv 7 1 = .ok e ∧ e._dim = 2 ∧ e._degree = 1 - 1 ∧
      ((nrows (1 - 1) : Nat) : Int) = 2 * nv (1 - 1) + ns (1 - 1) ∧
      e.poly_set.length = 2 * nrows (1 - 1) ∧
      (∀ (i a : Nat), i < nrows (1 - 1) → a < 2 →
        e.poly_set[i + nrows (1 - 1) * a]?
          = some ((List.range (psize exampleEnv (1 - 1)).toNat).foldl (fun acc l =>
              exampleEnv.add acc
                (exampleEnv.scale ((Pkp1 exampleEnv (1 - 1)).getD l Polynomial.default)
                  (Eigen.entry (new_coeffs exampleW exampleD) i
                    (l + (psize exampleEnv (1 - 1)).toNat * a))))
              { dim := 2, order := 0, coeffs := [0] })) ∧
      (∀ (i a l : Nat), i < nrows (1 - 1) → a < 2 → (l : Int) < psize exampleEnv (1 - 1) →
        Eigen.coeff (new_coeffs exampleW exampleD) i (l + psize exampleEnv (1 - 1) * a)
          = .ok (Eigen.entry (new_coeffs exampleW exampleD) i
              (l + (psize exampleEnv (1 - 1)).toNat * a)) ∧
        Eigen.elemAt (Pkp1 exampleEnv (1 - 1)) l
          = .ok ((Pkp1 exampleEnv (1 - 1)).getD l Polynomial.default)) ∧
      Polynomial.zero (7 : ℚ) 2 = .ok { dim := 2, order := 0, coeffs := [0] } ∧
      Set.BijOn (fun p : Nat × Nat => p.1 + nrows (1 - 1) * p.2)
        {p | p.1 < nrows (1 - 1) ∧ p.2 < 2} {t | t < 2 * nrows (1 - 1)} :=
  ⟨by decide, exampleW_ok, exampleD_ok,
    basis_layout exampleEnv 7 1 (by decide) exampleW exampleD 3 exampleW_ok exampleD_ok⟩

theorem tabulate_basis_spec_witness :
    (1 : Int) ≤ 1 ∧ ctor exampleEnv 7 1 = .ok exampleElement ∧
    (((∃ err, tabulate_basis exampleEnv 9 exampleElement examplePoints = .error err) ↔ 2 ≠ 2) ∧
      (2 ≠ 2 → tabulate_basis exampleEnv 9 exampleElement examplePoints
        = .error (.runtimeError "Point dimension does not match element dimension")) ∧
      (2 = 2 → ∃ R : Matrix (Fin 2) (Fin exampleElement.poly_set.length) ℚ,
        tabulate_basis exampleEnv 9 exampleElement examplePoints = .ok (R, exampleElement) ∧
        ∀ (m : Fin 2) (j : Fin exampleElement.poly_set.length),
          R m j = exampleEnv.eval (exampleElement.poly_set.get j) (examplePoints m)) ∧
      (exampleElement.poly_set.length : Int) = (2 * nv (1 - 1) + ns (1 - 1)) * 2) ∧
    (((∃ err, tabulate_basis exampleEnv 9 exampleElement examplePoints3 = .error err) ↔ 3 ≠ 2) ∧
      (3 ≠ 2 → tabulate_basis exampleEnv 9 exampleElement examplePoints3
        = .error (.runtimeError "Point dimension does not match element dimension")) ∧
      (3 = 2 → ∃ R : Matrix (Fin 2) (Fin exampleElement.poly_set.length) ℚ,
        tabulate_basis exampleEnv 9 exampleElement examplePoints3 = .ok (R, exampleElement) ∧
        ∀ (m : Fin 2) (j : Fin exampleElement.poly_set.length),
          R m j = exampleEnv.eval (exampleElement.poly_set.get j) (examplePoints3 m)) ∧
      (exampleElement.poly_set.length : Int) = (2 * nv (1 - 1) + ns (1 - 1)) * 2) :=
  ⟨by decide, exampleElement_ok,
    tabulate_basis_spec exampleEnv 7 9 1 (by decide) exampleElement exampleElement_ok
      examplePoints,
    tabulate_basis_spec exampleEnv 7 9 1 (by decide) exampleElement exampleElement_ok
      examplePoints3⟩

/-! ## The sizes used by the constructor -/

/-- The number of members of `Pkp1` when `compute_polynomial_set(N, m)` returns
`C(N, m)` polynomials: twice `psize` is `(d + 2) (d + 3)`. -/
theorem two_mul_psize (env : Collaborators K) {d : Int} (hd : 0 ≤ d)
    (hcps : ∀ N m : Nat, (env.compute_polynomial_set N m).length = Nat.choose (m + N) N) :
    2 * psize env d = (d + 2) * (d + 3) := by
  obtain ⟨dn, rfl⟩ := Int.eq_ofNat_of_zero_le hd
  have h := hcps 2 (dn + 1)
  have h2 := two_mul_choose_two (dn + 2)
  unfold psize Pkp1
  simp only [Nat.cast_ofNat, Nat.cast_add, Nat.cast_one] at h
  rw [h]
  have h3 : ((2 * Nat.choose (dn + 1 + 2) 2 : Nat) : Int) = (((dn + 2 + 1) * (dn + 2) : Nat) : Int) := by
    rw [show dn + 1 + 2 = dn + 2 + 1 by ring, h2]
  push_cast at h3
  linarith

/-- With `C(N, m)` polynomials per set, `nv + (d + 2) = psize`. -/
theorem nv_add_eq_psize (env : Collaborators K) {d : Int} (hd : 0 ≤ d)
    (hcps : ∀ N m : Nat, (env.compute_polynomial_set N m).length = Nat.choose (m + N) N) :
    nv d + (d + 2) = psize env d := by
  have h1 := two_mul_psize env hd hcps
  have h2 := two_mul_nv d
  linarith

/-- C13, as amended. For every degree `k >= 1` with `d = k - 1`, when
`compute_polynomial_set(N, m)` returns `C(N, m)` polynomials, the ambient set of
`P_{d+1}` has `psize = C(2, d + 1) = (d + 2) (d + 3) / 2` members, while
`nv = (d + 1) (d + 2) / 2 = psize - (d + 2) < psize`, `ns = d + 1` and
`ns0 = (d + 1) d / 2`. -/
theorem sizes (env : Collaborators K) (k : Int) (hk : 1 ≤ k)
    (hcps : ∀ N m : Nat, (env.compute_polynomial_set N m).length = Nat.choose (m + N) N) :
    psize env (k - 1) = ((Pkp1 env (k - 1)).length : Int) ∧
    Pkp1 env (k - 1) = env.compute_polynomial_set 2 (k - 1 + 1) ∧
    psize env (k - 1) = ((Nat.choose ((k - 1 + 1).toNat + 2) 2 : Nat) : Int) ∧
    psize env (k - 1) = (k - 1 + 2) * (k - 1 + 3) / 2 ∧
    nv (k - 1) = (k - 1 + 1) * (k - 1 + 2) / 2 ∧
    nv (k - 1) = psize env (k - 1) - (k - 1 + 2) ∧
    nv (k - 1) < psize env (k - 1) ∧
    ns (k - 1) = k - 1 + 1 ∧
    ns0 (k - 1) = (k - 1 + 1) * (k - 1) / 2 := by
  have hd : (0 : Int) ≤ k - 1 := by omega
  have hp := two_mul_psize env hd hcps
  have hn := two_mul_nv (k - 1)
  have hn0 := two_mul_ns0 (k - 1)
  have hsum := nv_add_eq_psize env hd hcps
  refine ⟨rfl, rfl, ?_, ?_, ?_, ?_, ?_, rfl, ?_⟩
  · have h := hcps 2 (k - 1 + 1).toNat
    unfold psize Pkp1
    have e : (((k - 1 + 1).toNat : Nat) : Int) = k - 1 + 1 := Int.toNat_of_nonneg (by omega)
    simp only [Nat.cast_ofNat, e] at h
    rw [h]
  · omega
  · omega
  · omega
  · omega
  · omega

theorem sizes_witness :
    (1 : Int) ≤ 2 ∧
    (∀ N m : Nat, (exampleEnv.compute_polynomial_set N m).length = Nat.choose (m + N) N) ∧
    (psize exampleEnv (2 - 1) = ((Pkp1 exampleEnv (2 - 1)).length : Int) ∧
    Pkp1 exampleEnv (2 - 1) = exampleEnv.compute_polynomial_set 2 (2 - 1 + 1) ∧
    psize exampleEnv (2 - 1) = ((Nat.choose (((2 : Int) - 1 + 1).toNat + 2) 2 : Nat) : Int) ∧
    psize exampleEnv (2 - 1) = (2 - 1 + 2) * (2 - 1 + 3) / 2 ∧
    nv (2 - 1) = (2 - 1 + 1) * (2 - 1 + 2) / 2 ∧
    nv (2 - 1) = psize exampleEnv (2 - 1) - (2 - 1 + 2) ∧
    nv (2 - 1) < psize exampleEnv (2 - 1) ∧
    ns (2 - 1) = 2 - 1 + 1 ∧
    ns0 (2 - 1) = (2 - 1 + 1) * (2 - 1) / 2) :=
  ⟨by decide, exampleEnv_sizes, sizes exampleEnv 2 (by decide) exampleEnv_sizes⟩

/-- C13, as stated, fails for the degree 1: the collaborators `exampleEnv` return
`C(N, m)` polynomials per set, the constructor requests the set of `P_1`, which has
3 members, but `(d + 1) (d + 2) / 2 = 1` for `d = 0`, and `nv = 1` is not `psize`. -/
theorem sizes_counterexample :
    (1 : Int) ≤ 1 ∧
    (∀ N m : Nat, (exampleEnv.compute_polynomial_set N m).length = Nat.choose (m + N) N) ∧
    ¬ (psize exampleEnv (1 - 1) = (1 - 1 + 1) * (1 - 1 + 2) / 2 ∧
       nv (1 - 1) = psize exampleEnv (1 - 1) ∧
       ns (1 - 1) = 1 - 1 + 1 ∧
       ns0 (1 - 1) = (1 - 1 + 1) * (1 - 1) / 2) := by
  refine ⟨by decide, exampleEnv_sizes, ?_⟩
  decide

/-- C18. For every `d >= 0` the degree `quad_deg = 5 (d + 1)` requested for the edge
rule is greater than `2 d + 1 = d + (d + 1)`, the largest degree of an edge
integrand, and the degree `2 d + 2` requested for the triangle rule is at least
`d + 1 + (d + 1) = 2 d + 2`, the degree of the integrands of the rows of `S_k`, and
at least `(d - 1) + (d + 1) = 2 d`, the degree of the integrands of the interior
moments. -/
theorem quadrature_degrees (env : Collaborators K) (d : Int) (hd : 0 ≤ d) :
    QruleE env d = env.make_quadrature 1 (quad_deg d) ∧
    quad_deg d = 5 * (d + 1) ∧
    d + (d + 1) = 2 * d + 1 ∧
    2 * d + 1 < quad_deg d ∧
    Qrule env d = env.make_quadrature 2 (2 * d + 2) ∧
    d + 1 + (d + 1) = 2 * d + 2 ∧
    d + 1 + (d + 1) ≤ 2 * d + 2 ∧
    (d - 1) + (d + 1) = 2 * d ∧
    (d - 1) + (d + 1) ≤ 2 * d + 2 := by
  refine ⟨rfl, rfl, by ring, ?_, rfl, by ring, by omega, by ring, by omega⟩
  unfold quad_deg
  omega

theorem quadrature_degrees_witness :
    (0 : Int) ≤ 1 ∧
    (QruleE exampleEnv 1 = exampleEnv.make_quadrature 1 (quad_deg 1) ∧
    quad_deg 1 = 5 * (1 + 1) ∧
    (1 : Int) + (1 + 1) = 2 * 1 + 1 ∧
    2 * 1 + 1 < quad_deg 1 ∧
    Qrule exampleEnv 1 = exampleEnv.make_quadrature 2 (2 * 1 + 2) ∧
    (1 : Int) + 1 + (1 + 1) = 2 * 1 + 2 ∧
    (1 : Int) + 1 + (1 + 1) ≤ 2 * 1 + 2 ∧
    ((1 : Int) - 1) + (1 + 1) = 2 * 1 ∧
    ((1 : Int) - 1) + (1 + 1) ≤ 2 * 1 + 2) :=
  ⟨by decide, quadrature_degrees exampleEnv 1 (by decide)⟩

/-- C19. For every `d >= 0`, `ns0 + ns = nv`, so that `i -> ns0 + i` maps `[0, ns)`
one to one onto `[d (d + 1) / 2, (d + 1) (d + 2) / 2) = [C(2, d - 1), C(2, d))`;
when `compute_polynomial_set(N, m)` returns `C(N, m)` polynomials every such index
is non-negative and below `nv <= psize`, and the read of the row `ns0 + i` of
`Pkp1_at_Qpts` succeeds. -/
theorem top_block (env : Collaborators K) (d : Int) (hd : 0 ≤ d)
    (hcps : ∀ N m : Nat, (env.compute_polynomial_set N m).length = Nat.choose (m + N) N) :
    ns0 d + ns d = nv d ∧
    ns0 d = d * (d + 1) / 2 ∧ nv d = (d + 1) * (d + 2) / 2 ∧
    Set.BijOn (fun i : Int => ns0 d + i) (Set.Ico 0 (ns d))
      (Set.Ico (d * (d + 1) / 2) ((d + 1) * (d + 2) / 2)) ∧
    d * (d + 1) / 2 = ((Nat.choose (d.toNat + 1) 2 : Nat) : Int) ∧
    (d + 1) * (d + 2) / 2 = ((Nat.choose (d.toNat + 2) 2 : Nat) : Int) ∧
    nv d ≤ psize env d ∧
    ∀ i : Int, 0 ≤ i → i < ns d →
      0 ≤ ns0 d + i ∧ ns0 d + i < nv d ∧ ns0 d + i < psize env d ∧
      ∃ v, Eigen.row (Pkp1_at env d (Qrule env d).pts) (ns0 d + i) = .ok v := by
  have hn := two_mul_nv d
  have hn0 := two_mul_ns0 d
  have hns : ns d = d + 1 := rfl
  have hsum : ns0 d + ns d = nv d := by
    rw [hns]
    linarith
  have hns0 : 0 ≤ ns0 d := by nlinarith
  have hnp : nv d ≤ psize env d := by
    have h := nv_add_eq_psize env hd hcps
    omega
  have e1 : ns0 d = d * (d + 1) / 2 := by
    have h := two_mul_half_consec d
    nlinarith
  have e2 : nv d = (d + 1) * (d + 2) / 2 := by
    have h := two_mul_half_consec (d + 1)
    rw [show d + 1 + 1 = d + 2 by ring] at h
    linarith
  have hp : psize env d = ((Pkp1 env d).length : Int) := rfl
  refine ⟨hsum, e1, e2, ?_, ?_, ?_, hnp, ?_⟩
  · rw [← e1, ← e2]
    refine ⟨?_, ?_, ?_⟩
    · intro i hi
      simp only [Set.mem_Ico] at hi ⊢
      omega
    · intro i _ i' _ h
      simp only at h
      omega
    · intro n hn
      simp only [Set.mem_Ico] at hn
      exact ⟨n - ns0 d, by simp only [Set.mem_Ico]; omega, by simp only; omega⟩
  · obtain ⟨dn, rfl⟩ := Int.eq_ofNat_of_zero_le hd
    have h := two_mul_choose_two dn
    rw [← e1]
    simp only [Int.toNat_ofNat]
    have h3 : ((2 * Nat.choose (dn + 1) 2 : Nat) : Int) = (((dn + 1) * dn : Nat) : Int) := by
      rw [h]
    push_cast at h3
    linarith
  · obtain ⟨dn, rfl⟩ := Int.eq_ofNat_of_zero_le hd
    have h := two_mul_choose_two (dn + 1)
    rw [← e2]
    simp only [Int.toNat_ofNat]
    have h3 : ((2 * Nat.choose (dn + 1 + 1) 2 : Nat) : Int)
        = (((dn + 1 + 1) * (dn + 1) : Nat) : Int) := by
      rw [h]
    push_cast at h3
    linarith
  · intro i hi0 hi1
    refine ⟨by omega, by omega, by omega, ?_⟩
    unfold Eigen.row
    rw [dif_pos ⟨by omega, by omega⟩]
    exact ⟨_, rfl⟩

theorem top_block_witness :
    (0 : Int) ≤ 1 ∧
    (∀ N m : Nat, (exampleEnv.compute_polynomial_set N m).length = Nat.choose (m + N) N) ∧
    (ns0 1 + ns 1 = nv 1 ∧
    ns0 1 = 1 * (1 + 1) / 2 ∧ nv 1 = (1 + 1) * (1 + 2) / 2 ∧
    Set.BijOn (fun i : Int => ns0 1 + i) (Set.Ico 0 (ns 1))
      (Set.Ico (1 * (1 + 1) / 2) ((1 + 1) * (1 + 2) / 2)) ∧
    (1 : Int) * (1 + 1) / 2 = ((Nat.choose ((1 : Int).toNat + 1) 2 : Nat) : Int) ∧
    ((1 : Int) + 1) * (1 + 2) / 2 = ((Nat.choose ((1 : Int).toNat + 2) 2 : Nat) : Int) ∧
    nv 1 ≤ psize exampleEnv 1 ∧
    ∀ i : Int, 0 ≤ i → i < ns 1 →
      0 ≤ ns0 1 + i ∧ ns0 1 + i < nv 1 ∧ ns0 1 + i < psize exampleEnv 1 ∧
      ∃ v, Eigen.row (Pkp1_at exampleEnv 1 (Qrule exampleEnv 1).pts) (ns0 1 + i) = .ok v) :=
  ⟨by decide, exampleEnv_sizes, top_block exampleEnv 1 (by decide) exampleEnv_sizes⟩

theorem get_eq_getD {α : Type} (l : List α) (d : α) (i : Fin l.length) (n : Nat)
    (h : (i : Nat) = n) : l.get i = l.getD n d := by
  subst h
  rw [List.getD_eq_getElem _ _ i.isLt]
  rfl

/-- One pass of the loop over the edge polynomial set writes the closed form to row
`c` and leaves the other rows. -/
theorem edge_step_spec (env : Collaborators K) (d : Int) (edge : Matrix (Fin 2) (Fin 2) K)
    (tangent : Fin 2 → K) (s : Matrix (Fin (nrows d)) (Fin (ncols env d)) K × Int)
    (pq : Polynomial K) (h0 : 0 ≤ s.2) (h1 : s.2 < nrows d) :
    ∃ D, edge_step env d edge tangent s pq = .ok (D, s.2 + 1) ∧
      ∀ (r : Fin (nrows d)) (col : Fin (ncols env d)), D r col =
        if ((r : Nat) : Int) = s.2 then edge_row env d edge tangent pq col else s.1 r col := by
  have hc := ncols_cast env d
  have hp : psize env d = ((Pkp1 env d).length : Int) := rfl
  unfold edge_step
  simp only [finRange_two, List.foldlM_cons, List.foldlM_nil, Eigen.setBlock]
  rw [if_pos (by
    refine ⟨h0, ?_, ?_, ?_⟩
    · simp
    · omega
    · simp only [Fin.val_zero, Nat.cast_zero, mul_zero, zero_add]
      omega)]
  simp only [bind, Except.bind, pure, Except.pure]
  rw [if_pos (by
    refine ⟨h0, ?_, ?_, ?_⟩
    · have := psize_nonneg env d
      simp
      omega
    · omega
    · simp only [Fin.val_one, Nat.cast_one, mul_one]
      omega)]
  refine ⟨_, rfl, ?_⟩
  intro r col
  have hcol := col.isLt
  simp only [Fin.val_zero, Fin.val_one, Nat.cast_zero, Nat.cast_one, mul_zero, mul_one]
  by_cases hr : ((r : Nat) : Int) = s.2
  · rw [if_pos hr]
    unfold edge_row
    by_cases hcl : ((col : Nat) : Int) < psize env d
    · rw [dif_neg (by omega), dif_pos (by refine ⟨?_, ?_, ?_, ?_⟩ <;> omega), if_pos hcl]
      simp only [Eigen.asRow, Matrix.mulVec, Matrix.dotProduct, Pkp1_at, Collaborators.tabulate,
        edge_qcoeff]
      rw [get_eq_getD _ Polynomial.default _ (col : Nat) (by simp)]
    · rw [dif_pos (by refine ⟨?_, ?_, ?_, ?_⟩ <;> omega), if_neg hcl]
      simp only [Eigen.asRow, Matrix.mulVec, Matrix.dotProduct, Pkp1_at, Collaborators.tabulate,
        edge_qcoeff]
      rw [get_eq_getD _ Polynomial.default _ ((col : Nat) - (psize env d).toNat)
        (by simp only; omega)]
  · rw [if_neg hr, dif_neg (by omega), dif_neg (by omega)]

/-- The loop over the edge polynomial set, for the edge `e`, writes one row per
member, from row `c` on. -/
theorem edges_step_spec (env : Collaborators K) (d : Int)
    (s : Matrix (Fin (nrows d)) (Fin (ncols env d)) K × Int) (e : Nat) (h0 : 0 ≤ s.2)
    (h1 : s.2 + (env.compute_polynomial_set 1 d).length ≤ nrows d) :
    ∃ D, edges_step env d s e = .ok (D, s.2 + (env.compute_polynomial_set 1 d).length) ∧
      ∀ (r : Fin (nrows d)) (col : Fin (ncols env d)), D r col =
        if s.2 ≤ ((r : Nat) : Int) ∧ ((r : Nat) : Int) < s.2 + (env.compute_polynomial_set 1 d).length
        then edge_row env d (edge_vertices env e) (edge_tangent env e)
          ((env.compute_polynomial_set 1 d).getD (((r : Nat) : Int) - s.2).toNat
            Polynomial.default) col
        else s.1 r col := by
  unfold edges_step
  obtain ⟨s', hs', hI⟩ := foldlM_invariant
    (edge_step env d (edge_vertices env e) (edge_tangent env e))
    (fun j t => t.2 = s.2 + j ∧
      ∀ (r : Fin (nrows d)) (col : Fin (ncols env d)), t.1 r col =
        if s.2 ≤ ((r : Nat) : Int) ∧ ((r : Nat) : Int) < s.2 + j
        then edge_row env d (edge_vertices env e) (edge_tangent env e)
          ((env.compute_polynomial_set 1 d).getD (((r : Nat) : Int) - s.2).toNat
            Polynomial.default) col
        else s.1 r col)
    (env.compute_polynomial_set 1 d) 0 s
    ⟨by simp, by
      intro r col
      rw [if_neg (by simp only [Nat.cast_zero]; omega)]⟩
    (by
      intro j hj t ht
      simp only [Nat.zero_add] at ht
      obtain ⟨D, hD, hDe⟩ := edge_step_spec env d (edge_vertices env e) (edge_tangent env e) t
        (env.compute_polynomial_set 1 d)[j] (by rw [ht.1]; omega) (by rw [ht.1]; omega)
      refine ⟨_, hD, ?_, ?_⟩
      · simp only [ht.1]
        push_cast
        ring
      · intro r col
        simp only [Nat.zero_add, Nat.cast_add, Nat.cast_one]
        rw [hDe r col, ht.2 r col, ht.1]
        by_cases hr : ((r : Nat) : Int) = s.2 + j
        · have e1 : (((r : Nat) : Int) - s.2).toNat = j := by omega
          rw [if_pos hr, if_pos (by omega), e1, List.getD_eq_getElem _ _ hj]
        · rw [if_neg hr]
          by_cases h2 : s.2 ≤ ((r : Nat) : Int) ∧ ((r : Nat) : Int) < s.2 + j
          · rw [if_pos h2, if_pos (by omega)]
          · rw [if_neg h2, if_neg (by omega)])
  refine ⟨s'.1, ?_, ?_⟩
  · show List.foldlM (edge_step env d (edge_vertices env e) (edge_tangent env e)) s
      (env.compute_polynomial_set 1 d) = _
    rw [hs']
    simp only [Nat.zero_add] at hI
    rw [← hI.1]
  · simp only [Nat.zero_add] at hI
    exact hI.2

/-- The loop over the three edges writes the rows `e * L + j`, for the edges `e` and
the members `j < L` of the edge polynomial set, and leaves the rows from `3 * L`
on. -/
theorem edges_loop_spec (env : Collaborators K) (d : Int)
    (D0 : Matrix (Fin (nrows d)) (Fin (ncols env d)) K)
    (h1 : 3 * ((env.compute_polynomial_set 1 d).length : Int) ≤ nrows d) :
    ∃ D, (List.range 3).foldlM (edges_step env d) (D0, 0)
        = .ok (D, 3 * ((env.compute_polynomial_set 1 d).length : Int)) ∧
      (∀ (r : Fin (nrows d)) (col : Fin (ncols env d)),
        3 * ((env.compute_polynomial_set 1 d).length : Int) ≤ ((r : Nat) : Int) →
        D r col = D0 r col) ∧
      (∀ (e j : Nat), e < 3 → j < (env.compute_polynomial_set 1 d).length →
        ∀ (r : Fin (nrows d)) (col : Fin (ncols env d)),
        ((r : Nat) : Int) = (e : Int) * ((env.compute_polynomial_set 1 d).length : Int) + j →
        D r col = edge_row env d (edge_vertices env e) (edge_tangent env e)
          ((env.compute_polynomial_set 1 d).getD j Polynomial.default) col) := by
  have hL : (0 : Int) ≤ ((env.compute_polynomial_set 1 d).length : Int) := Int.natCast_nonneg _
  obtain ⟨s', hs', hI⟩ := foldlM_range_invariant (edges_step env d)
    (fun e0 t => t.2 = (e0 : Int) * ((env.compute_polynomial_set 1 d).length : Int) ∧
      (∀ (r : Fin (nrows d)) (col : Fin (ncols env d)),
        (e0 : Int) * ((env.compute_polynomial_set 1 d).length : Int) ≤ ((r : Nat) : Int) →
        t.1 r col = D0 r col) ∧
      (∀ (e j : Nat), e < e0 → j < (env.compute_polynomial_set 1 d).length →
        ∀ (r : Fin (nrows d)) (col : Fin (ncols env d)),
        ((r : Nat) : Int) = (e : Int) * ((env.compute_polynomial_set 1 d).length : Int) + j →
        t.1 r col = edge_row env d (edge_vertices env e) (edge_tangent env e)
          ((env.compute_polynomial_set 1 d).getD j Polynomial.default) col))
    3 (D0, 0)
    ⟨by simp, fun _ _ _ => rfl, fun e j he => absurd he (Nat.not_lt_zero e)⟩
    (by
      intro e0 t he0 ht
      obtain ⟨ht1, ht2, ht3⟩ := ht
      have he0' : (e0 : Int) + 1 ≤ 3 := by omega
      obtain ⟨D, hD, hDe⟩ := edges_step_spec env d t e0 (by rw [ht1]; positivity)
        (by rw [ht1]; nlinarith)
      refine ⟨_, hD, ?_, ?_, ?_⟩
      · simp only [ht1]
        push_cast
        ring
      · intro r col hr
        push_cast at hr
        show D r col = _
        rw [hDe r col, ht1, if_neg (by intro h; nlinarith [h.1, h.2])]
        exact ht2 r col (by nlinarith)
      · intro e j he hj r col hr
        show D r col = _
        rw [hDe r col, ht1]
        by_cases hee : e = e0
        · subst hee
          have e1 : (((r : Nat) : Int) - (e : Int) * ((env.compute_polynomial_set 1 d).length : Int)).toNat
              = j := by
            rw [hr]
            simp
          rw [if_pos (by constructor <;> omega), e1]
        · have hlt : e < e0 := by omega
          have hmul : ((e : Int) + 1) * ((env.compute_polynomial_set 1 d).length : Int)
              ≤ (e0 : Int) * ((env.compute_polynomial_set 1 d).length : Int) :=
            mul_le_mul_of_nonneg_right (by omega) hL
          rw [if_neg (by intro h; nlinarith [h.1, h.2])]
          exact ht3 e j hlt hj r col hr)
  obtain ⟨hI1, hI2, hI3⟩ := hI
  refine ⟨s'.1, ?_, ?_, hI3⟩
  · rw [hs']
    simp only [Nat.cast_ofNat] at hI1
    rw [← hI1]
  · simp only [Nat.cast_ofNat] at hI2
    exact hI2

/-- One pass of the loop over the interior polynomial set writes the moment to the
first `psize` columns of row `c` and to the last `psize` columns of row `c + 1`. -/
theorem interior_step_spec (env : Collaborators K) (d : Int)
    (s : Matrix (Fin (nrows d)) (Fin (ncols env d)) K × Int) (chi : Polynomial K)
    (h0 : 0 ≤ s.2) (h1 : s.2 + 1 < nrows d) :
    ∃ D, interior_step env d s chi = .ok (D, s.2 + 1 + 1) ∧
      ∀ (r : Fin (nrows d)) (col : Fin (ncols env d)), D r col =
        if ((r : Nat) : Int) = s.2 + 1 ∧ psize env d ≤ ((col : Nat) : Int) then
          interior_qcoeff env d chi ((col : Nat) - (psize env d).toNat)
        else if ((r : Nat) : Int) = s.2 ∧ ((col : Nat) : Int) < psize env d then
          interior_qcoeff env d chi (col : Nat)
        else s.1 r col := by
  have hc := ncols_cast env d
  have hp : psize env d = ((Pkp1 env d).length : Int) := rfl
  unfold interior_step
  have ha : assert (decide (((Pkp1 env d).length : Int) = psize env d)) = .ok () := by
    simp [assert, hp]
  simp only [ha, Eigen.setBlock, bind, Except.bind, pure, Except.pure]
  rw [if_pos (by
    refine ⟨h0, le_refl _, ?_, ?_⟩
    · omega
    · omega)]
  simp only
  rw [if_pos (by
    refine ⟨by omega, ?_, ?_, ?_⟩
    · omega
    · omega
    · omega)]
  refine ⟨_, rfl, ?_⟩
  intro r col
  have hcol := col.isLt
  by_cases hr1 : ((r : Nat) : Int) = s.2 + 1 ∧ psize env d ≤ ((col : Nat) : Int)
  · rw [if_pos hr1, dif_pos (by refine ⟨?_, ?_, ?_, ?_⟩ <;> omega)]
    simp only [Eigen.asRow, Matrix.mulVec, Matrix.dotProduct, Pkp1_at, Collaborators.tabulate,
      interior_qcoeff]
    rw [get_eq_getD _ Polynomial.default _ ((col : Nat) - (psize env d).toNat)
      (by simp only; omega)]
  · rw [if_neg hr1, dif_neg (by omega)]
    by_cases hr0 : ((r : Nat) : Int) = s.2 ∧ ((col : Nat) : Int) < psize env d
    · rw [if_pos hr0, dif_pos (by refine ⟨?_, ?_, ?_, ?_⟩ <;> omega)]
      simp only [Eigen.asRow, Matrix.mulVec, Matrix.dotProduct, Pkp1_at, Collaborators.tabulate,
        interior_qcoeff]
      rw [get_eq_getD _ Polynomial.default _ (col : Nat) (by simp)]
    · rw [if_neg hr0, dif_neg (by omega)]

/-- The loop over the interior polynomial set writes two rows per member, from row
`c` on, and leaves the other entries. -/
theorem interior_loop_spec (env : Collaborators K) (d : Int) (l : List (Polynomial K))
    (s : Matrix (Fin (nrows d)) (Fin (ncols env d)) K × Int) (h0 : 0 ≤ s.2)
    (h1 : s.2 + 2 * (l.length : Int) ≤ nrows d) :
    ∃ D, l.foldlM (interior_step env d) s = .ok (D, s.2 + 2 * (l.length : Int)) ∧
      ∀ (r : Fin (nrows d)) (col : Fin (ncols env d)), D r col =
        if s.2 ≤ ((r : Nat) : Int) ∧ ((r : Nat) : Int) < s.2 + 2 * (l.length : Int) then
          (if (((r : Nat) : Int) - s.2) % 2 = 0 then
            (if ((col : Nat) : Int) < psize env d then
              interior_qcoeff env d (l.getD ((((r : Nat) : Int) - s.2) / 2).toNat
                Polynomial.default) (col : Nat)
             else s.1 r col)
           else
            (if ((col : Nat) : Int) < psize env d then s.1 r col
             else interior_qcoeff env d (l.getD ((((r : Nat) : Int) - s.2) / 2).toNat
                Polynomial.default) ((col : Nat) - (psize env d).toNat)))
        else s.1 r col := by
  obtain ⟨s', hs', hI⟩ := foldlM_invariant (interior_step env d)
    (fun i0 t => t.2 = s.2 + 2 * (i0 : Int) ∧
      ∀ (r : Fin (nrows d)) (col : Fin (ncols env d)), t.1 r col =
        if s.2 ≤ ((r : Nat) : Int) ∧ ((r : Nat) : Int) < s.2 + 2 * (i0 : Int) then
          (if (((r : Nat) : Int) - s.2) % 2 = 0 then
            (if ((col : Nat) : Int) < psize env d then
              interior_qcoeff env d (l.getD ((((r : Nat) : Int) - s.2) / 2).toNat
                Polynomial.default) (col : Nat)
             else s.1 r col)
           else
            (if ((col : Nat) : Int) < psize env d then s.1 r col
             else interior_qcoeff env d (l.getD ((((r : Nat) : Int) - s.2) / 2).toNat
                Polynomial.default) ((col : Nat) - (psize env d).toNat)))
        else s.1 r col)
    l 0 s
    ⟨by simp, by
      intro r col
      rw [if_neg (by simp only [Nat.cast_zero]; omega)]⟩
    (by
      intro i hi t ht
      simp only [Nat.zero_add] at ht
      obtain ⟨ht1, ht2⟩ := ht
      obtain ⟨D, hD, hDe⟩ := interior_step_spec env d t l[i] (by rw [ht1]; omega)
        (by rw [ht1]; omega)
      refine ⟨_, hD, ?_, ?_⟩
      · simp only [ht1]
        push_cast
        ring
      · intro r col
        show D r col = _
        simp only [Nat.zero_add, Nat.cast_add, Nat.cast_one]
        rw [hDe r col, ht2 r col, ht1]
        have hg : l.getD i Polynomial.default = l[i] := List.getD_eq_getElem _ _ hi
        by_cases hr1 : ((r : Nat) : Int) = s.2 + 2 * (i : Int) + 1
        · have e1 : ((((r : Nat) : Int) - s.2) / 2).toNat = i := by omega
          rw [e1, hg]
          split_ifs <;> first | rfl | (exfalso; omega)
        · by_cases hr0 : ((r : Nat) : Int) = s.2 + 2 * (i : Int)
          · have e1 : ((((r : Nat) : Int) - s.2) / 2).toNat = i := by omega
            rw [e1, hg]
            split_ifs <;> first | rfl | (exfalso; omega)
          · split_ifs <;> first | rfl | (exfalso; omega))
  simp only [Nat.zero_add] at hI
  refine ⟨s'.1, ?_, hI.2⟩
  rw [hs', ← hI.1]

/-- With `C(N, m)` polynomials per set, the edge polynomial set has `d + 1`
members. -/
theorem Pq_length (env : Collaborators K) {d : Int} (hd : 0 ≤ d)
    (hcps : ∀ N m : Nat, (env.compute_polynomial_set N m).length = Nat.choose (m + N) N) :
    ((env.compute_polynomial_set 1 d).length : Int) = d + 1 := by
  obtain ⟨dn, rfl⟩ := Int.eq_ofNat_of_zero_le hd
  have h := hcps 1 dn
  rw [Nat.choose_one_right] at h
  simp only [Nat.cast_one] at h
  rw [h]
  push_cast
  ring

/-- With `C(N, m)` polynomials per set, the interior polynomial set has
`d (d + 1) / 2` members. -/
theorem two_mul_Pkm1_length (env : Collaborators K) {d : Int} (hd : 0 < d)
    (hcps : ∀ N m : Nat, (env.compute_polynomial_set N m).length = Nat.choose (m + N) N) :
    2 * ((env.compute_polynomial_set 2 (d - 1)).length : Int) = d * (d + 1) := by
  obtain ⟨e, he⟩ : ∃ e : Nat, d = (e : Int) + 1 := ⟨(d - 1).toNat, by omega⟩
  have h := hcps 2 e
  have h2 := two_mul_choose_two (e + 1)
  have e1 : d - 1 = (e : Int) := by omega
  rw [e1]
  simp only [Nat.cast_ofNat] at h
  rw [h, he]
  have h3 : ((2 * Nat.choose (e + 1 + 1) 2 : Nat) : Int) = (((e + 1 + 1) * (e + 1) : Nat) : Int) := by
    rw [h2]
  push_cast at h3
  linarith

/-- The matrix `dualmat` in closed form: the rows `e * (d + 1) + j` hold the edge
moments, and from row `3 (d + 1)` on the rows hold, in pairs, the interior
moments in one half and zero in the other. -/
theorem dualmat_spec (env : Collaborators K) {d : Int} (hd : 0 ≤ d)
    (hcps : ∀ N m : Nat, (env.compute_polynomial_set N m).length = Nat.choose (m + N) N) :
    ∃ D, dualmat env d = .ok (D, 3 * (d + 1) + d * (d + 1)) ∧
      (∀ (e j : Nat), e < 3 → (j : Int) < d + 1 →
        ∀ (r : Fin (nrows d)) (col : Fin (ncols env d)),
        ((r : Nat) : Int) = (e : Int) * (d + 1) + j →
        D r col = edge_row env d (edge_vertices env e) (edge_tangent env e)
          ((env.compute_polynomial_set 1 d).getD j Polynomial.default) col) ∧
      (∀ (r : Fin (nrows d)) (col : Fin (ncols env d)), 3 * (d + 1) ≤ ((r : Nat) : Int) →
        D r col =
          if (((r : Nat) : Int) - 3 * (d + 1)) % 2 = 0 then
            (if ((col : Nat) : Int) < psize env d then
              interior_moment env d ((((r : Nat) : Int) - 3 * (d + 1)) / 2).toNat (col : Nat)
             else 0)
          else
            (if ((col : Nat) : Int) < psize env d then 0
             else interior_moment env d ((((r : Nat) : Int) - 3 * (d + 1)) / 2).toNat
                ((col : Nat) - (psize env d).toNat))) := by
  have hrows := nrows_cast hd
  have hz := zeroMatrix_ok env hd
  have hPq := Pq_length env hd hcps
  obtain ⟨De, hDe, hrest, hedge⟩ := edges_loop_spec env d (fun _ _ => 0)
    (by rw [hPq, hrows]; nlinarith)
  rw [hPq] at hDe hrest hedge
  have hedge2 : ∀ (e j : Nat), e < 3 → (j : Int) < d + 1 →
      ∀ (r : Fin (nrows d)) (col : Fin (ncols env d)),
      ((r : Nat) : Int) = (e : Int) * (d + 1) + j →
      De r col = edge_row env d (edge_vertices env e) (edge_tangent env e)
        ((env.compute_polynomial_set 1 d).getD j Polynomial.default) col := by
    intro e j he hj r col hr
    exact hedge e j he (by omega) r col hr
  by_cases h0 : d > 0
  · have hPkm1 := two_mul_Pkm1_length env h0 hcps
    obtain ⟨D, hD, hDe2⟩ := interior_loop_spec env d (env.compute_polynomial_set 2 (d - 1))
      (De, 3 * (d + 1)) (by simp only; omega) (by simp only; rw [hPkm1, hrows]; nlinarith)
    simp only [hPkm1] at hD hDe2
    refine ⟨D, ?_, ?_, ?_⟩
    · unfold dualmat
      rw [hz]
      simp only [bind, Except.bind]
      rw [hDe]
      simp only [h0, if_true]
      exact hD
    · intro e j he hj r col hr
      rw [hDe2 r col, if_neg (by
        intro hc
        have : (e : Int) * (d + 1) ≤ 2 * (d + 1) := by
          have he2 : (e : Int) ≤ 2 := by omega
          nlinarith
        omega)]
      exact hedge2 e j he hj r col hr
    · intro r col hr
      have hlt : ((r : Nat) : Int) < 3 * (d + 1) + d * (d + 1) := by
        have := r.isLt
        have e : (d + 1) * (d + 3) = 3 * (d + 1) + d * (d + 1) := by ring
        omega
      rw [hDe2 r col, if_pos ⟨hr, hlt⟩, hrest r col hr]
      rfl
  · have e0 : d = 0 := by omega
    refine ⟨De, ?_, hedge2, ?_⟩
    · unfold dualmat
      rw [hz]
      simp only [bind, Except.bind]
      rw [hDe]
      simp only [h0, if_false]
      have e2 : 3 * (d + 1) + d * (d + 1) = 3 * (d + 1) := by
        rw [e0]
        ring
      rw [e2]
      rfl
    · intro r col hr
      exfalso
      have := r.isLt
      have e3 : (d + 1) * (d + 3) = 3 := by
        rw [e0]
        ring
      omega

/-! ## Degrees below one -/

/-- For `_degree = -1` the matrix `wcoeffs` has no rows and its assembly succeeds. -/
theorem wcoeffs_degree_neg_one (env : Collaborators K) :
    ∃ W, wcoeffs env (0 - 1) = .ok W := by
  have hnv : nv (0 - 1) = 0 := by decide
  have hns : ns (0 - 1) = 0 := by decide
  have hr : nrows (0 - 1) = 0 := by decide
  have hp := psize_nonneg env (0 - 1)
  have hc := ncols_cast env (0 - 1)
  unfold wcoeffs zeroMatrix
  rw [if_neg (by rw [hnv, hns]; omega)]
  simp only [bind, Except.bind, Eigen.setBlock, hnv, hns]
  rw [if_neg (by omega)]
  simp only [pure, Except.pure]
  rw [if_pos (by refine ⟨?_, ?_, ?_, ?_⟩ <;> simp)]
  simp only
  rw [if_pos (by refine ⟨?_, ?_, ?_, ?_⟩ <;> omega)]
  exact ⟨_, rfl⟩

/-- For `_degree = -1` and an empty edge polynomial set the assembly of `dualmat`
writes nothing. -/
theorem dualmat_degree_neg_one_nil (env : Collaborators K)
    (h : env.compute_polynomial_set 1 (0 - 1) = []) :
    dualmat env (0 - 1) = .ok (fun _ _ => 0, 0) := by
  have hnv : nv (0 - 1) = 0 := by decide
  have hns : ns (0 - 1) = 0 := by decide
  have hp := psize_nonneg env (0 - 1)
  unfold dualmat zeroMatrix
  rw [if_neg (by rw [hnv, hns]; omega)]
  have hloop : ∀ s, (List.range 3).foldlM (edges_step env (0 - 1)) s = .ok s := by
    intro s
    have hstep : ∀ s i, edges_step env (0 - 1) s i = .ok s := by
      intro s i
      unfold edges_step
      rw [h]
      rfl
    have e : List.range 3 = [0, 1, 2] := rfl
    rw [e]
    simp only [List.foldlM_cons, List.foldlM_nil, hstep, bind, Except.bind, pure, Except.pure]
  simp only [bind, Except.bind, hloop]
  rfl

/-- For `_degree = -1` and a non-empty edge polynomial set the first write to
`dualmat`, which has no rows, is refused. -/
theorem dualmat_degree_neg_one_cons (env : Collaborators K)
    (h : env.compute_polynomial_set 1 (0 - 1) ≠ []) :
    dualmat env (0 - 1) = .error .outOfRange := by
  have hnv : nv (0 - 1) = 0 := by decide
  have hns : ns (0 - 1) = 0 := by decide
  have hr : nrows (0 - 1) = 0 := by decide
  have hp := psize_nonneg env (0 - 1)
  obtain ⟨p, l, hpl⟩ := List.exists_cons_of_ne_nil h
  unfold dualmat zeroMatrix
  rw [if_neg (by rw [hnv, hns]; omega)]
  have hstep : ∀ D, edges_step env (0 - 1) (D, 0) 0 = .error .outOfRange := by
    intro D
    unfold edges_step
    rw [hpl]
    simp only [List.foldlM_cons, edge_step, finRange_two, Eigen.setBlock, bind, Except.bind]
    rw [if_neg (by omega)]
  have e : List.range 3 = [0, 1, 2] := rfl
  rw [e]
  simp only [bind, Except.bind, List.foldlM_cons, hstep]

/-- For `_degree = -1` the assembly of `poly_set` succeeds with no entries. -/
theorem assemble_degree_neg_one (env : Collaborators K) (uninit : K)
    (B : Matrix (Fin (nrows (0 - 1))) (Fin (ncols env (0 - 1))) K) :
    assemble_poly_set env uninit 2 (0 - 1) B = .ok [] := by
  have hnv : nv (0 - 1) = 0 := by decide
  have hns : ns (0 - 1) = 0 := by decide
  unfold assemble_poly_set
  rw [Polynomial.zero_eq]
  simp only [bind, Except.bind, hnv, hns]
  rw [if_neg (by omega)]
  have e : List.range (2 : Int).toNat = [0, 1] := rfl
  have e0 : List.range ((0 : Int) * 2 + 0).toNat = [] := rfl
  simp only [e, e0, List.foldlM_cons, List.foldlM_nil, bind, Except.bind, pure, Except.pure]
  rfl

/-- The constructor for the degree 0: an element without basis functions, or a
refused write, according to the edge polynomial set of degree `-1`. -/
theorem ctor_degree_zero (env : Collaborators K) (uninit : K) :
    (env.compute_polynomial_set 1 (0 - 1) = [] →
      ctor env uninit 0 = .ok { _dim := 2, _degree := 0 - 1, poly_set := [] }) ∧
    (env.compute_polynomial_set 1 (0 - 1) ≠ [] →
      ctor env uninit 0 = .error .outOfRange) := by
  obtain ⟨W, hW⟩ := wcoeffs_degree_neg_one env
  constructor
  · intro h
    unfold ctor
    simp only [bind, Except.bind, hW, dualmat_degree_neg_one_nil env h,
      assemble_degree_neg_one, pure, Except.pure]
  · intro h
    unfold ctor
    simp only [bind, Except.bind, hW, dualmat_degree_neg_one_cons env h]

/-- For `_degree = -2` the number of rows `nv * 2 + ns` is `-1` and the creation
of `wcoeffs` is refused. -/
theorem ctor_degree_neg_one (env : Collaborators K) (uninit : K) :
    ctor env uninit (-1) = .error .badSize := by
  have h : nv (-1 - 1) * 2 + ns (-1 - 1) < 0 := by decide
  unfold ctor wcoeffs zeroMatrix
  simp only [bind, Except.bind]
  rw [if_pos (Or.inl h)]

/-- For `_degree <= -3` there are `nv > 0` polynomials per component but fewer than
`2 * nv` rows, and an identity block does not fit into `wcoeffs`. -/
theorem wcoeffs_degree_neg (env : Collaborators K) {d : Int} (hd : d ≤ -3) :
    wcoeffs env d = .error .outOfRange := by
  have h2nv := two_mul_nv d
  have hrows := rows_eq d
  have hns : ns d = d + 1 := rfl
  have hp := psize_nonneg env d
  have hnvpos : 0 < nv d := by nlinarith
  have hrn : 0 ≤ nv d * 2 + ns d := by
    rw [hrows]
    nlinarith
  have hr : ((nrows d : Nat) : Int) = nv d * 2 + ns d := by
    unfold nrows
    exact Int.toNat_of_nonneg hrn
  unfold wcoeffs zeroMatrix
  rw [if_neg (by omega)]
  simp only [bind, Except.bind, Eigen.setBlock]
  rw [if_neg (by omega)]
  simp only [pure, Except.pure]
  by_cases c1 : (0 : Int) ≤ 0 ∧ (0 : Int) ≤ 0 ∧ 0 + (((nv d).toNat : Nat) : Int) ≤ nrows d ∧
      0 + (((nv d).toNat : Nat) : Int) ≤ ncols env d
  · rw [if_pos c1]
    simp only
    rw [if_neg (by omega)]
  · rw [if_neg c1]

theorem ctor_degree_neg (env : Collaborators K) (uninit : K) {k : Int} (hk : k ≤ -2) :
    ctor env uninit k = .error .outOfRange := by
  unfold ctor
  simp only [bind, Except.bind, wcoeffs_degree_neg env (show k - 1 ≤ -3 by omega)]

/-- C11, as amended. For a degree `k < 1` the constructor makes no test of the degree.
For `k <= -1` it fails through a container: the creation of `wcoeffs` with `-1` rows
for `k = -1`, an identity block that does not fit into `wcoeffs` for `k <= -2`.  For
`k = 0` it fails, by a write to `dualmat`, which has no rows, exactly when the edge
polynomial set of degree `-1` has a member, and otherwise it returns an element
whose `poly_set` is empty. -/
theorem invalid_degree (env : Collaborators K) (uninit : K) (k : Int) (hk : k < 1) :
    (k = 0 → env.compute_polynomial_set 1 (k - 1) = [] →
      ctor env uninit k = .ok { _dim := 2, _degree := k - 1, poly_set := [] }) ∧
    (k = 0 → env.compute_polynomial_set 1 (k - 1) ≠ [] →
      ctor env uninit k = .error .outOfRange) ∧
    (k = -1 → ctor env uninit k = .error .badSize) ∧
    (k ≤ -2 → ctor env uninit k = .error .outOfRange) := by
  refine ⟨?_, ?_, ?_, ?_⟩
  · intro h0 h
    subst h0
    exact (ctor_degree_zero env uninit).1 h
  · intro h0 h
    subst h0
    exact (ctor_degree_zero env uninit).2 h
  · intro h1
    subst h1
    exact ctor_degree_neg_one env uninit
  · intro h2
    exact ctor_degree_neg env uninit h2

theorem invalid_degree_witness :
    (0 : Int) < 1 ∧
    (((0 : Int) = 0 → exampleEnv0.compute_polynomial_set 1 (0 - 1) = [] →
      ctor exampleEnv0 7 0 = .ok { _dim := 2, _degree := 0 - 1, poly_set := [] }) ∧
    ((0 : Int) = 0 → exampleEnv0.compute_polynomial_set 1 (0 - 1) ≠ [] →
      ctor exampleEnv0 7 0 = .error .outOfRange) ∧
    ((0 : Int) = -1 → ctor exampleEnv0 7 0 = .error .badSize) ∧
    ((0 : Int) ≤ -2 → ctor exampleEnv0 7 0 = .error .outOfRange)) :=
  ⟨by decide, invalid_degree exampleEnv0 7 0 (by decide)⟩

/-- C11, as stated, fails for the degree 0: with the collaborators `exampleEnv0` the
constructor does not fail, it returns an element, whose `poly_set` is empty. -/
theorem invalid_degree_counterexample :
    (0 : Int) < 1 ∧
    ctor exampleEnv0 7 0 = .ok { _dim := 2, _degree := 0 - 1, poly_set := [] } ∧
    ¬ ∃ err, ctor exampleEnv0 7 0 = .error err := by
  have h : ctor exampleEnv0 7 0 = .ok { _dim := 2, _degree := 0 - 1, poly_set := [] } :=
    (ctor_degree_zero exampleEnv0 7).1 rfl
  refine ⟨by decide, h, ?_⟩
  rintro ⟨err, herr⟩
  rw [h] at herr
  exact Except.noConfusion herr

/-! ## The rows of `dualmat` -/

/-- C16. For every degree `k >= 1` with `d = k - 1`, when
`compute_polynomial_set(N, m)` returns `C(N, m)` polynomials, the assembly of
`dualmat` succeeds and, for every edge `e` in `{0, 1, 2}` with vertices `v0`, `v1`,
every `j` in `[0, d]`, every component `a` and every `l` in `[0, psize)`, the entry
in row `e (d + 1) + j` and column `a psize + l` exists and holds
`sum_s psi_j(s) w_s t_a phi_l(v0 + s (v1 - v0))` over the points `s` of the edge
rule, with `t = v1 - v0` for the edges 0 and 2 and `t = v0 - v1` for the edge 1;
the mapped point is `v0` at `s = 0` and `v1` at `s = 1`. -/
theorem edge_moment_rows (env : Collaborators K) (k : Int) (hk : 1 ≤ k)
    (hcps : ∀ N m : Nat, (env.compute_polynomial_set N m).length = Nat.choose (m + N) N) :
    ∃ D c, dualmat env (k - 1) = .ok (D, c) ∧
      ∀ (e j : Nat) (a : Fin 2) (l : Nat), e < 3 → (j : Int) ≤ k - 1 →
        (l : Int) < psize env (k - 1) →
        j < (env.compute_polynomial_set 1 (k - 1)).length ∧ l < (Pkp1 env (k - 1)).length ∧
        (∃ (r : Fin (nrows (k - 1))) (col : Fin (ncols env (k - 1))),
          ((r : Nat) : Int) = (e : Int) * (k - 1 + 1) + j ∧
          ((col : Nat) : Int) = ((a : Nat) : Int) * psize env (k - 1) + l ∧
          D r col = ∑ s,
            env.eval ((env.compute_polynomial_set 1 (k - 1)).getD j Polynomial.default)
                ((QruleE env (k - 1)).pts s)
              * (QruleE env (k - 1)).wts s
              * (if e = 1 then edge_vertices env e 0 a - edge_vertices env e 1 a
                  else edge_vertices env e 1 a - edge_vertices env e 0 a)
              * env.eval ((Pkp1 env (k - 1)).getD l Polynomial.default)
                  (edge_vertices env e 0 + (QruleE env (k - 1)).pts s 0 •
                    (edge_vertices env e 1 - edge_vertices env e 0))) ∧
        (∀ s, (QruleE env (k - 1)).pts s 0 = 0 →
          edge_vertices env e 0 + (QruleE env (k - 1)).pts s 0 •
            (edge_vertices env e 1 - edge_vertices env e 0) = edge_vertices env e 0) ∧
        (∀ s, (QruleE env (k - 1)).pts s 0 = 1 →
          edge_vertices env e 0 + (QruleE env (k - 1)).pts s 0 •
            (edge_vertices env e 1 - edge_vertices env e 0) = edge_vertices env e 1) := by
  have hd : (0 : Int) ≤ k - 1 := by omega
  have hrows := nrows_cast hd
  have hcols := ncols_cast env (k - 1)
  have hPq := Pq_length env hd hcps
  have hps := psize_nonneg env (k - 1)
  obtain ⟨D, hD, hedge, _⟩ := dualmat_spec env hd hcps
  refine ⟨D, _, hD, ?_⟩
  intro e j a l he hj hl
  have ha : (a : Nat) = 0 ∨ (a : Nat) = 1 := by
    have := a.isLt
    omega
  have hr : (e : Int) * (k - 1 + 1) + j < (k - 1 + 1) * (k - 1 + 3) := by
    have he2 : (e : Int) ≤ 2 := by omega
    nlinarith
  have hr0 : (0 : Int) ≤ (e : Int) * (k - 1 + 1) + j := by positivity
  have hc : (((a : Nat) : Int) * psize env (k - 1) + l).toNat < ncols env (k - 1) := by
    rcases ha with h | h <;> rw [h] <;> push_cast <;> omega
  have hc0 : (0 : Int) ≤ ((a : Nat) : Int) * psize env (k - 1) + l := by positivity
  refine ⟨by omega, by unfold psize at hl; omega, ?_, ?_, ?_⟩
  · refine ⟨⟨((e : Int) * (k - 1 + 1) + j).toNat, by omega⟩,
      ⟨(((a : Nat) : Int) * psize env (k - 1) + l).toNat, hc⟩, ?_, ?_, ?_⟩
    · simp only
      omega
    · simp only
      omega
    · rw [hedge e j he (by omega) _ _ (by simp only; omega)]
      unfold edge_row edge_qcoeff edge_tangent
      simp only
      rcases ha with h | h
      · have ea : a = 0 := Fin.ext h
        subst ea
        have e1 : (((((0 : Fin 2) : Nat) : Int) * psize env (k - 1) + l).toNat : Int) = l := by
          simp
        have e2 : ((((0 : Fin 2) : Nat) : Int) * psize env (k - 1) + l).toNat = l := by
          omega
        rw [if_pos (by rw [e1]; exact hl), e2]
        refine Finset.sum_congr rfl ?_
        intro s _
        by_cases h1 : e = 1
        · simp only [h1, if_true, Pi.sub_apply]
          ring
        · simp only [h1, if_false, Pi.sub_apply]
          ring
      · have ea : a = 1 := Fin.ext h
        subst ea
        have e1 : (((((1 : Fin 2) : Nat) : Int) * psize env (k - 1) + l).toNat : Int)
            = psize env (k - 1) + l := by
          rw [Int.toNat_of_nonneg hc0]
          simp
        have e2 : ((((1 : Fin 2) : Nat) : Int) * psize env (k - 1) + l).toNat
            - (psize env (k - 1)).toNat = l := by
          omega
        rw [if_neg (by rw [e1]; omega), e2]
        refine Finset.sum_congr rfl ?_
        intro s _
        by_cases h1 : e = 1
        · simp only [h1, if_true, Pi.sub_apply]
          ring
        · simp only [h1, if_false, Pi.sub_apply]
          ring
  · intro s hs
    rw [hs, zero_smul, add_zero]
  · intro s hs
    rw [hs, one_smul]
    abel

theorem edge_moment_rows_witness :
    (1 : Int) ≤ 2 ∧
    (∀ N m : Nat, (exampleEnv.compute_polynomial_set N m).length = Nat.choose (m + N) N) ∧
    ∃ D c, dualmat exampleEnv (2 - 1) = .ok (D, c) ∧
      ∀ (e j : Nat) (a : Fin 2) (l : Nat), e < 3 → (j : Int) ≤ 2 - 1 →
        (l : Int) < psize exampleEnv (2 - 1) →
        j < (exampleEnv.compute_polynomial_set 1 (2 - 1)).length ∧
        l < (Pkp1 exampleEnv (2 - 1)).length ∧
        (∃ (r : Fin (nrows (2 - 1))) (col : Fin (ncols exampleEnv (2 - 1))),
          ((r : Nat) : Int) = (e : Int) * (2 - 1 + 1) + j ∧
          ((col : Nat) : Int) = ((a : Nat) : Int) * psize exampleEnv (2 - 1) + l ∧
          D r col = ∑ s,
            exampleEnv.eval ((exampleEnv.compute_polynomial_set 1 (2 - 1)).getD j Polynomial.default)
                ((QruleE exampleEnv (2 - 1)).pts s)
              * (QruleE exampleEnv (2 - 1)).wts s
              * (if e = 1 then edge_vertices exampleEnv e 0 a - edge_vertices exampleEnv e 1 a
                  else edge_vertices exampleEnv e 1 a - edge_vertices exampleEnv e 0 a)
              * exampleEnv.eval ((Pkp1 exampleEnv (2 - 1)).getD l Polynomial.default)
                  (edge_vertices exampleEnv e 0 + (QruleE exampleEnv (2 - 1)).pts s 0 •
                    (edge_vertices exampleEnv e 1 - edge_vertices exampleEnv e 0))) ∧
        (∀ s, (QruleE exampleEnv (2 - 1)).pts s 0 = 0 →
          edge_vertices exampleEnv e 0 + (QruleE exampleEnv (2 - 1)).pts s 0 •
            (edge_vertices exampleEnv e 1 - edge_vertices exampleEnv e 0)
            = edge_vertices exampleEnv e 0) ∧
        (∀ s, (QruleE exampleEnv (2 - 1)).pts s 0 = 1 →
          edge_vertices exampleEnv e 0 + (QruleE exampleEnv (2 - 1)).pts s 0 •
            (edge_vertices exampleEnv e 1 - edge_vertices exampleEnv e 0)
            = edge_vertices exampleEnv e 1) :=
  ⟨by decide, exampleEnv_sizes, edge_moment_rows exampleEnv 2 (by decide) exampleEnv_sizes⟩

/-- C17. For every degree `k >= 1` with `d = k - 1`, when
`compute_polynomial_set(N, m)` returns `C(N, m)` polynomials, the assembly of
`dualmat` succeeds and, for every `i` in `[0, d (d + 1) / 2)` and every `l` in
`[0, psize)`, with `r = 3 (d + 1) + 2 i` and
`m_l = sum_q w_q chi_i(x_q) phi_l(x_q)`, row `r` holds `m_l` in column `l` and 0 in
column `psize + l`, and row `r + 1` holds 0 in column `l` and `m_l` in column
`psize + l`; for `d = 0` the matrix is the one left by the loop over the edges,
which has no row from `3 (d + 1)` on. -/
theorem interior_moment_rows (env : Collaborators K) (k : Int) (hk : 1 ≤ k)
    (hcps : ∀ N m : Nat, (env.compute_polynomial_set N m).length = Nat.choose (m + N) N) :
    ∃ D c, dualmat env (k - 1) = .ok (D, c) ∧
      (∀ (i l : Nat), 2 * (i : Int) < (k - 1) * (k - 1 + 1) → (l : Int) < psize env (k - 1) →
        1 ≤ k - 1 ∧ i < (env.compute_polynomial_set 2 (k - 1 - 1)).length ∧
        l < (Pkp1 env (k - 1)).length ∧
        ∃ (r r1 : Fin (nrows (k - 1))) (col col1 : Fin (ncols env (k - 1))),
          ((r : Nat) : Int) = 3 * (k - 1 + 1) + 2 * i ∧ (r1 : Nat) = (r : Nat) + 1 ∧
          (col : Nat) = l ∧ ((col1 : Nat) : Int) = psize env (k - 1) + l ∧
          D r col = (∑ q, (Qrule env (k - 1)).wts q
            * env.eval ((env.compute_polynomial_set 2 (k - 1 - 1)).getD i Polynomial.default)
                ((Qrule env (k - 1)).pts q)
            * env.eval ((Pkp1 env (k - 1)).getD l Polynomial.default)
                ((Qrule env (k - 1)).pts q)) ∧
          D r col1 = 0 ∧ D r1 col = 0 ∧ D r1 col1 = D r col) ∧
      (k - 1 = 0 →
        (List.range 3).foldlM (edges_step env (k - 1)) (fun _ _ => 0, 0) = .ok (D, c) ∧
        ((nrows (k - 1) : Nat) : Int) = 3 * (k - 1 + 1)) := by
  have hd : (0 : Int) ≤ k - 1 := by omega
  have hrows := nrows_cast hd
  have hcols := ncols_cast env (k - 1)
  have hps := psize_nonneg env (k - 1)
  obtain ⟨D, hD, _, hint⟩ := dualmat_spec env hd hcps
  refine ⟨D, _, hD, ?_, ?_⟩
  · intro i l hi hl
    have hd1 : 1 ≤ k - 1 := by
      by_contra hc
      have e : k - 1 = 0 := by omega
      rw [e] at hi
      omega
    have hlen := two_mul_Pkm1_length env (show (0 : Int) < k - 1 by omega) hcps
    have hi0 : (0 : Int) ≤ (i : Int) := Int.natCast_nonneg _
    have hl0 : (0 : Int) ≤ (l : Int) := Int.natCast_nonneg _
    have hi1 : (i : Int) + 1 ≤ ((env.compute_polynomial_set 2 (k - 1 - 1)).length : Int) := by
      have : (i : Int) < ((env.compute_polynomial_set 2 (k - 1 - 1)).length : Int) := by
        linarith
      omega
    have hrr : 3 * (k - 1 + 1) + 2 * (i : Int) + 1 < (k - 1 + 1) * (k - 1 + 3) := by
      linarith
    refine ⟨hd1, by omega, by unfold psize at hl; omega, ?_⟩
    refine ⟨⟨(3 * (k - 1 + 1) + 2 * (i : Int)).toNat, by omega⟩,
      ⟨(3 * (k - 1 + 1) + 2 * (i : Int)).toNat + 1, by omega⟩,
      ⟨l, by omega⟩, ⟨(psize env (k - 1)).toNat + l, by omega⟩, ?_, rfl, rfl, ?_, ?_, ?_, ?_, ?_⟩
    · simp only
      omega
    · simp only
      omega
    · rw [hint _ _ (by simp only; omega)]
      simp only
      have e1 : (((3 * (k - 1 + 1) + 2 * (i : Int)).toNat : Nat) : Int) - 3 * (k - 1 + 1)
          = 2 * (i : Int) := by omega
      rw [e1, if_pos (by omega), if_pos hl]
      have e2 : (2 * (i : Int) / 2).toNat = i := by omega
      rw [e2]
      unfold interior_moment interior_qcoeff
      refine Finset.sum_congr rfl ?_
      intro q _
      ring
    · rw [hint _ _ (by simp only; omega)]
      simp only
      have e1 : (((3 * (k - 1 + 1) + 2 * (i : Int)).toNat : Nat) : Int) - 3 * (k - 1 + 1)
          = 2 * (i : Int) := by omega
      rw [e1, if_pos (by omega), if_neg (by omega)]
    · rw [hint _ _ (by simp only; omega)]
      simp only
      have e1 : (((3 * (k - 1 + 1) + 2 * (i : Int)).toNat + 1 : Nat) : Int) - 3 * (k - 1 + 1)
          = 2 * (i : Int) + 1 := by omega
      rw [e1, if_neg (by omega), if_pos hl]
    · rw [hint _ _ (by simp only; omega), hint _ _ (by simp only; omega)]
      simp only
      have e1 : (((3 * (k - 1 + 1) + 2 * (i : Int)).toNat + 1 : Nat) : Int) - 3 * (k - 1 + 1)
          = 2 * (i : Int) + 1 := by omega
      have e1b : (((3 * (k - 1 + 1) + 2 * (i : Int)).toNat : Nat) : Int) - 3 * (k - 1 + 1)
          = 2 * (i : Int) := by omega
      rw [e1, e1b, if_neg (by omega), if_neg (by omega), if_pos (by omega), if_pos hl]
      have e2 : ((2 * (i : Int) + 1) / 2).toNat = i := by omega
      have e3 : (2 * (i : Int) / 2).toNat = i := by omega
      have e4 : (psize env (k - 1)).toNat + l - (psize env (k - 1)).toNat = l := by omega
      rw [e2, e3, e4]
  · intro h0
    refine ⟨?_, ?_⟩
    · have h := hD
      unfold dualmat at h
      rw [zeroMatrix_ok env hd] at h
      simp only [bind, Except.bind] at h
      have h1 : ¬ (k - 1 > 0) := by omega
      simp only [h1, if_false] at h
      split at h
      · simp at h
      · rename_i s hs
        rw [hs]
        simpa [pure, Except.pure] using h
    · rw [hrows, h0]
      ring

theorem interior_moment_rows_witness :
    (1 : Int) ≤ 2 ∧
    (∀ N m : Nat, (exampleEnv.compute_polynomial_set N m).length = Nat.choose (m + N) N) ∧
    ∃ D c, dualmat exampleEnv (2 - 1) = .ok (D, c) ∧
      (∀ (i l : Nat), 2 * (i : Int) < (2 - 1) * (2 - 1 + 1) →
        (l : Int) < psize exampleEnv (2 - 1) →
        (1 : Int) ≤ 2 - 1 ∧ i < (exampleEnv.compute_polynomial_set 2 (2 - 1 - 1)).length ∧
        l < (Pkp1 exampleEnv (2 - 1)).length ∧
        ∃ (r r1 : Fin (nrows (2 - 1))) (col col1 : Fin (ncols exampleEnv (2 - 1))),
          ((r : Nat) : Int) = 3 * (2 - 1 + 1) + 2 * i ∧ (r1 : Nat) = (r : Nat) + 1 ∧
          (col : Nat) = l ∧ ((col1 : Nat) : Int) = psize exampleEnv (2 - 1) + l ∧
          D r col = (∑ q, (Qrule exampleEnv (2 - 1)).wts q
            * exampleEnv.eval
                ((exampleEnv.compute_polynomial_set 2 (2 - 1 - 1)).getD i Polynomial.default)
                ((Qrule exampleEnv (2 - 1)).pts q)
            * exampleEnv.eval ((Pkp1 exampleEnv (2 - 1)).getD l Polynomial.default)
                ((Qrule exampleEnv (2 - 1)).pts q)) ∧
          D r col1 = 0 ∧ D r1 col = 0 ∧ D r1 col1 = D r col) ∧
      ((2 : Int) - 1 = 0 →
        (List.range 3).foldlM (edges_step exampleEnv (2 - 1)) (fun _ _ => 0, 0) = .ok (D, c) ∧
        ((nrows (2 - 1) : Nat) : Int) = 3 * (2 - 1 + 1)) :=
  ⟨by decide, exampleEnv_sizes, interior_moment_rows exampleEnv 2 (by decide) exampleEnv_sizes⟩

/-! ## The accesses of the constructor -/

/-- C20. For every degree `k >= 1`, when `compute_polynomial_set(N, m)` returns
`C(N, m)` polynomials, the constructor returns an element: no access to `wcoeffs`,
`dualmat`, `Pkp1`, `new_coeffs` or `poly_set` is out of range.  The two matrices
have `2 nv + ns` rows and `2 psize` columns; the row `c` of every write
`dualmat.block(c, psize * a, 1, psize)`, which is `e |Pq| + j` in the loop over the
edges and `3 |Pq| + 2 i` and the next one in the loop over the interior set, is
below `2 nv + ns`, and its columns end at `psize * a + psize <= 2 psize`; both
identity blocks fit into `wcoeffs`; and every read `new_coeffs(i, l + psize * j)`
and every write `poly_set[i + (2 nv + ns) * j]` is inside the container. -/
theorem accesses_in_bounds (env : Collaborators K) (uninit : K) (k : Int) (hk : 1 ≤ k)
    (hcps : ∀ N m : Nat, (env.compute_polynomial_set N m).length = Nat.choose (m + N) N) :
    (∃ W D ps, wcoeffs env (k - 1) = .ok W ∧
      dualmat env (k - 1) = .ok (D, 2 * nv (k - 1) + ns (k - 1)) ∧
      ctor env uninit k = .ok { _dim := 2, _degree := k - 1, poly_set := ps } ∧
      ((ps.length : Nat) : Int) = (nv (k - 1) * 2 + ns (k - 1)) * 2) ∧
    (((nrows (k - 1) : Nat) : Int) = nv (k - 1) * 2 + ns (k - 1) ∧
      ((ncols env (k - 1) : Nat) : Int) = psize env (k - 1) * 2) ∧
    (∀ e j : Nat, e < 3 → j < (env.compute_polynomial_set 1 (k - 1)).length →
      0 ≤ (e : Int) * ((env.compute_polynomial_set 1 (k - 1)).length : Int) + j ∧
      (e : Int) * ((env.compute_polynomial_set 1 (k - 1)).length : Int) + j
        < nv (k - 1) * 2 + ns (k - 1)) ∧
    (k - 1 > 0 → ∀ i : Nat, i < (env.compute_polynomial_set 2 (k - 1 - 1)).length →
      0 ≤ 3 * ((env.compute_polynomial_set 1 (k - 1)).length : Int) + 2 * i ∧
      3 * ((env.compute_polynomial_set 1 (k - 1)).length : Int) + 2 * i + 1
        < nv (k - 1) * 2 + ns (k - 1)) ∧
    (∀ a : Nat, a < 2 → 0 ≤ psize env (k - 1) * a ∧
      psize env (k - 1) * a + psize env (k - 1) ≤ psize env (k - 1) * 2) ∧
    (0 ≤ nv (k - 1) ∧ 0 + nv (k - 1) ≤ nv (k - 1) * 2 + ns (k - 1) ∧
      0 + nv (k - 1) ≤ psize env (k - 1) * 2 ∧
      nv (k - 1) + nv (k - 1) ≤ nv (k - 1) * 2 + ns (k - 1) ∧
      psize env (k - 1) + nv (k - 1) ≤ psize env (k - 1) * 2) ∧
    (∀ j i l : Nat, j < 2 → (i : Int) < nv (k - 1) * 2 + ns (k - 1) →
      (l : Int) < psize env (k - 1) →
      0 ≤ (l : Int) + psize env (k - 1) * j ∧
      (l : Int) + psize env (k - 1) * j < psize env (k - 1) * 2 ∧
      0 ≤ (i : Int) + (nv (k - 1) * 2 + ns (k - 1)) * j ∧
      (i : Int) + (nv (k - 1) * 2 + ns (k - 1)) * j < (nv (k - 1) * 2 + ns (k - 1)) * 2) := by
  have hd : (0 : Int) ≤ k - 1 := by omega
  have hrows := nrows_cast hd
  have hrows2 := rows_eq (k - 1)
  have hcols := ncols_cast env (k - 1)
  have hps := psize_nonneg env (k - 1)
  have hnv := nv_nonneg hd
  have hnvp := nv_add_eq_psize env hd hcps
  have hPq := Pq_length env hd hcps
  have hns : ns (k - 1) = k - 1 + 1 := rfl
  obtain ⟨W, hW, _⟩ := wcoeffs_ok env hd (show nv (k - 1) ≤ psize env (k - 1) by omega)
  obtain ⟨D, hD, _⟩ := dualmat_spec env hd hcps
  obtain ⟨ps, hps1, hlen, _⟩ := ctor_ok env uninit k hk W D _ hW hD
  have hc : 3 * (k - 1 + 1) + (k - 1) * (k - 1 + 1) = 2 * nv (k - 1) + ns (k - 1) := by
    have h := two_mul_nv (k - 1)
    rw [hns]
    linarith
  refine ⟨⟨W, D, ps, hW, ?_, hps1, ?_⟩, ⟨by omega, hcols⟩, ?_, ?_, ?_, ?_, ?_⟩
  · rw [← hc]
    exact hD
  · rw [hlen]
    push_cast
    rw [hrows, hrows2]
  · intro e j he hj
    rw [hPq, hrows2]
    have hj2 : (j : Int) < k - 1 + 1 := by omega
    have he2 : (e : Int) ≤ 2 := by omega
    refine ⟨by positivity, ?_⟩
    nlinarith
  · intro h0 i hi
    have hlen2 := two_mul_Pkm1_length env h0 hcps
    rw [hPq, hrows2]
    have hi2 : (i : Int) + 1 ≤ ((env.compute_polynomial_set 2 (k - 1 - 1)).length : Int) := by
      omega
    refine ⟨by positivity, ?_⟩
    linarith
  · intro a ha
    have ha2 : (a : Int) = 0 ∨ (a : Int) = 1 := by omega
    rcases ha2 with h | h <;> rw [h] <;> omega
  · refine ⟨hnv, ?_, ?_, ?_, ?_⟩
    · rw [hns]
      omega
    · omega
    · rw [hns]
      omega
    · omega
  · intro j i l hj hi hl
    have hj2 : (j : Int) = 0 ∨ (j : Int) = 1 := by omega
    have hn : (0 : Int) ≤ nv (k - 1) * 2 + ns (k - 1) := by
      rw [hns]
      omega
    rcases hj2 with h | h <;> rw [h] <;> refine ⟨?_, ?_, ?_, ?_⟩ <;> omega

theorem accesses_in_bounds_witness :
    (1 : Int) ≤ 2 ∧
    (∀ N m : Nat, (exampleEnv.compute_polynomial_set N m).length = Nat.choose (m + N) N) ∧
    ((∃ W D ps, wcoeffs exampleEnv (2 - 1) = .ok W ∧
      dualmat exampleEnv (2 - 1) = .ok (D, 2 * nv (2 - 1) + ns (2 - 1)) ∧
      ctor exampleEnv 7 2 = .ok { _dim := 2, _degree := 2 - 1, poly_set := ps } ∧
      ((ps.length : Nat) : Int) = (nv (2 - 1) * 2 + ns (2 - 1)) * 2) ∧
    (((nrows (2 - 1) : Nat) : Int) = nv (2 - 1) * 2 + ns (2 - 1) ∧
      ((ncols exampleEnv (2 - 1) : Nat) : Int) = psize exampleEnv (2 - 1) * 2) ∧
    (∀ e j : Nat, e < 3 → j < (exampleEnv.compute_polynomial_set 1 (2 - 1)).length →
      0 ≤ (e : Int) * ((exampleEnv.compute_polynomial_set 1 (2 - 1)).length : Int) + j ∧
      (e : Int) * ((exampleEnv.compute_polynomial_set 1 (2 - 1)).length : Int) + j
        < nv (2 - 1) * 2 + ns (2 - 1)) ∧
    ((2 : Int) - 1 > 0 →
      ∀ i : Nat, i < (exampleEnv.compute_polynomial_set 2 (2 - 1 - 1)).length →
      0 ≤ 3 * ((exampleEnv.compute_polynomial_set 1 (2 - 1)).length : Int) + 2 * i ∧
      3 * ((exampleEnv.compute_polynomial_set 1 (2 - 1)).length : Int) + 2 * i + 1
        < nv (2 - 1) * 2 + ns (2 - 1)) ∧
    (∀ a : Nat, a < 2 → 0 ≤ psize exampleEnv (2 - 1) * a ∧
      psize exampleEnv (2 - 1) * a + psize exampleEnv (2 - 1) ≤ psize exampleEnv (2 - 1) * 2) ∧
    (0 ≤ nv (2 - 1) ∧ 0 + nv (2 - 1) ≤ nv (2 - 1) * 2 + ns (2 - 1) ∧
      0 + nv (2 - 1) ≤ psize exampleEnv (2 - 1) * 2 ∧
      nv (2 - 1) + nv (2 - 1) ≤ nv (2 - 1) * 2 + ns (2 - 1) ∧
      psize exampleEnv (2 - 1) + nv (2 - 1) ≤ psize exampleEnv (2 - 1) * 2) ∧
    (∀ j i l : Nat, j < 2 → (i : Int) < nv (2 - 1) * 2 + ns (2 - 1) →
      (l : Int) < psize exampleEnv (2 - 1) →
      0 ≤ (l : Int) + psize exampleEnv (2 - 1) * j ∧
      (l : Int) + psize exampleEnv (2 - 1) * j < psize exampleEnv (2 - 1) * 2 ∧
      0 ≤ (i : Int) + (nv (2 - 1) * 2 + ns (2 - 1)) * j ∧
      (i : Int) + (nv (2 - 1) * 2 + ns (2 - 1)) * j < (nv (2 - 1) * 2 + ns (2 - 1)) * 2)) :=
  ⟨by decide, exampleEnv_sizes, accesses_in_bounds exampleEnv 7 2 (by decide) exampleEnv_sizes⟩

/-! ## The inverse of `A` -/

theorem singularEnv_sizes (N m : Nat) :
    (singularEnv.compute_polynomial_set N m).length = Nat.choose (m + N) N := by
  simp [singularEnv, exampleEnv]

theorem singularW_ok : wcoeffs singularEnv (1 - 1) = .ok singularW := by
  obtain ⟨W, hW, _⟩ := wcoeffs_ok singularEnv (d := 1 - 1) (by decide) (by decide)
  unfold singularW
  rw [hW]

theorem singularD_ok : dualmat singularEnv (1 - 1) = .ok (singularD, 3) := by
  obtain ⟨D, hD, _⟩ := dualmat_spec singularEnv (d := 1 - 1) (by decide) singularEnv_sizes
  have e : (3 : Int) * (1 - 1 + 1) + (1 - 1) * (1 - 1 + 1) = 3 := by decide
  rw [e] at hD
  unfold singularD
  rw [hD]

/-- With quadrature rules without points every moment is an empty sum: the matrix
`dualmat` is zero. -/
theorem singularD_eq_zero : singularD = 0 := by
  obtain ⟨D, hD, hedge, _⟩ := dualmat_spec singularEnv (d := 1 - 1) (by decide) singularEnv_sizes
  have e : singularD = D := by
    unfold singularD
    rw [hD]
  rw [e]
  funext r col
  have hr : (r : Nat) < 3 := r.isLt
  have h := hedge (r : Nat) 0 hr (by decide) r col (by simp)
  rw [h]
  have hempty : ∀ (tangent : Fin 2 → ℚ) (pq : Polynomial ℚ) (a : Fin 2) (l : Nat),
      edge_qcoeff singularEnv (1 - 1) (edge_vertices singularEnv (r : Nat)) tangent pq a l = 0 := by
    intro tangent pq a l
    unfold edge_qcoeff
    exact Finset.sum_of_isEmpty (α := Fin 0) _
  unfold edge_row
  split <;> exact hempty _ _ _ _

theorem singular_A_not_isUnit : ¬ IsUnit (A singularW singularD) := by
  have h0 : A singularW singularD = 0 := by
    unfold A
    rw [singularD_eq_zero, Matrix.transpose_zero, Matrix.mul_zero]
  rw [Matrix.isUnit_iff_isUnit_det, h0, Matrix.det_zero ⟨⟨0, by decide⟩⟩]
  exact not_isUnit_zero

/-- C12, as amended. The constructor does not test whether `A = wcoeffs *
dualmat^T` is invertible and raises no error for a singular `A`: for every degree
`k >= 1` for which `wcoeffs` and `dualmat` are assembled and `A` is not
invertible, the constructor returns an element, whose `poly_set` has
`2 (2 nv + ns)` members. -/
theorem singular_system (env : Collaborators K) (uninit : K) (k : Int) (hk : 1 ≤ k)
    (W D : Matrix (Fin (nrows (k - 1))) (Fin (ncols env (k - 1))) K) (c : Int)
    (hW : wcoeffs env (k - 1) = .ok W) (hD : dualmat env (k - 1) = .ok (D, c))
    (hA : ¬ IsUnit (A W D)) :
    (∃ ps, ctor env uninit k = .ok { _dim := 2, _degree := k - 1, poly_set := ps } ∧
      ((ps.length : Nat) : Int) = 2 * (2 * nv (k - 1) + ns (k - 1))) ∧
    ∀ err, ctor env uninit k ≠ .error err := by
  obtain ⟨ps, hps, hlen, _⟩ := ctor_ok env uninit k hk W D c hW hD
  have hrows := nrows_cast (show (0 : Int) ≤ k - 1 by omega)
  have hrows2 := rows_eq (k - 1)
  refine ⟨⟨ps, hps, ?_⟩, ?_⟩
  · rw [hlen]
    push_cast
    rw [hrows, ← hrows2]
    ring
  · intro err h
    rw [hps] at h
    exact Except.noConfusion h

theorem singular_system_witness :
    (1 : Int) ≤ 1 ∧ wcoeffs singularEnv (1 - 1) = .ok singularW ∧
    dualmat singularEnv (1 - 1) = .ok (singularD, 3) ∧ ¬ IsUnit (A singularW singularD) ∧
    ((∃ ps, ctor singularEnv 7 1 = .ok { _dim := 2, _degree := 1 - 1, poly_set := ps } ∧
      ((ps.length : Nat) : Int) = 2 * (2 * nv (1 - 1) + ns (1 - 1))) ∧
    ∀ err, ctor singularEnv 7 1 ≠ .error err) :=
  ⟨by decide, singularW_ok, singularD_ok, singular_A_not_isUnit,
    singular_system singularEnv 7 1 (by decide) singularW singularD 3 singularW_ok singularD_ok
      singular_A_not_isUnit⟩

/-- The claim C12 fails for the collaborators `singularEnv` and the degree 1: the
matrix `A` is not invertible, and the constructor returns an element. -/
theorem singular_system_counterexample :
    wcoeffs singularEnv (1 - 1) = .ok singularW ∧
    dualmat singularEnv (1 - 1) = .ok (singularD, 3) ∧
    ¬ IsUnit (A singularW singularD) ∧
    ∃ e, ctor singularEnv 7 1 = .ok e := by
  refine ⟨singularW_ok, singularD_ok, singular_A_not_isUnit, ?_⟩
  obtain ⟨ps, hps, _⟩ := ctor_ok singularEnv 7 1 (by decide) singularW singularD 3
    singularW_ok singularD_ok
  exact ⟨_, hps⟩

/-! ## The identity rows of `wcoeffs` -/

/-- The column of the entry 1 of the row `r < 2 nv` of `wcoeffs`. -/
theorem unit_col_lt (env : Collaborators K) {d : Int} (hd : 0 ≤ d) (hnp : nv d ≤ psize env d)
    (r : Fin (nrows d)) (hr : ((r : Nat) : Int) < 2 * nv d) :
    (if ((r : Nat) : Int) < nv d then ((r : Nat) : Int)
      else psize env d + (((r : Nat) : Int) - nv d)).toNat < ncols env d := by
  have hc := ncols_cast env d
  have hnv := nv_nonneg hd
  split <;> omega

/-- The first `2 nv` rows of `wcoeffs` are linearly independent. -/
theorem unit_rows_linearIndependent (env : Collaborators K) {d : Int} (hd : 0 ≤ d)
    (hnp : nv d ≤ psize env d) (W : Matrix (Fin (nrows d)) (Fin (ncols env d)) K)
    (hW : wcoeffs env d = .ok W) :
    LinearIndependent K
      (fun r : {r : Fin (nrows d) // ((r : Nat) : Int) < 2 * nv d} => W r.1) := by
  have hc := ncols_cast env d
  have hnv := nv_nonneg hd
  obtain ⟨W', hW', hu1, hu2, _⟩ := wcoeffs_ok env hd hnp
  rw [hW] at hW'
  cases hW'
  have hcomp : (fun r : {r : Fin (nrows d) // ((r : Nat) : Int) < 2 * nv d} => W r.1)
      = (Pi.basisFun K (Fin (ncols env d))) ∘
        (fun r : {r : Fin (nrows d) // ((r : Nat) : Int) < 2 * nv d} =>
          (⟨_, unit_col_lt env hd hnp r.1 r.2⟩ : Fin (ncols env d))) := by
    funext r c
    simp only [Function.comp, Pi.basisFun_apply, Pi.single_apply]
    by_cases h : (((r.1 : Fin (nrows d)) : Nat) : Int) < nv d
    · rw [hu1 r.1 c h]
      simp only [h, if_true]
      have e : (((r.1 : Fin (nrows d)) : Nat) : Int).toNat = ((r.1 : Fin (nrows d)) : Nat) := by
        omega
      by_cases h2 : ((c : Nat) : Int) = (((r.1 : Fin (nrows d)) : Nat) : Int)
      · rw [if_pos h2, if_pos (Fin.ext (by simp only; omega))]
      · rw [if_neg h2, if_neg (fun hc2 => h2 (by
          have := congrArg Fin.val hc2
          simp only at this
          omega))]
    · rw [hu2 r.1 c (by omega) r.2]
      simp only [h, if_false]
      by_cases h2 : ((c : Nat) : Int)
          = psize env d + ((((r.1 : Fin (nrows d)) : Nat) : Int) - nv d)
      · rw [if_pos h2, if_pos (Fin.ext (by simp only; omega))]
      · rw [if_neg h2, if_neg (fun hc2 => h2 (by
          have := congrArg Fin.val hc2
          simp only at this
          omega))]
  rw [hcomp]
  refine (Pi.basisFun K (Fin (ncols env d))).linearIndependent.comp _ ?_
  intro r r' h
  have h2 := congrArg Fin.val h
  simp only at h2
  have hr := r.2
  have hr' := r'.2
  apply Subtype.ext
  apply Fin.ext
  by_cases c1 : (((r.1 : Fin (nrows d)) : Nat) : Int) < nv d <;>
    by_cases c2 : (((r'.1 : Fin (nrows d)) : Nat) : Int) < nv d <;>
    simp only [c1, c2, if_true, if_false] at h2 <;> omega

/-- The sum of the members of `Pkp1` weighted by the entries of a unit row. -/
theorem unit_row_sum (env : Collaborators K) (d : Int) (pt : Fin 2 → K) (i : Nat)
    (hi : i < (Pkp1 env d).length) (f : Nat → K)
    (hf : ∀ l : Fin (Pkp1 env d).length, f l = if (l : Nat) = i then 1 else 0) :
    (∑ l : Fin (Pkp1 env d).length, f l * env.eval ((Pkp1 env d).get l) pt)
      = env.eval ((Pkp1 env d).getD i Polynomial.default) pt := by
  rw [Finset.sum_eq_single (⟨i, hi⟩ : Fin (Pkp1 env d).length)]
  · rw [hf, if_pos rfl, one_mul, get_eq_getD _ Polynomial.default _ i rfl]
  · intro l _ hl
    rw [hf, if_neg (fun e => hl (Fin.ext e)), zero_mul]
  · intro h
    exact absurd (Finset.mem_univ _) h

/-- The sum of the members of `Pkp1` weighted by zero entries. -/
theorem zero_row_sum (env : Collaborators K) (d : Int) (pt : Fin 2 → K) (f : Nat → K)
    (hf : ∀ l : Fin (Pkp1 env d).length, f l = 0) :
    (∑ l : Fin (Pkp1 env d).length, f l * env.eval ((Pkp1 env d).get l) pt) = 0 := by
  refine Finset.sum_eq_zero ?_
  intro l _
  rw [hf, zero_mul]

/-- C15. For every degree `k >= 1` with `d = k - 1`, when
`compute_polynomial_set(N, m)` returns `C(N, m) = (m + N choose N)` polynomials,
`wcoeffs` is assembled, `nv <= psize`, and for `i < nv` the rows `i` and `nv + i`
have the entry 1 in the columns `i` and `psize + i` and 0 in every other column;
these columns are pairwise distinct and inside `[0, 2 psize)`, the first `2 nv`
rows are linearly independent, and the rows `i` and `nv + i` represent
`(phi_i, 0)` and `(0, phi_i)`: the sums `sum_l W(r, a psize + l) phi_l` over
`l < psize` are `phi_i` and `0` for the row `i`, and `0` and `phi_i` for the row
`nv + i`. -/
theorem identity_rows (env : Collaborators K) (k : Int) (hk : 1 ≤ k)
    (hcps : ∀ N m : Nat, (env.compute_polynomial_set N m).length = Nat.choose (m + N) N) :
    ∃ W, wcoeffs env (k - 1) = .ok W ∧ nv (k - 1) ≤ psize env (k - 1) ∧
      (∀ i : Nat, (i : Int) < nv (k - 1) →
        ∃ (r r2 : Fin (nrows (k - 1))) (c c2 : Fin (ncols env (k - 1))),
          ((r : Nat) : Int) = i ∧ ((r2 : Nat) : Int) = nv (k - 1) + i ∧
          ((c : Nat) : Int) = i ∧ ((c2 : Nat) : Int) = psize env (k - 1) + i ∧
          W r c = 1 ∧ (∀ col, col ≠ c → W r col = 0) ∧
          W r2 c2 = 1 ∧ (∀ col, col ≠ c2 → W r2 col = 0) ∧
          ∀ pt : Fin 2 → K,
            (∑ l : Fin (Pkp1 env (k - 1)).length,
              Eigen.entry W r l * env.eval ((Pkp1 env (k - 1)).get l) pt)
              = env.eval ((Pkp1 env (k - 1)).getD i Polynomial.default) pt ∧
            (∑ l : Fin (Pkp1 env (k - 1)).length,
              Eigen.entry W r ((psize env (k - 1)).toNat + l)
                * env.eval ((Pkp1 env (k - 1)).get l) pt) = 0 ∧
            (∑ l : Fin (Pkp1 env (k - 1)).length,
              Eigen.entry W r2 l * env.eval ((Pkp1 env (k - 1)).get l) pt) = 0 ∧
            (∑ l : Fin (Pkp1 env (k - 1)).length,
              Eigen.entry W r2 ((psize env (k - 1)).toNat + l)
                * env.eval ((Pkp1 env (k - 1)).get l) pt)
              = env.eval ((Pkp1 env (k - 1)).getD i Polynomial.default) pt) ∧
      (∀ i i2 : Nat, (i : Int) < nv (k - 1) → (i2 : Int) < nv (k - 1) →
        (i : Int) ≠ psize env (k - 1) + i2 ∧ ((i : Int) = i2 → i = i2) ∧
        (psize env (k - 1) + i = psize env (k - 1) + i2 → i = i2) ∧
        0 ≤ (i : Int) ∧ (i : Int) < 2 * psize env (k - 1) ∧
        0 ≤ psize env (k - 1) + i ∧ psize env (k - 1) + i < 2 * psize env (k - 1)) ∧
      LinearIndependent K
        (fun r : {r : Fin (nrows (k - 1)) // ((r : Nat) : Int) < 2 * nv (k - 1)} => W r.1) := by
  have hd : (0 : Int) ≤ k - 1 := by omega
  have hc := ncols_cast env (k - 1)
  have hr := nrows_cast hd
  have hrows := rows_eq (k - 1)
  have hns : ns (k - 1) = k - 1 + 1 := rfl
  have hp := psize_nonneg env (k - 1)
  have hnv := nv_nonneg hd
  have hnvp := nv_add_eq_psize env hd hcps
  have hnp : nv (k - 1) ≤ psize env (k - 1) := by omega
  have hlen : psize env (k - 1) = ((Pkp1 env (k - 1)).length : Int) := rfl
  obtain ⟨W, hW, hu1, hu2, _⟩ := wcoeffs_ok env hd hnp
  refine ⟨W, hW, hnp, ?_, ?_, unit_rows_linearIndependent env hd hnp W hW⟩
  · intro i hi
    have hi0 : (0 : Int) ≤ (i : Int) := Int.natCast_nonneg _
    refine ⟨⟨i, by omega⟩, ⟨(nv (k - 1)).toNat + i, by omega⟩, ⟨i, by omega⟩,
      ⟨(psize env (k - 1)).toNat + i, by omega⟩, rfl, ?_, rfl, ?_, ?_, ?_, ?_, ?_, ?_⟩
    · simp only
      omega
    · simp only
      omega
    · rw [hu1 _ _ (by simpa using hi), if_pos rfl]
    · intro col hcol
      rw [hu1 _ _ (by simpa using hi), if_neg]
      intro e
      exact hcol (Fin.ext (by simp only; omega))
    · rw [hu2 _ _ (by simp only; omega) (by simp only; omega), if_pos (by simp only; omega)]
    · intro col hcol
      rw [hu2 _ _ (by simp only; omega) (by simp only; omega), if_neg]
      intro e
      exact hcol (Fin.ext (by simp only at e ⊢; omega))
    · intro pt
      refine ⟨?_, ?_, ?_, ?_⟩
      · refine unit_row_sum env (k - 1) pt i (by omega) (fun l => Eigen.entry W i l) ?_
        intro l
        have hl := l.isLt
        simp only [Eigen.entry]
        rw [dif_pos ⟨by omega, by omega⟩, hu1 _ _ (by simpa using hi)]
        simp only [Nat.cast_inj]
      · refine zero_row_sum env (k - 1) pt
          (fun l => Eigen.entry W i ((psize env (k - 1)).toNat + l)) ?_
        intro l
        have hl := l.isLt
        simp only [Eigen.entry]
        rw [dif_pos ⟨by omega, by omega⟩, hu1 _ _ (by simpa using hi), if_neg]
        simp only
        omega
      · refine zero_row_sum env (k - 1) pt
          (fun l => Eigen.entry W ((nv (k - 1)).toNat + i) l) ?_
        intro l
        have hl := l.isLt
        simp only [Eigen.entry]
        rw [dif_pos ⟨by omega, by omega⟩,
          hu2 _ _ (by simp only; omega) (by simp only; omega), if_neg]
        simp only
        omega
      · refine unit_row_sum env (k - 1) pt i (by omega)
          (fun l => Eigen.entry W ((nv (k - 1)).toNat + i) ((psize env (k - 1)).toNat + l)) ?_
        intro l
        have hl := l.isLt
        simp only [Eigen.entry]
        rw [dif_pos ⟨by omega, by omega⟩,
          hu2 _ _ (by simp only; omega) (by simp only; omega)]
        by_cases e : (l : Nat) = i
        · rw [if_pos e, if_pos (by simp only; omega)]
        · rw [if_neg e, if_neg (by simp only; omega)]
  · intro i i2 hi hi2
    have hi0 : (0 : Int) ≤ (i : Int) := Int.natCast_nonneg _
    have hi20 : (0 : Int) ≤ (i2 : Int) := Int.natCast_nonneg _
    refine ⟨by omega, by omega, by omega, by omega, by omega, by omega, by omega⟩

theorem identity_rows_witness :
    (1 : Int) ≤ 1 ∧
    (∀ N m : Nat, (exampleEnv.compute_polynomial_set N m).length = Nat.choose (m + N) N) ∧
    ∃ W, wcoeffs exampleEnv (1 - 1) = .ok W ∧ nv (1 - 1) ≤ psize exampleEnv (1 - 1) ∧
      (∀ i : Nat, (i : Int) < nv (1 - 1) →
        ∃ (r r2 : Fin (nrows (1 - 1))) (c c2 : Fin (ncols exampleEnv (1 - 1))),
          ((r : Nat) : Int) = i ∧ ((r2 : Nat) : Int) = nv (1 - 1) + i ∧
          ((c : Nat) : Int) = i ∧ ((c2 : Nat) : Int) = psize exampleEnv (1 - 1) + i ∧
          W r c = 1 ∧ (∀ col, col ≠ c → W r col = 0) ∧
          W r2 c2 = 1 ∧ (∀ col, col ≠ c2 → W r2 col = 0) ∧
          ∀ pt : Fin 2 → ℚ,
            (∑ l : Fin (Pkp1 exampleEnv (1 - 1)).length,
              Eigen.entry W r l * exampleEnv.eval ((Pkp1 exampleEnv (1 - 1)).get l) pt)
              = exampleEnv.eval ((Pkp1 exampleEnv (1 - 1)).getD i Polynomial.default) pt ∧
            (∑ l : Fin (Pkp1 exampleEnv (1 - 1)).length,
              Eigen.entry W r ((psize exampleEnv (1 - 1)).toNat + l)
                * exampleEnv.eval ((Pkp1 exampleEnv (1 - 1)).get l) pt) = 0 ∧
            (∑ l : Fin (Pkp1 exampleEnv (1 - 1)).length,
              Eigen.entry W r2 l * exampleEnv.eval ((Pkp1 exampleEnv (1 - 1)).get l) pt) = 0 ∧
            (∑ l : Fin (Pkp1 exampleEnv (1 - 1)).length,
              Eigen.entry W r2 ((psize exampleEnv (1 - 1)).toNat + l)
                * exampleEnv.eval ((Pkp1 exampleEnv (1 - 1)).get l) pt)
              = exampleEnv.eval ((Pkp1 exampleEnv (1 - 1)).getD i Polynomial.default) pt) ∧
      (∀ i i2 : Nat, (i : Int) < nv (1 - 1) → (i2 : Int) < nv (1 - 1) →
        (i : Int) ≠ psize exampleEnv (1 - 1) + i2 ∧ ((i : Int) = i2 → i = i2) ∧
        (psize exampleEnv (1 - 1) + i = psize exampleEnv (1 - 1) + i2 → i = i2) ∧
        0 ≤ (i : Int) ∧ (i : Int) < 2 * psize exampleEnv (1 - 1) ∧
        0 ≤ psize exampleEnv (1 - 1) + i ∧
        psize exampleEnv (1 - 1) + i < 2 * psize exampleEnv (1 - 1)) ∧
      LinearIndependent ℚ
        (fun r : {r : Fin (nrows (1 - 1)) // ((r : Nat) : Int) < 2 * nv (1 - 1)} => W r.1) :=
  ⟨by decide, exampleEnv_sizes, identity_rows exampleEnv 1 (by decide) exampleEnv_sizes⟩

/-! ## The rows of `wcoeffs` from `2 nv` on -/

theorem ns0_add_ns (d : Int) : ns0 d + ns d = nv d := by
  have h1 := two_mul_ns0 d
  have h2 := two_mul_nv d
  unfold ns
  linarith

/-- The product of a polynomial function of degree at most `a` and one of degree
at most `b` has degree at most `a + b`. -/
theorem PolyDeg_mul {a b : Nat} {f g : (Fin 2 → K) → K} (hf : f ∈ PolyDeg K a)
    (hg : g ∈ PolyDeg K b) : f * g ∈ PolyDeg K (a + b) := by
  have h : f * g ∈ PolyDeg K a * PolyDeg K b := Submodule.mul_mem_mul hf hg
  unfold PolyDeg at h ⊢
  rw [Submodule.span_mul_span] at h
  refine Submodule.span_mono ?_ h
  rintro _ ⟨u, ⟨a1, b1, h1, rfl⟩, v, ⟨a2, b2, h2, rfl⟩, rfl⟩
  refine ⟨a1 + a2, b1 + b2, by omega, ?_⟩
  funext pt
  simp only [Pi.mul_apply, pow_add]
  ring

theorem PolyDeg_mono {a b : Nat} (h : a ≤ b) : PolyDeg K a ≤ PolyDeg K b := by
  unfold PolyDeg
  refine Submodule.span_mono ?_
  rintro _ ⟨a1, b1, h1, rfl⟩
  exact ⟨a1, b1, by omega, rfl⟩

theorem coord_mem_PolyDeg (a : Fin 2) : (fun pt : Fin 2 → K => pt a) ∈ PolyDeg K 1 := by
  refine Submodule.subset_span ?_
  have ha : a = 0 ∨ a = 1 := by
    rcases a with ⟨v, hv⟩
    have : v = 0 ∨ v = 1 := by omega
    rcases this with h | h
    · left
      exact Fin.ext h
    · right
      exact Fin.ext h
  rcases ha with h | h
  · refine ⟨1, 0, by omega, ?_⟩
    funext pt
    rw [h]
    simp
  · refine ⟨0, 1, by omega, ?_⟩
    funext pt
    rw [h]
    simp

/-- When the rule of the triangle is exact on `P_{2 (d + 1)}` and the members of
`Pkp1` are orthonormal functions of `P_{d + 1}`, the coefficients of an expansion
in these members are the moments computed with the rule. -/
theorem expansion_coeff (env : Collaborators K) (d : Nat) (I : ((Fin 2 → K) → K) → K)
    (hexact : ∀ f ∈ PolyDeg K (2 * (d + 1)),
      (∑ q, (Qrule env d).wts q * f ((Qrule env d).pts q)) = I f)
    (hortho : ∀ k l : Nat, k < (Pkp1 env d).length → l < (Pkp1 env d).length →
      I (Pkp1_fun env d k * Pkp1_fun env d l) = if k = l then 1 else 0)
    (hmem : ∀ k : Nat, k < (Pkp1 env d).length → Pkp1_fun env d k ∈ PolyDeg K (d + 1))
    (f : (Fin 2 → K) → K) (c : Fin (Pkp1 env d).length → K)
    (hf : ∀ pt, f pt = ∑ l, c l * Pkp1_fun env d l pt) (k : Fin (Pkp1 env d).length) :
    (∑ q, (Qrule env d).wts q * f ((Qrule env d).pts q)
      * Pkp1_fun env d k ((Qrule env d).pts q)) = c k := by
  have h1 : ∀ l : Fin (Pkp1 env d).length,
      (∑ q, (Qrule env d).wts q
        * (Pkp1_fun env d l * Pkp1_fun env d k) ((Qrule env d).pts q))
        = if (l : Nat) = (k : Nat) then 1 else 0 := by
    intro l
    rw [hexact _ (by
      have h := PolyDeg_mul (hmem l l.isLt) (hmem k k.isLt)
      have e : d + 1 + (d + 1) = 2 * (d + 1) := by ring
      rw [e] at h
      exact h)]
    exact hortho l k l.isLt k.isLt
  calc (∑ q, (Qrule env d).wts q * f ((Qrule env d).pts q)
          * Pkp1_fun env d k ((Qrule env d).pts q))
      = ∑ q, ∑ l, c l * ((Qrule env d).wts q
          * (Pkp1_fun env d l * Pkp1_fun env d k) ((Qrule env d).pts q)) := by
        refine Finset.sum_congr rfl ?_
        intro q _
        rw [hf, Finset.mul_sum, Finset.sum_mul]
        refine Finset.sum_congr rfl ?_
        intro l _
        simp only [Pi.mul_apply]
        ring
    _ = ∑ l, c l * (∑ q, (Qrule env d).wts q
          * (Pkp1_fun env d l * Pkp1_fun env d k) ((Qrule env d).pts q)) := by
        rw [Finset.sum_comm]
        refine Finset.sum_congr rfl ?_
        intro l _
        rw [Finset.mul_sum]
    _ = ∑ l, c l * (if (l : Nat) = (k : Nat) then 1 else 0) := by
        refine Finset.sum_congr rfl ?_
        intro l _
        rw [h1]
    _ = c k := by
        rw [Finset.sum_eq_single k]
        · rw [if_pos rfl, mul_one]
        · intro l _ hl
          rw [if_neg (fun e => hl (Fin.ext e)), mul_zero]
        · intro h
          exact absurd (Finset.mem_univ _) h

/-- A function of the span of the members of `Pkp1` has an expansion. -/
theorem expansion_exists (env : Collaborators K) (d : Nat) (f : (Fin 2 → K) → K)
    (hf : f ∈ Submodule.span K
      (Set.range (fun k : Fin (Pkp1 env d).length => Pkp1_fun env d k))) :
    ∃ c : Fin (Pkp1 env d).length → K, ∀ pt, f pt = ∑ l, c l * Pkp1_fun env d l pt := by
  obtain ⟨c, hc⟩ := (mem_span_range_iff_exists_fun K).mp hf
  refine ⟨c, ?_⟩
  intro pt
  rw [← hc]
  simp only [Finset.sum_apply, Pi.smul_apply, smul_eq_mul]

/-- C14. For every `d >= 0` and `i` in `[0, ns)`, when the rule of the triangle is
exact on `P_{2 (d + 1)}` for a functional `I` (the integral over the triangle), and
the members `phi_l` of `Pkp1` are orthonormal for `I` and span `P_{d + 1}`, the
first `nv` of them, which exist, spanning `P_d`: `wcoeffs` is assembled and its row
`2 nv + i` holds
`sum_q w_q phi_{ns0+i}(q) y_q phi_l(q)` in column `l` and
`-sum_q w_q phi_{ns0+i}(q) x_q phi_l(q)` in column `psize + l`; these entries are
the coefficients, and the only ones, of the expansions of `y phi_{ns0+i}` and of
`-x phi_{ns0+i}` in the `phi_l`; and the vector function `p` that the row
represents satisfies `p(x, y) . (x, y) = 0` at every point. -/
theorem Sk_rows (env : Collaborators K) (d : Nat) (I : ((Fin 2 → K) → K) → K)
    (hnp : nv d ≤ psize env d)
    (hexact : ∀ f ∈ PolyDeg K (2 * (d + 1)),
      (∑ q, (Qrule env d).wts q * f ((Qrule env d).pts q)) = I f)
    (hortho : ∀ k l : Nat, k < (Pkp1 env d).length → l < (Pkp1 env d).length →
      I (Pkp1_fun env d k * Pkp1_fun env d l) = if k = l then 1 else 0)
    (hbasis : Submodule.span K
      (Set.range (fun k : Fin (Pkp1 env d).length => Pkp1_fun env d k)) = PolyDeg K (d + 1))
    (hfirst : Submodule.span K
      (Set.range (fun k : Fin (nv d).toNat => Pkp1_fun env d k)) = PolyDeg K d) :
    ∃ W, wcoeffs env d = .ok W ∧
      ∀ i : Nat, (i : Int) < ns d →
        ∃ r : Fin (nrows d), ((r : Nat) : Int) = 2 * nv d + i ∧
          (∀ l : Nat, (l : Int) < psize env d →
            ∃ c c1 : Fin (ncols env d), (c : Nat) = l ∧ ((c1 : Nat) : Int) = psize env d + l ∧
              W r c = (∑ q, (Qrule env d).wts q
                * Pkp1_fun env d (ns0 d + i).toNat ((Qrule env d).pts q)
                * (Qrule env d).pts q 1 * Pkp1_fun env d l ((Qrule env d).pts q)) ∧
              W r c1 = -(∑ q, (Qrule env d).wts q
                * Pkp1_fun env d (ns0 d + i).toNat ((Qrule env d).pts q)
                * (Qrule env d).pts q 0 * Pkp1_fun env d l ((Qrule env d).pts q))) ∧
          (∀ pt : Fin 2 → K,
            (∑ l : Fin (Pkp1 env d).length, Eigen.entry W r l * Pkp1_fun env d l pt)
              = pt 1 * Pkp1_fun env d (ns0 d + i).toNat pt ∧
            (∑ l : Fin (Pkp1 env d).length,
              Eigen.entry W r ((psize env d).toNat + l) * Pkp1_fun env d l pt)
              = -pt 0 * Pkp1_fun env d (ns0 d + i).toNat pt ∧
            (∑ l : Fin (Pkp1 env d).length, Eigen.entry W r l * Pkp1_fun env d l pt) * pt 0
              + (∑ l : Fin (Pkp1 env d).length,
                  Eigen.entry W r ((psize env d).toNat + l) * Pkp1_fun env d l pt) * pt 1
              = 0) ∧
          (∀ c : Fin (Pkp1 env d).length → K,
            (∀ pt : Fin 2 → K, (∑ l, c l * Pkp1_fun env d l pt)
              = pt 1 * Pkp1_fun env d (ns0 d + i).toNat pt) →
            ∀ l : Fin (Pkp1 env d).length, c l = Eigen.entry W r l) ∧
          (∀ c : Fin (Pkp1 env d).length → K,
            (∀ pt : Fin 2 → K, (∑ l, c l * Pkp1_fun env d l pt)
              = -pt 0 * Pkp1_fun env d (ns0 d + i).toNat pt) →
            ∀ l : Fin (Pkp1 env d).length,
              c l = Eigen.entry W r ((psize env d).toNat + l)) := by
  have hd : (0 : Int) ≤ (d : Int) := Int.natCast_nonneg _
  have hc := ncols_cast env d
  have hr := nrows_cast hd
  have hrows := rows_eq d
  have hns : ns (d : Int) = d + 1 := rfl
  have hp := psize_nonneg env d
  have hnv := nv_nonneg hd
  have hlen : psize env d = ((Pkp1 env d).length : Int) := rfl
  have hns0 := ns0_add_ns d
  have hns0' : (0 : Int) ≤ ns0 d := by
    have h := two_mul_ns0 d
    nlinarith
  obtain ⟨W, hW, _, _, hu3⟩ := wcoeffs_ok env hd hnp
  have hmem : ∀ k : Nat, k < (Pkp1 env d).length → Pkp1_fun env d k ∈ PolyDeg K (d + 1) := by
    intro k hk
    rw [← hbasis]
    exact Submodule.subset_span ⟨⟨k, hk⟩, rfl⟩
  refine ⟨W, hW, ?_⟩
  intro i hi
  have hi0 : (0 : Int) ≤ (i : Int) := Int.natCast_nonneg _
  have hn : (ns0 d + i).toNat < (nv d).toNat := by omega
  have hphi : Pkp1_fun env d (ns0 d + i).toNat ∈ PolyDeg K d := by
    rw [← hfirst]
    exact Submodule.subset_span ⟨⟨(ns0 d + i).toNat, hn⟩, rfl⟩
  -- the two components of `p`
  have hf0 : (fun pt : Fin 2 → K => pt 1 * Pkp1_fun env d (ns0 d + i).toNat pt)
      ∈ PolyDeg K (d + 1) := by
    have h := PolyDeg_mul (coord_mem_PolyDeg (K := K) 1) hphi
    rw [Nat.add_comm] at h
    exact h
  have hf1 : (fun pt : Fin 2 → K => -pt 0 * Pkp1_fun env d (ns0 d + i).toNat pt)
      ∈ PolyDeg K (d + 1) := by
    have h := PolyDeg_mul (coord_mem_PolyDeg (K := K) 0) hphi
    rw [Nat.add_comm] at h
    have h2 := (PolyDeg K (d + 1)).smul_mem (-1 : K) h
    have e : (fun pt : Fin 2 → K => -pt 0 * Pkp1_fun env d (ns0 d + i).toNat pt)
        = (-1 : K) • ((fun pt : Fin 2 → K => pt 0) * Pkp1_fun env d (ns0 d + i).toNat) := by
      funext pt
      simp only [Pi.smul_apply, Pi.mul_apply, smul_eq_mul]
      ring
    rw [e]
    exact h2
  have hrlt : (2 * nv d + (i : Int)).toNat < nrows d := by omega
  -- the entries of the row
  have hent0 : ∀ l : Fin (Pkp1 env d).length,
      Eigen.entry W (2 * nv d + (i : Int)).toNat l
        = ∑ q, (Qrule env d).wts q * Pkp1_fun env d (ns0 d + i).toNat ((Qrule env d).pts q)
            * (Qrule env d).pts q 1 * Pkp1_fun env d l ((Qrule env d).pts q) := by
    intro l
    have hl := l.isLt
    simp only [Eigen.entry]
    rw [dif_pos ⟨hrlt, by omega⟩, hu3 _ _ (by simp only; omega), if_pos (by simp only; omega)]
    have e : (2 * nv d + (i : Int)).toNat - (2 * nv (d : Int)).toNat = i := by omega
    simp only [e]
    rfl
  have hent1 : ∀ l : Fin (Pkp1 env d).length,
      Eigen.entry W (2 * nv d + (i : Int)).toNat ((psize env d).toNat + l)
        = -(∑ q, (Qrule env d).wts q * Pkp1_fun env d (ns0 d + i).toNat ((Qrule env d).pts q)
            * (Qrule env d).pts q 0 * Pkp1_fun env d l ((Qrule env d).pts q)) := by
    intro l
    have hl := l.isLt
    simp only [Eigen.entry]
    rw [dif_pos ⟨hrlt, by omega⟩, hu3 _ _ (by simp only; omega), if_neg (by simp only; omega)]
    have e : (2 * nv d + (i : Int)).toNat - (2 * nv (d : Int)).toNat = i := by omega
    have e2 : (psize env d).toNat + (l : Nat) - (psize env d).toNat = l := by omega
    simp only [e, e2]
    unfold w1_sum
    rw [← Finset.sum_neg_distrib]
    refine Finset.sum_congr rfl ?_
    intro q _
    simp only [Pkp1_fun]
    ring
  -- the coefficients of an expansion are the entries
  have hcoef0 : ∀ c : Fin (Pkp1 env d).length → K,
      (∀ pt : Fin 2 → K, (∑ l, c l * Pkp1_fun env d l pt)
        = pt 1 * Pkp1_fun env d (ns0 d + i).toNat pt) →
      ∀ l : Fin (Pkp1 env d).length, c l = Eigen.entry W (2 * nv d + (i : Int)).toNat l := by
    intro c hcf l
    rw [hent0 l, ← expansion_coeff env d I hexact hortho hmem
      (fun pt : Fin 2 → K => pt 1 * Pkp1_fun env d (ns0 d + i).toNat pt) c
      (fun pt => (hcf pt).symm) l]
    refine Finset.sum_congr rfl ?_
    intro q _
    ring
  have hcoef1 : ∀ c : Fin (Pkp1 env d).length → K,
      (∀ pt : Fin 2 → K, (∑ l, c l * Pkp1_fun env d l pt)
        = -pt 0 * Pkp1_fun env d (ns0 d + i).toNat pt) →
      ∀ l : Fin (Pkp1 env d).length,
        c l = Eigen.entry W (2 * nv d + (i : Int)).toNat ((psize env d).toNat + l) := by
    intro c hcf l
    rw [hent1 l, ← expansion_coeff env d I hexact hortho hmem
      (fun pt : Fin 2 → K => -pt 0 * Pkp1_fun env d (ns0 d + i).toNat pt) c
      (fun pt => (hcf pt).symm) l, ← Finset.sum_neg_distrib]
    refine Finset.sum_congr rfl ?_
    intro q _
    ring
  -- the expansions
  obtain ⟨c0, hc0⟩ := expansion_exists env d _ (by rw [hbasis]; exact hf0)
  obtain ⟨c1, hc1⟩ := expansion_exists env d _ (by rw [hbasis]; exact hf1)
  have hsum0 : ∀ pt : Fin 2 → K,
      (∑ l : Fin (Pkp1 env d).length,
        Eigen.entry W (2 * nv d + (i : Int)).toNat l * Pkp1_fun env d l pt)
        = pt 1 * Pkp1_fun env d (ns0 d + i).toNat pt := by
    intro pt
    rw [hc0 pt]
    refine Finset.sum_congr rfl ?_
    intro l _
    rw [hcoef0 c0 (fun pt => (hc0 pt).symm) l]
  have hsum1 : ∀ pt : Fin 2 → K,
      (∑ l : Fin (Pkp1 env d).length,
        Eigen.entry W (2 * nv d + (i : Int)).toNat ((psize env d).toNat + l)
          * Pkp1_fun env d l pt)
        = -pt 0 * Pkp1_fun env d (ns0 d + i).toNat pt := by
    intro pt
    rw [hc1 pt]
    refine Finset.sum_congr rfl ?_
    intro l _
    rw [hcoef1 c1 (fun pt => (hc1 pt).symm) l]
  refine ⟨⟨(2 * nv d + (i : Int)).toNat, hrlt⟩, ?_, ?_, ?_, hcoef0, hcoef1⟩
  · simp only
    omega
  · intro l hl
    have hl0 : (0 : Int) ≤ (l : Int) := Int.natCast_nonneg _
    have hl2 : l < (Pkp1 env d).length := by omega
    refine ⟨⟨l, by omega⟩, ⟨(psize env d).toNat + l, by omega⟩, rfl, ?_, ?_, ?_⟩
    · simp only
      omega
    · have h := hent0 ⟨l, hl2⟩
      simp only [Eigen.entry] at h
      rw [dif_pos ⟨hrlt, by omega⟩] at h
      exact h
    · have h := hent1 ⟨l, hl2⟩
      simp only [Eigen.entry] at h
      rw [dif_pos ⟨hrlt, by omega⟩] at h
      exact h
  · intro pt
    refine ⟨hsum0 pt, hsum1 pt, ?_⟩
    have h0 := hsum0 pt
    have h1 := hsum1 pt
    simp only at h0 h1 ⊢
    rw [h0, h1]
    ring

theorem orthoEnv_sizes (N m : Nat) :
    (orthoEnv.compute_polynomial_set N m).length = Nat.choose (m + N) N := by
  by_cases h : ((N : Int) = 2 ∧ (m : Int) = 1)
  · obtain ⟨h1, h2⟩ := h
    have e1 : N = 2 := by omega
    have e2 : m = 1 := by omega
    subst e1
    subst e2
    rfl
  · show (if ((N : Int) = 2 ∧ (m : Int) = 1) then _
      else exampleEnv.compute_polynomial_set N m).length = _
    rw [if_neg h]
    exact exampleEnv_sizes N m

theorem orthoEnv_Pkp1 : Pkp1 orthoEnv ((0 : Nat) : Int) =
    [{ dim := 2, order := 1, coeffs := [1, 0, 0] },
     { dim := 2, order := 1, coeffs := [2, -3 / 2, -3] },
     { dim := 2, order := 1, coeffs := [2, -3, -3 / 2] }] := rfl

theorem orthoEnv_phi0 : Pkp1_fun orthoEnv ((0 : Nat) : Int) 0 = fun _ => 1 := by
  funext pt
  unfold Pkp1_fun
  rw [orthoEnv_Pkp1]
  simp [orthoEnv, exampleEnv, Fin.sum_univ_succ]

theorem orthoEnv_phi1 : Pkp1_fun orthoEnv ((0 : Nat) : Int) 1
    = fun pt => 2 - 3 / 2 * pt 0 - 3 * pt 1 := by
  funext pt
  unfold Pkp1_fun
  rw [orthoEnv_Pkp1]
  simp [orthoEnv, exampleEnv, Fin.sum_univ_succ]
  ring

theorem orthoEnv_phi2 : Pkp1_fun orthoEnv ((0 : Nat) : Int) 2
    = fun pt => 2 - 3 * pt 0 - 3 / 2 * pt 1 := by
  funext pt
  unfold Pkp1_fun
  rw [orthoEnv_Pkp1]
  simp [orthoEnv, exampleEnv, Fin.sum_univ_succ]
  ring

theorem orthoEnv_length : (Pkp1 orthoEnv ((0 : Nat) : Int)).length = 3 := rfl

theorem orthoEnv_phi (k : Nat) (hk : k < 3) :
    Pkp1_fun orthoEnv ((0 : Nat) : Int) k
      = fun pt => if k = 0 then 1 else if k = 1 then 2 - 3 / 2 * pt 0 - 3 * pt 1
          else 2 - 3 * pt 0 - 3 / 2 * pt 1 := by
  have h : k = 0 ∨ k = 1 ∨ k = 2 := by omega
  rcases h with h | h | h
  · rw [h, orthoEnv_phi0]
    rfl
  · rw [h, orthoEnv_phi1]
    rfl
  · rw [h, orthoEnv_phi2]
    rfl

theorem orthoI_apply (f : (Fin 2 → ℚ) → ℚ) :
    orthoI f = 1 / 9 * f ![0, 0] + 4 / 9 * f ![1, 0] + 4 / 9 * f ![0, 1] := by
  have e0 : (Qrule orthoEnv ((0 : Nat) : Int)).pts (0 : Fin 3) = ![0, 0] := by
    funext c
    fin_cases c <;> simp [Qrule, orthoEnv]
  have e1 : (Qrule orthoEnv ((0 : Nat) : Int)).pts (1 : Fin 3) = ![1, 0] := by
    funext c
    fin_cases c <;> simp [Qrule, orthoEnv]
  have e2 : (Qrule orthoEnv ((0 : Nat) : Int)).pts (2 : Fin 3) = ![0, 1] := by
    funext c
    fin_cases c <;> simp [Qrule, orthoEnv]
  have w0 : (Qrule orthoEnv ((0 : Nat) : Int)).wts (0 : Fin 3) = 1 / 9 := by
    simp [Qrule, orthoEnv]
  have w1 : (Qrule orthoEnv ((0 : Nat) : Int)).wts (1 : Fin 3) = 4 / 9 := by
    simp [Qrule, orthoEnv]
  have w2 : (Qrule orthoEnv ((0 : Nat) : Int)).wts (2 : Fin 3) = 4 / 9 := by
    simp [Qrule, orthoEnv]
  unfold orthoI
  have e : ∀ g : Fin 3 → ℚ, (∑ q : Fin 3, g q) = g 0 + g 1 + g 2 := by
    intro g
    rw [Fin.sum_univ_three]
  exact (e _).trans (by rw [e0, e1, e2, w0, w1, w2])

theorem orthoEnv_ortho (k l : Nat) (hk : k < (Pkp1 orthoEnv ((0 : Nat) : Int)).length)
    (hl : l < (Pkp1 orthoEnv ((0 : Nat) : Int)).length) :
    orthoI (Pkp1_fun orthoEnv ((0 : Nat) : Int) k * Pkp1_fun orthoEnv ((0 : Nat) : Int) l)
      = if k = l then 1 else 0 := by
  rw [orthoEnv_length] at hk hl
  rw [orthoI_apply, orthoEnv_phi k hk, orthoEnv_phi l hl]
  have h : k = 0 ∨ k = 1 ∨ k = 2 := by omega
  have h2 : l = 0 ∨ l = 1 ∨ l = 2 := by omega
  rcases h with h | h | h <;> rcases h2 with h2 | h2 | h2 <;> subst h <;> subst h2 <;>
    simp <;> norm_num

theorem const_mem_PolyDeg (m : Nat) : (fun _ : Fin 2 → K => (1 : K)) ∈ PolyDeg K m := by
  refine Submodule.subset_span ⟨0, 0, by omega, ?_⟩
  funext pt
  simp

theorem orthoEnv_basis :
    Submodule.span ℚ (Set.range (fun k : Fin (Pkp1 orthoEnv ((0 : Nat) : Int)).length =>
      Pkp1_fun orthoEnv ((0 : Nat) : Int) k)) = PolyDeg ℚ (0 + 1) := by
  have hx := coord_mem_PolyDeg (K := ℚ) 0
  have hy := coord_mem_PolyDeg (K := ℚ) 1
  have h1 := const_mem_PolyDeg (K := ℚ) 1
  have m0 : Pkp1_fun orthoEnv ((0 : Nat) : Int) 0 ∈ Submodule.span ℚ
      (Set.range (fun k : Fin (Pkp1 orthoEnv ((0 : Nat) : Int)).length =>
        Pkp1_fun orthoEnv ((0 : Nat) : Int) k)) :=
    Submodule.subset_span ⟨⟨0, by rw [orthoEnv_length]; decide⟩, rfl⟩
  have m1 : Pkp1_fun orthoEnv ((0 : Nat) : Int) 1 ∈ Submodule.span ℚ
      (Set.range (fun k : Fin (Pkp1 orthoEnv ((0 : Nat) : Int)).length =>
        Pkp1_fun orthoEnv ((0 : Nat) : Int) k)) :=
    Submodule.subset_span ⟨⟨1, by rw [orthoEnv_length]; decide⟩, rfl⟩
  have m2 : Pkp1_fun orthoEnv ((0 : Nat) : Int) 2 ∈ Submodule.span ℚ
      (Set.range (fun k : Fin (Pkp1 orthoEnv ((0 : Nat) : Int)).length =>
        Pkp1_fun orthoEnv ((0 : Nat) : Int) k)) :=
    Submodule.subset_span ⟨⟨2, by rw [orthoEnv_length]; decide⟩, rfl⟩
  apply le_antisymm
  · refine Submodule.span_le.mpr ?_
    rintro _ ⟨k, rfl⟩
    have hk : (k : Nat) < 3 := k.isLt
    have h : (k : Nat) = 0 ∨ (k : Nat) = 1 ∨ (k : Nat) = 2 := by omega
    show Pkp1_fun orthoEnv ((0 : Nat) : Int) (k : Nat) ∈ PolyDeg ℚ (0 + 1)
    rcases h with h | h | h
    · rw [h, orthoEnv_phi0]
      exact h1
    · rw [h, orthoEnv_phi1]
      have e : (fun pt : Fin 2 → ℚ => 2 - 3 / 2 * pt 0 - 3 * pt 1)
          = (2 : ℚ) • (fun _ : Fin 2 → ℚ => (1 : ℚ)) + (-3 / 2 : ℚ) • (fun pt : Fin 2 → ℚ => pt 0)
            + (-3 : ℚ) • (fun pt : Fin 2 → ℚ => pt 1) := by
        funext pt
        simp only [Pi.add_apply, Pi.smul_apply, smul_eq_mul]
        ring
      rw [e]
      exact Submodule.add_mem _ (Submodule.add_mem _ (Submodule.smul_mem _ _ h1)
        (Submodule.smul_mem _ _ hx)) (Submodule.smul_mem _ _ hy)
    · rw [h, orthoEnv_phi2]
      have e : (fun pt : Fin 2 → ℚ => 2 - 3 * pt 0 - 3 / 2 * pt 1)
          = (2 : ℚ) • (fun _ : Fin 2 → ℚ => (1 : ℚ)) + (-3 : ℚ) • (fun pt : Fin 2 → ℚ => pt 0)
            + (-3 / 2 : ℚ) • (fun pt : Fin 2 → ℚ => pt 1) := by
        funext pt
        simp only [Pi.add_apply, Pi.smul_apply, smul_eq_mul]
        ring
      rw [e]
      exact Submodule.add_mem _ (Submodule.add_mem _ (Submodule.smul_mem _ _ h1)
        (Submodule.smul_mem _ _ hx)) (Submodule.smul_mem _ _ hy)
  · refine Submodule.span_le.mpr ?_
    rintro _ ⟨a, b, hab, rfl⟩
    have h : (a = 0 ∧ b = 0) ∨ (a = 1 ∧ b = 0) ∨ (a = 0 ∧ b = 1) := by omega
    rcases h with ⟨ha, hb⟩ | ⟨ha, hb⟩ | ⟨ha, hb⟩
    · have e : (fun pt : Fin 2 → ℚ => pt 0 ^ a * pt 1 ^ b)
          = Pkp1_fun orthoEnv ((0 : Nat) : Int) 0 := by
        rw [orthoEnv_phi0, ha, hb]
        funext pt
        simp
      rw [e]
      exact m0
    · have e : (fun pt : Fin 2 → ℚ => pt 0 ^ a * pt 1 ^ b)
          = (4 / 9 : ℚ) • Pkp1_fun orthoEnv ((0 : Nat) : Int) 0
            + (2 / 9 : ℚ) • Pkp1_fun orthoEnv ((0 : Nat) : Int) 1
            + (-4 / 9 : ℚ) • Pkp1_fun orthoEnv ((0 : Nat) : Int) 2 := by
        rw [orthoEnv_phi0, orthoEnv_phi1, orthoEnv_phi2, ha, hb]
        funext pt
        simp only [Pi.add_apply, Pi.smul_apply, smul_eq_mul, pow_zero, pow_one]
        ring
      rw [e]
      exact Submodule.add_mem _ (Submodule.add_mem _ (Submodule.smul_mem _ _ m0)
        (Submodule.smul_mem _ _ m1)) (Submodule.smul_mem _ _ m2)
    · have e : (fun pt : Fin 2 → ℚ => pt 0 ^ a * pt 1 ^ b)
          = (4 / 9 : ℚ) • Pkp1_fun orthoEnv ((0 : Nat) : Int) 0
            + (-4 / 9 : ℚ) • Pkp1_fun orthoEnv ((0 : Nat) : Int) 1
            + (2 / 9 : ℚ) • Pkp1_fun orthoEnv ((0 : Nat) : Int) 2 := by
        rw [orthoEnv_phi0, orthoEnv_phi1, orthoEnv_phi2, ha, hb]
        funext pt
        simp only [Pi.add_apply, Pi.smul_apply, smul_eq_mul, pow_zero, pow_one]
        ring
      rw [e]
      exact Submodule.add_mem _ (Submodule.add_mem _ (Submodule.smul_mem _ _ m0)
        (Submodule.smul_mem _ _ m1)) (Submodule.smul_mem _ _ m2)

theorem orthoEnv_first :
    Submodule.span ℚ (Set.range (fun k : Fin (nv ((0 : Nat) : Int)).toNat =>
      Pkp1_fun orthoEnv ((0 : Nat) : Int) k)) = PolyDeg ℚ 0 := by
  apply le_antisymm
  · refine Submodule.span_le.mpr ?_
    rintro _ ⟨k, rfl⟩
    have hk : (k : Nat) < 1 := k.isLt
    have h : (k : Nat) = 0 := by omega
    show Pkp1_fun orthoEnv ((0 : Nat) : Int) (k : Nat) ∈ PolyDeg ℚ 0
    rw [h, orthoEnv_phi0]
    exact const_mem_PolyDeg 0
  · refine Submodule.span_le.mpr ?_
    rintro _ ⟨a, b, hab, rfl⟩
    have ha : a = 0 := by omega
    have hb : b = 0 := by omega
    have e : (fun pt : Fin 2 → ℚ => pt 0 ^ a * pt 1 ^ b)
        = Pkp1_fun orthoEnv ((0 : Nat) : Int) 0 := by
      rw [orthoEnv_phi0, ha, hb]
      funext pt
      simp
    rw [e]
    exact Submodule.subset_span ⟨⟨0, by decide⟩, rfl⟩

theorem Sk_rows_witness :
    nv ((0 : Nat) : Int) ≤ psize orthoEnv ((0 : Nat) : Int) ∧
    (∀ f ∈ PolyDeg ℚ (2 * (0 + 1)),
      (∑ q, (Qrule orthoEnv ((0 : Nat) : Int)).wts q * f ((Qrule orthoEnv ((0 : Nat) : Int)).pts q)) = orthoI f) ∧
    (∀ k l : Nat, k < (Pkp1 orthoEnv ((0 : Nat) : Int)).length → l < (Pkp1 orthoEnv ((0 : Nat) : Int)).length →
      orthoI (Pkp1_fun orthoEnv ((0 : Nat) : Int) k * Pkp1_fun orthoEnv ((0 : Nat) : Int) l) = if k = l then 1 else 0) ∧
    Submodule.span ℚ (Set.range (fun k : Fin (Pkp1 orthoEnv ((0 : Nat) : Int)).length =>
      Pkp1_fun orthoEnv ((0 : Nat) : Int) k)) = PolyDeg ℚ (0 + 1) ∧
    Submodule.span ℚ (Set.range (fun k : Fin (nv ((0 : Nat) : Int)).toNat =>
      Pkp1_fun orthoEnv ((0 : Nat) : Int) k)) = PolyDeg ℚ 0 ∧
    ∃ W, wcoeffs orthoEnv ((0 : Nat) : Int) = .ok W ∧
      ∀ i : Nat, (i : Int) < ns ((0 : Nat) : Int) →
        ∃ r : Fin (nrows ((0 : Nat) : Int)), ((r : Nat) : Int) = 2 * nv ((0 : Nat) : Int) + i ∧
          (∀ l : Nat, (l : Int) < psize orthoEnv ((0 : Nat) : Int) →
            ∃ c c1 : Fin (ncols orthoEnv ((0 : Nat) : Int)), (c : Nat) = l ∧
              ((c1 : Nat) : Int) = psize orthoEnv ((0 : Nat) : Int) + l ∧
              W r c = (∑ q, (Qrule orthoEnv ((0 : Nat) : Int)).wts q
                * Pkp1_fun orthoEnv ((0 : Nat) : Int) (ns0 ((0 : Nat) : Int) + i).toNat ((Qrule orthoEnv ((0 : Nat) : Int)).pts q)
                * (Qrule orthoEnv ((0 : Nat) : Int)).pts q 1 * Pkp1_fun orthoEnv ((0 : Nat) : Int) l ((Qrule orthoEnv ((0 : Nat) : Int)).pts q)) ∧
              W r c1 = -(∑ q, (Qrule orthoEnv ((0 : Nat) : Int)).wts q
                * Pkp1_fun orthoEnv ((0 : Nat) : Int) (ns0 ((0 : Nat) : Int) + i).toNat ((Qrule orthoEnv ((0 : Nat) : Int)).pts q)
                * (Qrule orthoEnv ((0 : Nat) : Int)).pts q 0
                * Pkp1_fun orthoEnv ((0 : Nat) : Int) l ((Qrule orthoEnv ((0 : Nat) : Int)).pts q))) ∧
          (∀ pt : Fin 2 → ℚ,
            (∑ l : Fin (Pkp1 orthoEnv ((0 : Nat) : Int)).length, Eigen.entry W r l * Pkp1_fun orthoEnv ((0 : Nat) : Int) l pt)
              = pt 1 * Pkp1_fun orthoEnv ((0 : Nat) : Int) (ns0 ((0 : Nat) : Int) + i).toNat pt ∧
            (∑ l : Fin (Pkp1 orthoEnv ((0 : Nat) : Int)).length,
              Eigen.entry W r ((psize orthoEnv ((0 : Nat) : Int)).toNat + l) * Pkp1_fun orthoEnv ((0 : Nat) : Int) l pt)
              = -pt 0 * Pkp1_fun orthoEnv ((0 : Nat) : Int) (ns0 ((0 : Nat) : Int) + i).toNat pt ∧
            (∑ l : Fin (Pkp1 orthoEnv ((0 : Nat) : Int)).length,
                Eigen.entry W r l * Pkp1_fun orthoEnv ((0 : Nat) : Int) l pt) * pt 0
              + (∑ l : Fin (Pkp1 orthoEnv ((0 : Nat) : Int)).length,
                  Eigen.entry W r ((psize orthoEnv ((0 : Nat) : Int)).toNat + l) * Pkp1_fun orthoEnv ((0 : Nat) : Int) l pt) * pt 1
              = 0) ∧
          (∀ c : Fin (Pkp1 orthoEnv ((0 : Nat) : Int)).length → ℚ,
            (∀ pt : Fin 2 → ℚ, (∑ l, c l * Pkp1_fun orthoEnv ((0 : Nat) : Int) l pt)
              = pt 1 * Pkp1_fun orthoEnv ((0 : Nat) : Int) (ns0 ((0 : Nat) : Int) + i).toNat pt) →
            ∀ l : Fin (Pkp1 orthoEnv ((0 : Nat) : Int)).length, c l = Eigen.entry W r l) ∧
          (∀ c : Fin (Pkp1 orthoEnv ((0 : Nat) : Int)).length → ℚ,
            (∀ pt : Fin 2 → ℚ, (∑ l, c l * Pkp1_fun orthoEnv ((0 : Nat) : Int) l pt)
              = -pt 0 * Pkp1_fun orthoEnv ((0 : Nat) : Int) (ns0 ((0 : Nat) : Int) + i).toNat pt) →
            ∀ l : Fin (Pkp1 orthoEnv ((0 : Nat) : Int)).length,
              c l = Eigen.entry W r ((psize orthoEnv ((0 : Nat) : Int)).toNat + l)) :=
  ⟨by decide, fun _ _ => rfl, orthoEnv_ortho, orthoEnv_basis, orthoEnv_first,
    Sk_rows orthoEnv 0 orthoI (by decide) (fun _ _ => rfl) orthoEnv_ortho orthoEnv_basis
      orthoEnv_first⟩

end Nedelec2D

end Basix
